import Mathlib

/-!
# sitegen.c : a shallow embedding of the markup compiler

The C program keeps every document in one heap buffer and walks it with
`string_t` values, pairs of pointers `ptr`/`end`. Here a buffer is a list of
bytes, a pointer is an integer offset from the start of its buffer (an
integer, because `advance_block` can build the pointer `ptr - 1`), and every
read through a pointer is checked: a read outside the buffer is undefined
behaviour in C and is the result `Res.oob` here.

Output streams (`FILE* out`) are lists of bytes threaded through the
functions that write to them.

Every `while` loop is a function by recursion on a number of iterations it may
still run; each caller passes a number that the loop cannot use up (the bytes
left under the cursor), and a loop that did use it up would end in
`Res.nofuel`, never in a value.

`read_file` keeps the length of what it reads in a `uint32_t`, so a buffer it
returns has fewer than 2^32 bytes; the statements about spans of loaded buffers
carry that bound, under which the `uint32_t` length of `render_block` is the
length of the span.
-/

namespace Sitegen

/-- A C `char`, as its byte value. -/
abbrev Byte := Nat

/-- The bytes of an ASCII string literal of the C source. -/
def bytes (s : String) : List Byte := s.toList.map Char.toNat

/-- Result of running a piece of the program: a value, an out-of-bounds read
(undefined behaviour in C), or a loop that was given too few iterations. -/
inductive Res (α : Type) where
  | ok (a : α)
  | oob
  | nofuel
  deriving DecidableEq, Repr

/-- Sequencing of results: the first fault stops the computation. -/
def Res.bind {α β : Type} (x : Res α) (f : α → Res β) : Res β :=
  match x with
  | .ok a => f a
  | .oob => .oob
  | .nofuel => .nofuel

instance : Monad Res where
  pure := Res.ok
  bind := Res.bind

/-- The struct `string_t` of sitegen.c: `ptr` and `end`, as offsets into the buffer. -/
structure string_t where
  ptr : Int
  end_ : Int
  deriving DecidableEq, Repr

/-- Read of one byte through a pointer: `mem` is the buffer, `p` the offset. -/
def load (mem : List Byte) (p : Int) : Res Byte :=
  if 0 ≤ p then
    match mem[p.toNat]? with
    | some c => .ok c
    | none => .oob
  else .oob

/-- The loop of `trim` (lines 14-22); every iteration moves one of the two
pointers towards the other, so `end - ptr` iterations are enough. -/
def trim_loop (mem : List Byte) : Nat → string_t → Res string_t
  | 0, str => if str.ptr < str.end_ then .nofuel else .ok str
  | fuel + 1, str =>
    if str.ptr < str.end_ then do
      let c0 ← load mem str.ptr
      if c0 = 32 ∨ c0 = 9 then                     -- ' ' or '\t'
        trim_loop mem fuel { str with ptr := str.ptr + 1 }
      else do
        let c1 ← load mem (str.end_ - 1)
        if c1 = 32 ∨ c1 = 9 then
          trim_loop mem fuel { str with end_ := str.end_ - 1 }
        else
          .ok str                                  -- break
    else .ok str

/-- Lines 13-23, `void trim(string_t* str)`: returns the updated `*str`. -/
def trim (mem : List Byte) (str : string_t) : Res string_t :=
  trim_loop mem (str.end_ - str.ptr).toNat str

/-- The loop of `advance_block` (lines 27-32), returning the updated `*str`. -/
def advance_loop (mem : List Byte) (term : Byte) : Nat → string_t → Res string_t
  | 0, str => if str.ptr < str.end_ then .nofuel else .ok str
  | fuel + 1, str =>
    if str.ptr < str.end_ then do
      let c ← load mem str.ptr
      let str := { str with ptr := str.ptr + 1 }   -- c = *str->ptr++
      if c = term then .ok str                     -- break
      else advance_loop mem term fuel str
    else .ok str

/-- Lines 25-38, `advance_block`: returns the result span and the updated `*str`. -/
def advance_block (mem : List Byte) (str : string_t) (term : Byte) (trim_ws : Bool) :
    Res (string_t × string_t) := do
  let ptr := str.ptr
  let str ← advance_loop mem term (str.end_ - str.ptr).toNat str
  let result : string_t := { ptr := ptr, end_ := str.ptr - 1 }
  if trim_ws then do
    let result ← trim mem result
    .ok (result, str)
  else
    .ok (result, str)

/-- The `switch` of `render_block` (lines 44-49): the bytes written for `c`. -/
def render_char (c : Byte) : List Byte :=
  if c = 60 then bytes "&lt;"                      -- '<'
  else if c = 62 then bytes "&gt;"                 -- '>'
  else if c = 38 then bytes "&amp;"                -- '&'
  else [c]

/-- The `for` loop of `render_block` (lines 42-50): `n` iterations are left,
the next one reads `str.ptr[i]`; `out` is the stream. -/
def render_loop (mem : List Byte) (str : string_t) : Nat → Nat → List Byte → Res (List Byte)
  | 0, _, out => .ok out
  | n + 1, i, out => do
    let c ← load mem (str.ptr + i)
    render_loop mem str n (i + 1) (out ++ render_char c)

/-- Lines 40-51, `render_block`: `len` is the pointer difference cast to
`uint32_t`; returns the stream after the writes. -/
def render_block (mem : List Byte) (out : List Byte) (str : string_t) : Res (List Byte) :=
  let len : Nat := ((str.end_ - str.ptr) % 4294967296).toNat
  render_loop mem str len 0 out

/-- The inner loop of the list block (lines 148-158); `c` is the loop variable. -/
def list_loop (mem : List Byte) : Nat → Byte → string_t → List Byte → Res (string_t × List Byte)
  | 0, c, src, out => if c = 45 then .nofuel else .ok (src, out)
  | fuel + 1, c, src, out =>
    if c = 45 then do                              -- while (c == '-')
      let (line, src) ← advance_block mem src 10 true
      let out := out ++ bytes "<li>"
      let out ← render_block mem out line
      let out := out ++ bytes "</li>"
      if src.ptr < src.end_ then do
        let d ← load mem src.ptr
        if d = 45 then
          list_loop mem fuel d { src with ptr := src.ptr + 1 } out
        else
          list_loop mem fuel 32 src out
      else
        list_loop mem fuel 32 src out
    else .ok (src, out)

/-- The inner loop of the code block (lines 164-173); `c` is the loop variable. -/
def code_loop (mem : List Byte) : Nat → Byte → string_t → List Byte → Res (string_t × List Byte)
  | 0, c, src, out => if c = 96 then .nofuel else .ok (src, out)
  | fuel + 1, c, src, out =>
    if c = 96 then do                              -- while (c == '`')
      let (line, src) ← advance_block mem src 10 false
      let out ← render_block mem out line
      let out := out ++ bytes "\n"
      if src.ptr < src.end_ then do
        let d ← load mem src.ptr
        if d = 96 then
          code_loop mem fuel d { src with ptr := src.ptr + 1 } out
        else
          code_loop mem fuel 32 src out
      else
        code_loop mem fuel 32 src out
    else .ok (src, out)

/-- One iteration of the body loop (lines 118-180), entered with `src.ptr < src.end`.
The first component is `some code` when the iteration executes `return code`. -/
def body_step (mem : List Byte) (src : string_t) (out : List Byte) :
    Res (Option Int × string_t × List Byte) := do
  let c ← load mem src.ptr
  let src := { src with ptr := src.ptr + 1 }       -- c = *src.ptr++
  if c = 10 then                                   -- '\n'
    .ok (none, src, out)
  else if c = 32 then do                           -- ' '
    let (line, src) ← advance_block mem src 10 true
    let out := out ++ bytes "<p>"
    let out ← render_block mem out line
    let out := out ++ bytes "</p>"
    .ok (none, src, out)
  else if c = 35 then do                           -- '#'
    let (line, src) ← advance_block mem src 10 true
    let out := out ++ bytes "<h2>"
    let out ← render_block mem out line
    let out := out ++ bytes "</h2>"
    .ok (none, src, out)
  else if c = 33 then do                           -- '!'
    let (link, src) ← advance_block mem src 124 true
    let (label, src) ← advance_block mem src 10 true
    let out := out ++ bytes "<p><a href=\""
    let out ← render_block mem out link
    let out := out ++ bytes "\">"
    let out ← render_block mem out label
    let out := out ++ bytes "</a></p>"
    .ok (none, src, out)
  else if c = 45 then do                           -- '-'
    let out := out ++ bytes "<ul>"
    let (src, out) ← list_loop mem ((src.end_ - src.ptr).toNat + 2) c src out
    let out := out ++ bytes "</ul>"
    .ok (none, src, out)
  else if c = 96 then do                           -- '`'
    let out := out ++ bytes "<pre>"
    let (src, out) ← code_loop mem ((src.end_ - src.ptr).toNat + 2) c src out
    let out := out ++ bytes "</pre>"
    .ok (none, src, out)
  else
    .ok (some 1, src, out)                         -- default: return 1

/-- The body loop (lines 117-181). The result is `some code` when the loop was
left by `return code`, and `none` when the buffer was exhausted. -/
def body_loop (mem : List Byte) : Nat → string_t → List Byte → Res (Option Int × List Byte)
  | 0, src, out => if src.ptr < src.end_ then .nofuel else .ok (none, out)
  | fuel + 1, src, out =>
    if src.ptr < src.end_ then do
      let (ret, src, out) ← body_step mem src out
      match ret with
      | some code => .ok (some code, out)
      | none => body_loop mem fuel src out
    else .ok (none, out)

/-- The body loop of `compile` run from the cursor `src`: it is left at the latest
when every byte up to `src.end` has been consumed. -/
def body (mem : List Byte) (src : string_t) (out : List Byte) : Res (Option Int × List Byte) :=
  body_loop mem (src.end_ - src.ptr).toNat src out

/-- Lines 98-114 of `compile`: the page header written before the body. -/
def render_header (mem : List Byte) (date title : string_t) (cssmem : List Byte)
    (css : string_t) (out : List Byte) : Res (List Byte) := do
  let out := out ++ bytes "<!DOCTYPE html><head>"
  let out := out ++ bytes "<meta charset=\"utf-8\">"
  let out := out ++ bytes "<title>"
  let out ← render_block mem out title
  let out := out ++ bytes "</title>"
  let out := out ++ bytes "<style>"
  let out ← render_block cssmem out css
  let out := out ++ bytes "</style>"
  let out := out ++ bytes "</head><body>"
  let out := out ++ bytes "<h1>"
  let out ← render_block mem out title
  let out := out ++ bytes "</h1>"
  let out := out ++ bytes "<p class=\"subt\">"
  let out ← render_block mem out date
  let out := out ++ bytes "</p>"
  .ok out

/-- Lines 83-188, `compile`. `file` is what `read_file(in_file)` returned: `none`
for the null span, else the bytes read, the span being the whole buffer. `css` is
a span of the buffer `cssmem`. The result is the return value and the bytes
written to the output file (nothing when the input could not be read: the output
file is not opened then). -/
def compile (file : Option (List Byte)) (cssmem : List Byte) (css : string_t) :
    Res (Int × List Byte) :=
  match file with
  | none => .ok (1, [])
  | some mem => do
    let src : string_t := { ptr := 0, end_ := mem.length }
    let out : List Byte := []
    let (date, src) ← advance_block mem src 124 true
    let (title, src) ← advance_block mem src 10 true
    let out ← render_header mem date title cssmem css out
    let (ret, out) ← body mem src out
    match ret with
    | some code => .ok (code, out)
    | none =>
      let out := out ++ bytes "<p class=\"back\"><a href=\"index.html\">&larr; Back to index</a></p>"
      let out := out ++ bytes "</body></html>"
      .ok (0, out)

/-! ## Vocabulary of the statements

Byte strings instead of spans: what a span denotes, two-ended trimming and
escaping of a byte string, and the source text of list and code blocks. -/

/-- Horizontal white space as `trim` tests it: space or tab. -/
def ws (c : Byte) : Bool := c == 32 || c == 9

/-- Trimming as section 4.1 of the specification words it: the longest leading
run of spaces and tabs is removed, then the longest trailing run. -/
def trim_two_pass (s : List Byte) : List Byte := (s.dropWhile ws).rdropWhile ws

/-- The bytes a span denotes: those from `ptr` up to `end`. -/
def slice (mem : List Byte) (s : string_t) : List Byte :=
  (mem.drop s.ptr.toNat).take (s.end_ - s.ptr).toNat

/-- The escaped form of a byte string: each byte replaced by what `render_block`
writes for it. -/
def escape (s : List Byte) : List Byte := s.flatMap render_char

/-- The source text of a list block: each item behind a '-' and before a newline. -/
def list_lines (items : List (List Byte)) : List Byte :=
  items.flatMap fun i => 45 :: (i ++ [10])

/-- The source text of a code block: each line behind a backquote and before a newline. -/
def code_lines (lines : List (List Byte)) : List Byte :=
  lines.flatMap fun l => 96 :: (l ++ [10])

/-- A result with its value transformed. -/
def Res.map {α β : Type} (f : α → β) : Res α → Res β
  | .ok a => .ok (f a)
  | .oob => .oob
  | .nofuel => .nofuel

/-- The body loop, started at the top of an iteration with cursor and stream
`src`, `out`, is at the top of an iteration with `src'`, `out'` after some
number (possibly zero) of complete iterations, none of which returned. -/
inductive BodyReaches (mem : List Byte) :
    string_t → List Byte → string_t → List Byte → Prop where
  | refl (src : string_t) (out : List Byte) : BodyReaches mem src out src out
  | step (src : string_t) (out : List Byte) (src1 : string_t) (out1 : List Byte)
      (src2 : string_t) (out2 : List Byte) :
      src.ptr < src.end_ → body_step mem src out = .ok (none, src1, out1) →
      BodyReaches mem src1 out1 src2 out2 → BodyReaches mem src out src2 out2

/-- The bytes lines 99-114 of `compile` write ahead of the body, for a title, a
stylesheet and a date given by their bytes. -/
def page_head (title css date : List Byte) : List Byte :=
  bytes "<!DOCTYPE html><head>" ++ bytes "<meta charset=\"utf-8\">" ++ bytes "<title>"
    ++ escape title ++ bytes "</title>" ++ bytes "<style>" ++ escape css ++ bytes "</style>"
    ++ bytes "</head><body>" ++ bytes "<h1>" ++ escape title ++ bytes "</h1>"
    ++ bytes "<p class=\"subt\">" ++ escape date ++ bytes "</p>"

/-- The bytes lines 182-183 of `compile` write behind the body. -/
def page_foot : List Byte :=
  bytes "<p class=\"back\"><a href=\"index.html\">&larr; Back to index</a></p>"
    ++ bytes "</body></html>"

/-- A span moved by `k` bytes: the same span seen in a buffer that has `k` more
bytes in front. -/
def shift (k : Int) (s : string_t) : string_t := ⟨s.ptr + k, s.end_ + k⟩

/-! ## The batch driver: `filter_txt`, the index and `main` -/

/-- The C library's `strrchr(s, c)` for a byte `c` other than NUL, the string `s`
given by its bytes before the NUL: the part of `s` from the last `c` on, `none`
for the null pointer. -/
def strrchr (s : List Byte) (c : Byte) : Option (List Byte) :=
  match s with
  | [] => none
  | x :: t =>
    match strrchr t c with
    | some r => some r
    | none => if x = c then some (x :: t) else none

/-- Lines 190-196, `filter_txt`, on the `d_name` of the entry; `strcmp(ext, ".txt") == 0`
is equality of the two strings. -/
def filter_txt (d_name : List Byte) : Int :=
  match strrchr d_name 46 with                     -- strrchr(ent->d_name, '.')
  | some ext => if ext = bytes ".txt" then 1 else 0
  | none => 0

/-- What `sprintf` writes for `"%.*shtml"` with the precision `strlen(d_name) - 3`
(lines 223 and 242): at most that many bytes of `d_name`, the whole of it when the
precision is negative, then "html". The arrays written to are taken to be large
enough. -/
def html_name (d_name : List Byte) : List Byte :=
  let precision : Int := (d_name.length : Int) - 3
  (if 0 ≤ precision then d_name.take precision.toNat else d_name) ++ bytes "html"

/-- Lines 95-96 and 246-247: the header parse, on a span `src` of the buffer `mem`;
returns the spans of date and title and the cursor behind them. -/
def parse_header (mem : List Byte) (src : string_t) : Res (string_t × string_t × string_t) := do
  let (date, src) ← advance_block mem src 124 true
  let (title, src) ← advance_block mem src 10 true
  .ok (date, title, src)

/-- One iteration of the index loop (lines 241-255) for the entry `d_name`. `read`
is `read_file` on the file system: `none` for the null span, whose two pointers
are null, so that any read through it is out of bounds. -/
def index_step (read : List Byte → Option (List Byte)) (in_path d_name : List Byte)
    (out : List Byte) : Res (List Byte) := do
  let in_file := in_path ++ bytes "/" ++ d_name
  let out_file := html_name d_name
  let mem : List Byte := (read in_file).getD []
  let src : string_t := ⟨0, mem.length⟩
  let (date, title, _) ← parse_header mem src
  let out := out ++ bytes "<p><a href=\"" ++ out_file ++ bytes "\">"
  let out ← render_block mem out date
  let out := out ++ bytes " - "
  let out ← render_block mem out title
  let out := out ++ bytes "</a></p>"
  .ok out

/-- The index loop (lines 240-256), `for (i = num_files-1; i >= 0; i--)`: the first
argument is `i + 1`. -/
def index_loop (read : List Byte → Option (List Byte)) (in_path : List Byte)
    (filelist : List (List Byte)) : Nat → List Byte → Res (List Byte)
  | 0, out => .ok out
  | i + 1, out =>
    match filelist[i]? with
    | none => .oob
    | some d_name => do
      let out ← index_step read in_path d_name out
      index_loop read in_path filelist i out

/-- Lines 229-258 of `main`: the bytes written to index.html. -/
def index_page (read : List Byte → Option (List Byte)) (in_path cssmem : List Byte)
    (css : string_t) (filelist : List (List Byte)) : Res (List Byte) := do
  let out : List Byte := []
  let out := out ++ bytes "<!DOCTYPE html><head>"
  let out := out ++ bytes "<meta charset=\"utf-8\">"
  let out := out ++ bytes "<title>bareware.dev</title>"
  let out := out ++ bytes "<style>"
  let out ← render_block cssmem out css
  let out := out ++ bytes "</style>"
  let out := out ++ bytes "</head><body>"
  let out := out ++ bytes "<h1>bareware.dev</h1>"
  let out := out ++ bytes "<p class=\"subt\">Engineering without abstraction layers between you and the machine!</p>"
  let out ← index_loop read in_path filelist filelist.length out
  let out := out ++ bytes "</body></html>"
  .ok out

/-- The path `sprintf` writes into `out_file` at line 223. -/
def page_path (out_path d_name : List Byte) : List Byte :=
  out_path ++ bytes "/" ++ html_name d_name

/-- The first loop of `main` (lines 220-225) over the entries still to come;
`files` are the files written so far, each with its path. The value `compile`
returns is not looked at. -/
def compile_all (read : List Byte → Option (List Byte)) (in_path out_path cssmem : List Byte)
    (css : string_t) : List (List Byte) → List (List Byte × List Byte) →
    Res (List (List Byte × List Byte))
  | [], files => .ok files
  | d_name :: rest, files => do
    let in_file := in_path ++ bytes "/" ++ d_name
    let out_file := page_path out_path d_name
    let (_, page) ← compile (read in_file) cssmem css
    let files := match read in_file with
      | none => files                              -- compile returned before fopen
      | some _ => files ++ [(out_file, page)]
    compile_all read in_path out_path cssmem css rest files

/-- Lines 198-268, `main`. `dir` is the directory `in_path` as `scandir` with
`alphasort` sees it: its entry names in sorted order, `none` when it cannot be
read. The result is the exit status and the files written, in order, each with
its path. What is printed to the standard streams is left out. -/
def main (argc : Nat) (in_path out_path css_file : List Byte)
    (dir : Option (List (List Byte))) (read : List Byte → Option (List Byte)) :
    Res (Int × List (List Byte × List Byte)) :=
  if argc < 4 then .ok (1, [])
  else
    match read css_file with
    | none => .ok (1, [])
    | some cssmem =>
      let css : string_t := ⟨0, cssmem.length⟩
      match dir with
      | none => .ok (1, [])
      | some entries => do
        let filelist := entries.filter fun d_name => filter_txt d_name != 0
        let files ← compile_all read in_path out_path cssmem css filelist []
        let index ← index_page read in_path cssmem css filelist
        .ok (0, files ++ [(out_path ++ bytes "/index.html", index)])

/-- A span that lies inside the buffer `mem`, its start not behind its end. -/
def span_in (mem : List Byte) (s : string_t) : Prop :=
  0 ≤ s.ptr ∧ s.ptr ≤ s.end_ ∧ s.end_ ≤ mem.length

instance (mem : List Byte) (s : string_t) : Decidable (span_in mem s) := by
  unfold span_in
  infer_instance

/-- A document of the index with what the header parse makes of it. -/
structure IndexedDoc where
  d_name : List Byte
  mem : List Byte
  date : string_t
  title : string_t

/-- The entry of the index for a document, as section 4.5 of the specification
gives it: the link to the derived name around escaped date, " - " and escaped
title. -/
def index_entry (d : IndexedDoc) : List Byte :=
  bytes "<p><a href=\"" ++ html_name d.d_name ++ bytes "\">"
    ++ escape (slice d.mem d.date) ++ bytes " - " ++ escape (slice d.mem d.title)
    ++ bytes "</a></p>"

/-- The body of the `while` of the list block (lines 149-157), entered with
`c == '-'`: returns the new `c`, the cursor and the stream. -/
def list_iter (mem : List Byte) (src : string_t) (out : List Byte) :
    Res (Byte × string_t × List Byte) := do
  let (line, src) ← advance_block mem src 10 true
  let out := out ++ bytes "<li>"
  let out ← render_block mem out line
  let out := out ++ bytes "</li>"
  if src.ptr < src.end_ then do
    let d ← load mem src.ptr
    if d = 45 then
      .ok (d, { src with ptr := src.ptr + 1 }, out)
    else
      .ok (32, src, out)
  else
    .ok (32, src, out)

/-- The body of the `while` of the code block (lines 165-172), entered with
`c` a backquote: returns the new `c`, the cursor and the stream. -/
def code_iter (mem : List Byte) (src : string_t) (out : List Byte) :
    Res (Byte × string_t × List Byte) := do
  let (line, src) ← advance_block mem src 10 false
  let out ← render_block mem out line
  let out := out ++ bytes "\n"
  if src.ptr < src.end_ then do
    let d ← load mem src.ptr
    if d = 96 then
      .ok (d, { src with ptr := src.ptr + 1 }, out)
    else
      .ok (32, src, out)
  else
    .ok (32, src, out)

/-! ## Literals and escaped text in the output of `compile` -/

/-- The string literals that `compile` writes (lines 99-114, 124-174, 182-183). -/
def compile_literals : List String :=
  ["<!DOCTYPE html><head>", "<meta charset=\"utf-8\">", "<title>", "</title>", "<style>",
   "</style>", "</head><body>", "<h1>", "</h1>", "<p class=\"subt\">", "</p>", "<p>", "<h2>",
   "</h2>", "<p><a href=\"", "\">", "</a></p>", "<ul>", "<li>", "</li>", "</ul>", "<pre>", "\n",
   "</pre>", "<p class=\"back\"><a href=\"index.html\">&larr; Back to index</a></p>",
   "</body></html>"]

/-- Byte strings made of literals of `compile` and of escaped texts, in any order:
a '<' or '>' in such a string lies in one of the literals. -/
inductive TagsAndText : List Byte → Prop where
  | nil : TagsAndText []
  | tag (w : List Byte) (s : String) : s ∈ compile_literals → TagsAndText w →
      TagsAndText (w ++ bytes s)
  | text (w t : List Byte) : TagsAndText w → TagsAndText (w ++ escape t)

/-! ## The spans handed to `render_block`

The functions below are `list_loop`, `code_loop`, `body_step`, `body_loop` and
`compile` again, with one ghost variable: `tr` lists, in call order, the spans of the
document buffer that were handed to `render_block`. -/

/-- The function `list_loop` with the ghost list `tr` (line 151 hands `line` over). -/
def list_loop_traced (mem : List Byte) :
    Nat → Byte → string_t → List Byte → List string_t → Res (string_t × List Byte × List string_t)
  | 0, c, src, out, tr => if c = 45 then .nofuel else .ok (src, out, tr)
  | fuel + 1, c, src, out, tr =>
    if c = 45 then do
      let (line, src) ← advance_block mem src 10 true
      let out := out ++ bytes "<li>"
      let tr := tr ++ [line]
      let out ← render_block mem out line
      let out := out ++ bytes "</li>"
      if src.ptr < src.end_ then do
        let d ← load mem src.ptr
        if d = 45 then
          list_loop_traced mem fuel d { src with ptr := src.ptr + 1 } out tr
        else
          list_loop_traced mem fuel 32 src out tr
      else
        list_loop_traced mem fuel 32 src out tr
    else .ok (src, out, tr)

/-- The function `code_loop` with the ghost list `tr` (line 166 hands `line` over). -/
def code_loop_traced (mem : List Byte) :
    Nat → Byte → string_t → List Byte → List string_t → Res (string_t × List Byte × List string_t)
  | 0, c, src, out, tr => if c = 96 then .nofuel else .ok (src, out, tr)
  | fuel + 1, c, src, out, tr =>
    if c = 96 then do
      let (line, src) ← advance_block mem src 10 false
      let tr := tr ++ [line]
      let out ← render_block mem out line
      let out := out ++ bytes "\n"
      if src.ptr < src.end_ then do
        let d ← load mem src.ptr
        if d = 96 then
          code_loop_traced mem fuel d { src with ptr := src.ptr + 1 } out tr
        else
          code_loop_traced mem fuel 32 src out tr
      else
        code_loop_traced mem fuel 32 src out tr
    else .ok (src, out, tr)

/-- The function `body_step` with the ghost list `tr` (lines 125, 132, 140, 142 hand
`line`, `line`, `link`, `label` over). -/
def body_step_traced (mem : List Byte) (src : string_t) (out : List Byte) (tr : List string_t) :
    Res (Option Int × string_t × List Byte × List string_t) := do
  let c ← load mem src.ptr
  let src := { src with ptr := src.ptr + 1 }
  if c = 10 then
    .ok (none, src, out, tr)
  else if c = 32 then do
    let (line, src) ← advance_block mem src 10 true
    let out := out ++ bytes "<p>"
    let tr := tr ++ [line]
    let out ← render_block mem out line
    let out := out ++ bytes "</p>"
    .ok (none, src, out, tr)
  else if c = 35 then do
    let (line, src) ← advance_block mem src 10 true
    let out := out ++ bytes "<h2>"
    let tr := tr ++ [line]
    let out ← render_block mem out line
    let out := out ++ bytes "</h2>"
    .ok (none, src, out, tr)
  else if c = 33 then do
    let (link, src) ← advance_block mem src 124 true
    let (label, src) ← advance_block mem src 10 true
    let out := out ++ bytes "<p><a href=\""
    let tr := tr ++ [link]
    let out ← render_block mem out link
    let out := out ++ bytes "\">"
    let tr := tr ++ [label]
    let out ← render_block mem out label
    let out := out ++ bytes "</a></p>"
    .ok (none, src, out, tr)
  else if c = 45 then do
    let out := out ++ bytes "<ul>"
    let (src, out, tr) ← list_loop_traced mem ((src.end_ - src.ptr).toNat + 2) c src out tr
    let out := out ++ bytes "</ul>"
    .ok (none, src, out, tr)
  else if c = 96 then do
    let out := out ++ bytes "<pre>"
    let (src, out, tr) ← code_loop_traced mem ((src.end_ - src.ptr).toNat + 2) c src out tr
    let out := out ++ bytes "</pre>"
    .ok (none, src, out, tr)
  else
    .ok (some 1, src, out, tr)

/-- The function `body_loop` with the ghost list `tr`. -/
def body_loop_traced (mem : List Byte) :
    Nat → string_t → List Byte → List string_t → Res (Option Int × List Byte × List string_t)
  | 0, src, out, tr => if src.ptr < src.end_ then .nofuel else .ok (none, out, tr)
  | fuel + 1, src, out, tr =>
    if src.ptr < src.end_ then do
      let (ret, src, out, tr) ← body_step_traced mem src out tr
      match ret with
      | some code => .ok (some code, out, tr)
      | none => body_loop_traced mem fuel src out tr
    else .ok (none, out, tr)

/-- The function `compile` with the ghost list: the header hands `title`, `title` and
`date` over (lines 101, 108, 111; the stylesheet of line 104 is a span of another
buffer and is not listed), then the body loop runs. -/
def compile_traced (file : Option (List Byte)) (cssmem : List Byte) (css : string_t) :
    Res (Int × List Byte × List string_t) :=
  match file with
  | none => .ok (1, [], [])
  | some mem => do
    let src : string_t := { ptr := 0, end_ := mem.length }
    let out : List Byte := []
    let (date, src) ← advance_block mem src 124 true
    let (title, src) ← advance_block mem src 10 true
    let tr : List string_t := [title, title, date]
    let out ← render_header mem date title cssmem css out
    let (ret, out, tr) ← body_loop_traced mem (src.end_ - src.ptr).toNat src out tr
    match ret with
    | some code => .ok (code, out, tr)
    | none =>
      let out := out ++ bytes "<p class=\"back\"><a href=\"index.html\">&larr; Back to index</a></p>"
      let out := out ++ bytes "</body></html>"
      .ok (0, out, tr)

/-- In the buffer a '|' stands at or behind offset `p`, with no newline between
offset `p` and that '|'. -/
def bar_on_line (mem : List Byte) (p : Nat) : Prop :=
  ∃ q, q < mem.length ∧ (p ≤ q ∧ mem[q]? = some 124 ∧ ∀ r, r < q → (p ≤ r → mem[r]? ≠ some 10))

instance (mem : List Byte) (p : Nat) : Decidable (bar_on_line mem p) := by
  unfold bar_on_line
  infer_instance

/-- Every '!' that begins a line of the body (it follows a newline) has a '|' behind
it on the same line. -/
def links_closed (mem : List Byte) : Prop :=
  ∀ p, p < mem.length → (mem[p]? = some 10 → mem[p + 1]? = some 33 → bar_on_line mem (p + 2))

instance (mem : List Byte) : Decidable (links_closed mem) := by
  unfold links_closed
  infer_instance

/-- Every byte that follows a newline is a newline or one of the lead bytes
' ', '#', '!', '-', backquote of `compile`: every line behind the first is empty or
begins with a lead byte. -/
def lines_recognized (mem : List Byte) : Prop :=
  ∀ p, p < mem.length → (mem[p]? = some 10 →
    mem[p + 1]? ∈ [none, some 10, some 32, some 35, some 33, some 45, some 96])

instance (mem : List Byte) : Decidable (lines_recognized mem) := by
  unfold lines_recognized
  infer_instance

/-! ## The blocks of a body

The body of a document as the specification describes it (sections 3, 4.4 and 6): a
sequence of blocks, the markup of each block, and the HTML each block stands for.
These definitions are the reference the output of `compile` is compared with. -/

/-- The blocks of a body, each with the bytes of its texts as they stand in the
document between the lead byte (or the '|') and the terminator, before trimming. -/
inductive Block where
  | blank
  | paragraph (text : List Byte)
  | heading (text : List Byte)
  | link (href label : List Byte)
  | list (items : List (List Byte))
  | code (lines : List (List Byte))

/-- The lead byte of a block: newline, ' ', '#', '!', '-' or backquote. -/
def Block.lead : Block → Byte
  | .blank => 10
  | .paragraph _ => 32
  | .heading _ => 35
  | .link _ _ => 33
  | .list _ => 45
  | .code _ => 96

/-- The markup of a block: a bare newline; the lead byte, the text and a newline; for
a link the href, a '|', the label and a newline; for a list or a code block one such
line per item or line. -/
def Block.markup : Block → List Byte
  | .blank => [10]
  | .paragraph t => 32 :: (t ++ [10])
  | .heading t => 35 :: (t ++ [10])
  | .link h l => 33 :: (h ++ 124 :: (l ++ [10]))
  | .list items => list_lines items
  | .code lines => code_lines lines

/-- The HTML of a block: nothing for a blank line, `<p>`, `<h2>`, an anchor in a
paragraph, `<ul>` with one `<li>` per item, `<pre>` with one line per line; texts are
trimmed (not in a code block) and escaped. -/
def Block.html : Block → List Byte
  | .blank => []
  | .paragraph t => bytes "<p>" ++ escape (trim_two_pass t) ++ bytes "</p>"
  | .heading t => bytes "<h2>" ++ escape (trim_two_pass t) ++ bytes "</h2>"
  | .link h l =>
    bytes "<p><a href=\"" ++ escape (trim_two_pass h) ++ bytes "\">"
      ++ escape (trim_two_pass l) ++ bytes "</a></p>"
  | .list items =>
    bytes "<ul>"
      ++ (items.flatMap fun x => bytes "<li>" ++ escape (trim_two_pass x) ++ bytes "</li>")
      ++ bytes "</ul>"
  | .code lines =>
    bytes "<pre>" ++ (lines.flatMap fun x => escape x ++ bytes "\n") ++ bytes "</pre>"

/-- The texts of the block can stand in its markup: no newline in a text, an item or
a line, no '|' in an href, and at least one item or line. -/
def Block.wf : Block → Prop
  | .blank => True
  | .paragraph t => 10 ∉ t
  | .heading t => 10 ∉ t
  | .link h l => 124 ∉ h ∧ 10 ∉ l
  | .list items => items ≠ [] ∧ ∀ x ∈ items, 10 ∉ x
  | .code lines => lines ≠ [] ∧ ∀ x ∈ lines, 10 ∉ x

instance (b : Block) : Decidable b.wf := by
  cases b <;> unfold Block.wf <;> infer_instance

/-- The block `c` can follow the block `b`: a list is not followed by a list, nor a
code block by a code block (their lines would form one block). -/
def Block.apart (b c : Block) : Prop :=
  (b.lead = 45 → c.lead ≠ 45) ∧ (b.lead = 96 → c.lead ≠ 96)

instance (b c : Block) : Decidable (Block.apart b c) := by
  unfold Block.apart
  infer_instance

/-! ## Reads, `trim`, `advance_block` and `render_block` on a span of a buffer -/

set_option maxRecDepth 1000000

@[simp] theorem Res.ok_bind {α β : Type} (a : α) (f : α → Res β) :
    (Res.ok a >>= f) = f a := rfl

@[simp] theorem Res.oob_bind {α β : Type} (f : α → Res β) :
    ((Res.oob : Res α) >>= f) = Res.oob := rfl

@[simp] theorem Res.nofuel_bind {α β : Type} (f : α → Res β) :
    ((Res.nofuel : Res α) >>= f) = Res.nofuel := rfl

@[simp] theorem Res.pure_eq {α : Type} (a : α) : (pure a : Res α) = Res.ok a := rfl

theorem ws_iff (c : Byte) : (c = 32 ∨ c = 9) ↔ ws c = true := by
  simp [ws]

theorem load_at (mem pre post : List Byte) (c : Byte) (p : Int)
    (hm : mem = pre ++ c :: post) (hp : p = pre.length) : load mem p = .ok c := by
  subst hm hp
  have h : (pre ++ c :: post)[pre.length]? = some c := by
    rw [List.getElem?_append_right (le_refl _)]
    simp
  simp [load, h]

theorem trim_loop_tail (s : List Byte) : ∀ (pre post : List Byte) (fuel : Nat),
    (∀ c, s.head? = some c → ws c = false) → s.length ≤ fuel →
    trim_loop (pre ++ s ++ post) fuel ⟨pre.length, pre.length + s.length⟩
      = .ok ⟨pre.length, pre.length + (s.rdropWhile ws).length⟩ := by
  induction s using List.reverseRecOn with
  | nil =>
    intro pre post fuel _ _
    cases fuel <;> simp [trim_loop]
  | append_singleton init l ih =>
    intro pre post fuel hhead hfuel
    obtain ⟨f, rfl⟩ : ∃ f, fuel = f + 1 := ⟨fuel - 1, by simp at hfuel; omega⟩
    simp only [List.length_append, List.length_singleton] at hfuel
    -- the first byte of the span
    obtain ⟨c0, rest, hs⟩ : ∃ c0 rest, init ++ [l] = c0 :: rest := by
      cases init with
      | nil => exact ⟨l, [], rfl⟩
      | cons a t => exact ⟨a, t ++ [l], rfl⟩
    have hc0 : ws c0 = false := hhead c0 (by rw [hs]; rfl)
    have hl0 : load (pre ++ (init ++ [l]) ++ post) (pre.length : Int) = .ok c0 :=
      load_at _ pre (rest ++ post) c0 _ (by rw [hs]; simp) rfl
    have hl1 : load (pre ++ (init ++ [l]) ++ post)
        ((pre.length : Int) + ((init ++ [l]).length : Nat) - 1) = .ok l :=
      load_at _ (pre ++ init) post l _ (by simp) (by simp; omega)
    have hlt : (pre.length : Int) < pre.length + ((init ++ [l]).length : Nat) := by
      simp
    rw [trim_loop, if_pos hlt]
    simp only [hl0, hl1, Res.ok_bind, ws_iff, hc0]
    by_cases hl : ws l = true
    · have hinit : ∀ c, init.head? = some c → ws c = false := by
        intro c hc
        apply hhead
        cases init with
        | nil => simp at hc
        | cons a t => simpa using hc
      have := ih pre (l :: post) f hinit (by omega)
      simp only [hl, if_true, Bool.false_eq_true, if_false]
      rw [List.rdropWhile_concat_pos _ _ _ hl]
      have e : pre ++ (init ++ [l]) ++ post = pre ++ init ++ l :: post := by simp
      rw [e]
      convert this using 2
      simp only [List.length_append, List.length_singleton]
      push_cast
      ring_nf
    · simp only [hl, if_false, Bool.false_eq_true]
      rw [List.rdropWhile_concat_neg _ _ _ hl]

theorem trim_loop_spec (s : List Byte) : ∀ (pre post : List Byte) (fuel : Nat),
    s.length ≤ fuel →
    trim_loop (pre ++ s ++ post) fuel ⟨pre.length, pre.length + s.length⟩
      = .ok ⟨pre.length + (s.takeWhile ws).length,
             pre.length + (s.takeWhile ws).length + (trim_two_pass s).length⟩ := by
  induction s with
  | nil =>
    intro pre post fuel _
    cases fuel <;> simp [trim_loop, trim_two_pass]
  | cons c s ih =>
    intro pre post fuel hfuel
    by_cases hc : ws c = true
    · obtain ⟨f, rfl⟩ : ∃ f, fuel = f + 1 := ⟨fuel - 1, by simp at hfuel; omega⟩
      have hl0 : load (pre ++ c :: s ++ post) (pre.length : Int) = .ok c :=
        load_at _ pre (s ++ post) c _ (by simp) rfl
      have hlt : (pre.length : Int) < pre.length + ((c :: s).length : Nat) := by
        simp
      rw [trim_loop, if_pos hlt]
      simp only [hl0, Res.ok_bind, ws_iff, hc, if_true]
      have := ih (pre ++ [c]) post f (by simp at hfuel; omega)
      have e : pre ++ c :: s ++ post = pre ++ [c] ++ s ++ post := by simp
      rw [e]
      simp only [trim_two_pass, List.takeWhile_cons, List.dropWhile_cons, hc, if_true] at this ⊢
      convert this using 2 <;> simp <;> try omega
    · have := trim_loop_tail (c :: s) pre post fuel (by simp; simpa using hc) hfuel
      simp only [trim_two_pass, List.takeWhile_cons, List.dropWhile_cons, hc]
      simpa using this

theorem slice_at (mem pre s post : List Byte) (r : string_t)
    (hm : mem = pre ++ s ++ post) (hp : r.ptr = pre.length)
    (he : r.end_ = pre.length + s.length) : slice mem r = s := by
  subst hm
  have h1 : r.ptr.toNat = pre.length := by omega
  have h2 : (r.end_ - r.ptr).toNat = s.length := by omega
  simp [slice, h1, h2, List.append_assoc]

theorem trim_two_pass_decomp (s : List Byte) :
    s = s.takeWhile ws ++ trim_two_pass s ++ (s.dropWhile ws).rtakeWhile ws := by
  have h1 := List.takeWhile_append_dropWhile ws s
  have h2 : (s.dropWhile ws).rdropWhile ws ++ (s.dropWhile ws).rtakeWhile ws
      = s.dropWhile ws := by
    have h := congrArg List.reverse
      (List.takeWhile_append_dropWhile ws (s.dropWhile ws).reverse)
    rw [List.reverse_append, List.reverse_reverse] at h
    exact h
  rw [trim_two_pass, List.append_assoc, h2, h1]

theorem trim_spec (mem pre s post : List Byte) (str : string_t)
    (hm : mem = pre ++ s ++ post) (hp : str.ptr = pre.length)
    (he : str.end_ = pre.length + s.length) :
    trim mem str = .ok ⟨pre.length + (s.takeWhile ws).length,
      pre.length + (s.takeWhile ws).length + (trim_two_pass s).length⟩ := by
  have hf : (str.end_ - str.ptr).toNat = s.length := by omega
  have hs : str = ⟨pre.length, pre.length + s.length⟩ := by
    cases str; simp_all
  rw [trim, hf, hs, hm]
  exact trim_loop_spec s pre post s.length (le_refl _)

/-- A span whose `end` is not above its `ptr` is left alone by `trim`. -/
theorem trim_of_not_lt (mem : List Byte) (str : string_t) (h : ¬ str.ptr < str.end_) :
    trim mem str = .ok str := by
  unfold trim
  cases (str.end_ - str.ptr).toNat <;> simp [trim_loop, h]

theorem advance_loop_found (term : Byte) (a : List Byte) :
    ∀ (pre rest : List Byte) (fuel : Nat) (e : Int),
    term ∉ a → a.length + 1 ≤ fuel → (pre.length : Int) + a.length + 1 ≤ e →
    advance_loop (pre ++ a ++ term :: rest) term fuel ⟨pre.length, e⟩
      = .ok ⟨pre.length + a.length + 1, e⟩ := by
  induction a with
  | nil =>
    intro pre rest fuel e _ hfuel he
    obtain ⟨f, rfl⟩ : ∃ f, fuel = f + 1 := ⟨fuel - 1, by simp at hfuel; omega⟩
    have hl : load (pre ++ term :: rest) (pre.length : Int) = .ok term :=
      load_at _ pre rest term _ rfl rfl
    have hlt : (pre.length : Int) < e := by simp at he; omega
    rw [advance_loop, if_pos hlt]
    simp [hl]
  | cons c a ih =>
    intro pre rest fuel e hmem hfuel he
    obtain ⟨f, rfl⟩ : ∃ f, fuel = f + 1 := ⟨fuel - 1, by simp at hfuel; omega⟩
    have hl : load (pre ++ c :: a ++ term :: rest) (pre.length : Int) = .ok c :=
      load_at _ pre (a ++ term :: rest) c _ (by simp) rfl
    have hlt : (pre.length : Int) < e := by simp at he; omega
    have hc : c ≠ term := fun h => hmem (by simp [h])
    have ha : term ∉ a := fun h => hmem (by simp [h])
    rw [advance_loop, if_pos hlt]
    simp only [hl, Res.ok_bind, hc, if_false]
    have := ih (pre ++ [c]) rest f e ha (by simp at hfuel; omega)
      (by simp at he ⊢; omega)
    have e1 : pre ++ c :: a ++ term :: rest = pre ++ [c] ++ a ++ term :: rest := by simp
    rw [e1]
    convert this using 2 <;> simp; try omega

theorem advance_loop_absent (term : Byte) (r : List Byte) :
    ∀ (pre post : List Byte) (fuel : Nat),
    term ∉ r → r.length ≤ fuel →
    advance_loop (pre ++ r ++ post) term fuel ⟨pre.length, pre.length + r.length⟩
      = .ok ⟨pre.length + r.length, pre.length + r.length⟩ := by
  induction r with
  | nil =>
    intro pre post fuel _ _
    cases fuel <;> simp [advance_loop]
  | cons c r ih =>
    intro pre post fuel hmem hfuel
    obtain ⟨f, rfl⟩ : ∃ f, fuel = f + 1 := ⟨fuel - 1, by simp at hfuel; omega⟩
    have hl : load (pre ++ c :: r ++ post) (pre.length : Int) = .ok c :=
      load_at _ pre (r ++ post) c _ (by simp) rfl
    have hlt : (pre.length : Int) < pre.length + ((c :: r).length : Nat) := by
      simp
    have hc : c ≠ term := fun h => hmem (by simp [h])
    have hr : term ∉ r := fun h => hmem (by simp [h])
    rw [advance_loop, if_pos hlt]
    simp only [hl, Res.ok_bind, hc, if_false]
    have := ih (pre ++ [c]) post f hr (by simp at hfuel; omega)
    have e1 : pre ++ c :: r ++ post = pre ++ [c] ++ r ++ post := by simp
    rw [e1]
    convert this using 2 <;> simp <;> try omega

theorem render_loop_spec (s : List Byte) :
    ∀ (pre post : List Byte) (p e : Int) (i : Nat) (out : List Byte),
    p + i = pre.length →
    render_loop (pre ++ s ++ post) ⟨p, e⟩ s.length i out
      = .ok (out ++ escape s) := by
  induction s with
  | nil => intro pre post p e i out _; simp [render_loop, escape]
  | cons c s ih =>
    intro pre post p e i out hp
    have hl : load (pre ++ c :: s ++ post) (p + i) = .ok c :=
      load_at _ pre (s ++ post) c _ (by simp) hp
    simp only [List.length_cons, render_loop, hl, Res.ok_bind]
    have := ih (pre ++ [c]) post p e (i + 1) (out ++ render_char c)
      (by simp; omega)
    have e1 : pre ++ c :: s ++ post = pre ++ [c] ++ s ++ post := by simp
    rw [e1, this]
    simp [escape]

theorem render_block_spec (mem pre s post out : List Byte) (str : string_t)
    (hm : mem = pre ++ s ++ post) (hp : str.ptr = pre.length)
    (he : str.end_ = pre.length + s.length) (hlen : s.length < 4294967296) :
    render_block mem out str = .ok (out ++ escape s) := by
  have hl : ((str.end_ - str.ptr) % 4294967296).toNat = s.length := by omega
  have hs : str = ⟨str.ptr, str.end_⟩ := rfl
  rw [render_block, hl, hs, hm]
  exact render_loop_spec s pre post _ _ 0 out (by simpa using hp)

theorem advance_block_found (mem pre a rest : List Byte) (term : Byte) (str : string_t)
    (hm : mem = pre ++ a ++ term :: rest) (hp : str.ptr = pre.length)
    (he : (pre.length : Int) + a.length + 1 ≤ str.end_) (hmem : term ∉ a) :
    advance_block mem str term false
        = .ok (⟨pre.length, pre.length + a.length⟩, ⟨pre.length + a.length + 1, str.end_⟩)
    ∧ advance_block mem str term true
        = .ok (⟨pre.length + (a.takeWhile ws).length,
                pre.length + (a.takeWhile ws).length + (trim_two_pass a).length⟩,
               ⟨pre.length + a.length + 1, str.end_⟩) := by
  obtain ⟨p, e⟩ := str
  simp only at hp he
  subst hp
  have hl : advance_loop mem term (e - (pre.length : Int)).toNat ⟨pre.length, e⟩
      = .ok ⟨pre.length + a.length + 1, e⟩ := by
    rw [hm]
    exact advance_loop_found term a pre rest _ _ hmem (by omega) he
  have ht : trim mem ⟨pre.length, pre.length + a.length⟩
      = .ok ⟨pre.length + (a.takeWhile ws).length,
             pre.length + (a.takeWhile ws).length + (trim_two_pass a).length⟩ :=
    trim_spec mem pre a (term :: rest) _ hm rfl rfl
  have e1 : (pre.length : Int) + a.length + 1 - 1 = pre.length + a.length := by ring
  constructor
  · unfold advance_block
    simp only [hl, Res.ok_bind, e1]
    rfl
  · unfold advance_block
    simp only [hl, Res.ok_bind, e1, ht]
    rfl

theorem advance_block_absent (mem pre r post : List Byte) (term : Byte) (str : string_t)
    (hm : mem = pre ++ r ++ post) (hp : str.ptr = pre.length)
    (he : str.end_ = pre.length + r.length) (hmem : term ∉ r) :
    advance_block mem str term false
      = .ok (⟨pre.length, pre.length + r.length - 1⟩,
             ⟨pre.length + r.length, pre.length + r.length⟩) := by
  obtain ⟨p, e⟩ := str
  simp only at hp he
  subst hp he
  have hl : advance_loop mem term
      ((pre.length : Int) + r.length - (pre.length : Int)).toNat
        ⟨pre.length, pre.length + r.length⟩
      = .ok ⟨pre.length + r.length, pre.length + r.length⟩ := by
    rw [hm]
    exact advance_loop_absent term r pre post _ hmem (by omega)
  unfold advance_block
  simp only [hl, Res.ok_bind]
  rfl

/-! ## Progress of the cursor, and the iterations the body loop needs -/

theorem Res.bind_eq_ok {α β : Type} (x : Res α) (f : α → Res β) (b : β) :
    (x >>= f) = .ok b ↔ ∃ a, x = .ok a ∧ f a = .ok b := by
  cases x with
  | ok a => simp
  | oob => simp
  | nofuel => simp

theorem advance_loop_progress (mem : List Byte) (term : Byte) :
    ∀ (fuel : Nat) (str str' : string_t),
    advance_loop mem term fuel str = .ok str' →
      str.ptr ≤ str'.ptr ∧ str'.end_ = str.end_
        ∧ (str.ptr ≤ str.end_ → str'.ptr ≤ str.end_) := by
  intro fuel
  induction fuel with
  | zero =>
    intro str str' h
    rw [advance_loop] at h
    split at h
    · simp at h
    · cases h; simp
  | succ f ih =>
    intro str str' h
    rw [advance_loop] at h
    split at h
    · rename_i hlt
      rw [Res.bind_eq_ok] at h
      obtain ⟨c, _, h⟩ := h
      split at h
      · cases h
        refine ⟨?_, ?_, fun _ => ?_⟩ <;> dsimp only <;> omega
      · have := ih _ _ h
        simp only at this
        omega
    · cases h; simp

theorem trim_loop_progress (mem : List Byte) :
    ∀ (fuel : Nat) (str str' : string_t),
    trim_loop mem fuel str = .ok str' →
      str.ptr ≤ str'.ptr ∧ (str.ptr ≤ str.end_ → str'.ptr ≤ str'.end_ ∧ str'.end_ ≤ str.end_)
        ∧ (¬ str.ptr ≤ str.end_ → str' = str) := by
  intro fuel
  induction fuel with
  | zero =>
    intro str str' h
    rw [trim_loop] at h
    split at h
    · simp at h
    · cases h; simp
  | succ f ih =>
    intro str str' h
    rw [trim_loop] at h
    split at h
    · rename_i hlt
      rw [Res.bind_eq_ok] at h
      obtain ⟨c, _, h⟩ := h
      split at h
      · have := ih _ _ h
        simp only at this
        refine ⟨by omega, fun _ => by omega, fun h => by omega⟩
      · rw [Res.bind_eq_ok] at h
        obtain ⟨c1, _, h⟩ := h
        split at h
        · have := ih _ _ h
          simp only at this
          refine ⟨by omega, fun _ => by omega, fun h => by omega⟩
        · cases h
          refine ⟨by omega, fun _ => by omega, fun h => by omega⟩
    · cases h; simp

theorem advance_block_progress (mem : List Byte) (term : Byte) (tw : Bool)
    (str r str' : string_t) (h : advance_block mem str term tw = .ok (r, str')) :
    str.ptr ≤ str'.ptr ∧ str'.end_ = str.end_
      ∧ (str.ptr ≤ str.end_ → str'.ptr ≤ str.end_) := by
  unfold advance_block at h
  rw [Res.bind_eq_ok] at h
  obtain ⟨s1, h1, h⟩ := h
  have hp := advance_loop_progress mem term _ _ _ h1
  cases tw with
  | false =>
    simp only [Bool.false_eq_true, if_false] at h
    cases h
    exact hp
  | true =>
    simp only [if_true] at h
    rw [Res.bind_eq_ok] at h
    obtain ⟨r1, _, h⟩ := h
    cases h
    exact hp

theorem list_loop_progress (mem : List Byte) :
    ∀ (fuel : Nat) (c : Byte) (src : string_t) (out : List Byte) (src' : string_t)
      (out' : List Byte),
    list_loop mem fuel c src out = .ok (src', out') →
      src.ptr ≤ src'.ptr ∧ src'.end_ = src.end_ := by
  intro fuel
  induction fuel with
  | zero =>
    intro c src out src' out' h
    rw [list_loop] at h
    split at h
    · simp at h
    · cases h; simp
  | succ f ih =>
    intro c src out src' out' h
    rw [list_loop] at h
    split at h
    · rw [Res.bind_eq_ok] at h
      obtain ⟨⟨line, s1⟩, h1, h⟩ := h
      have hp := advance_block_progress _ _ _ _ _ _ h1
      simp only at h
      rw [Res.bind_eq_ok] at h
      obtain ⟨o1, _, h⟩ := h
      split at h
      · rw [Res.bind_eq_ok] at h
        obtain ⟨d, _, h⟩ := h
        split at h
        · have := ih _ _ _ _ _ h
          simp only at this
          omega
        · have := ih _ _ _ _ _ h
          omega
      · have := ih _ _ _ _ _ h
        omega
    · cases h; simp

theorem code_loop_progress (mem : List Byte) :
    ∀ (fuel : Nat) (c : Byte) (src : string_t) (out : List Byte) (src' : string_t)
      (out' : List Byte),
    code_loop mem fuel c src out = .ok (src', out') →
      src.ptr ≤ src'.ptr ∧ src'.end_ = src.end_ := by
  intro fuel
  induction fuel with
  | zero =>
    intro c src out src' out' h
    rw [code_loop] at h
    split at h
    · simp at h
    · cases h; simp
  | succ f ih =>
    intro c src out src' out' h
    rw [code_loop] at h
    split at h
    · rw [Res.bind_eq_ok] at h
      obtain ⟨⟨line, s1⟩, h1, h⟩ := h
      have hp := advance_block_progress _ _ _ _ _ _ h1
      simp only at h
      rw [Res.bind_eq_ok] at h
      obtain ⟨o1, _, h⟩ := h
      split at h
      · rw [Res.bind_eq_ok] at h
        obtain ⟨d, _, h⟩ := h
        split at h
        · have := ih _ _ _ _ _ h
          simp only at this
          omega
        · have := ih _ _ _ _ _ h
          omega
      · have := ih _ _ _ _ _ h
        omega
    · cases h; simp

theorem body_step_progress (mem : List Byte) (src : string_t) (out : List Byte)
    (ret : Option Int) (src' : string_t) (out' : List Byte)
    (h : body_step mem src out = .ok (ret, src', out')) :
    src.ptr < src'.ptr ∧ src'.end_ = src.end_ := by
  unfold body_step at h
  rw [Res.bind_eq_ok] at h
  obtain ⟨c, _, h⟩ := h
  simp only at h
  split at h
  · cases h; simp
  split at h
  · rw [Res.bind_eq_ok] at h
    obtain ⟨⟨line, s1⟩, h1, h⟩ := h
    have hp := advance_block_progress _ _ _ _ _ _ h1
    simp only at h hp
    rw [Res.bind_eq_ok] at h
    obtain ⟨o1, _, h⟩ := h
    cases h
    omega
  split at h
  · rw [Res.bind_eq_ok] at h
    obtain ⟨⟨line, s1⟩, h1, h⟩ := h
    have hp := advance_block_progress _ _ _ _ _ _ h1
    simp only at h hp
    rw [Res.bind_eq_ok] at h
    obtain ⟨o1, _, h⟩ := h
    cases h
    omega
  split at h
  · rw [Res.bind_eq_ok] at h
    obtain ⟨⟨link, s1⟩, h1, h⟩ := h
    have hp1 := advance_block_progress _ _ _ _ _ _ h1
    simp only at h hp1
    rw [Res.bind_eq_ok] at h
    obtain ⟨⟨label, s2⟩, h2, h⟩ := h
    have hp2 := advance_block_progress _ _ _ _ _ _ h2
    simp only at h
    rw [Res.bind_eq_ok] at h
    obtain ⟨o1, _, h⟩ := h
    rw [Res.bind_eq_ok] at h
    obtain ⟨o2, _, h⟩ := h
    cases h
    omega
  split at h
  · rw [Res.bind_eq_ok] at h
    obtain ⟨⟨s1, o1⟩, h1, h⟩ := h
    have hp := list_loop_progress _ _ _ _ _ _ _ h1
    simp only at h hp
    cases h
    omega
  split at h
  · rw [Res.bind_eq_ok] at h
    obtain ⟨⟨s1, o1⟩, h1, h⟩ := h
    have hp := code_loop_progress _ _ _ _ _ _ _ h1
    simp only at h hp
    cases h
    omega
  · cases h; simp

theorem body_loop_fuel (mem : List Byte) :
    ∀ (n m : Nat) (src : string_t) (out : List Byte),
    (src.end_ - src.ptr).toNat ≤ n → (src.end_ - src.ptr).toNat ≤ m →
    body_loop mem n src out = body_loop mem m src out := by
  intro n
  induction n with
  | zero =>
    intro m src out hn _
    have : ¬ src.ptr < src.end_ := by omega
    cases m <;> simp [body_loop, this]
  | succ n ih =>
    intro m src out hn hm
    cases m with
    | zero =>
      have : ¬ src.ptr < src.end_ := by omega
      simp [body_loop, this]
    | succ m =>
      rw [body_loop, body_loop]
      split
      · cases hs : body_step mem src out with
        | ok v =>
          obtain ⟨ret, s1, o1⟩ := v
          have hp := body_step_progress _ _ _ _ _ _ hs
          simp only [Res.ok_bind]
          cases ret with
          | some code => rfl
          | none => exact ih m s1 o1 (by omega) (by omega)
        | oob => rfl
        | nofuel => rfl
      · rfl

/-- An iteration of the body loop that does not return hands the rest of the
buffer to the same loop. -/
theorem body_of_step (mem : List Byte) (src : string_t) (out : List Byte)
    (src' : string_t) (out' : List Byte) (hlt : src.ptr < src.end_)
    (hstep : body_step mem src out = .ok (none, src', out')) :
    body mem src out = body mem src' out' := by
  have hp := body_step_progress _ _ _ _ _ _ hstep
  unfold body
  obtain ⟨n, hn⟩ : ∃ n, (src.end_ - src.ptr).toNat = n + 1 :=
    ⟨(src.end_ - src.ptr).toNat - 1, by omega⟩
  rw [hn, body_loop, if_pos hlt, hstep]
  simp only [Res.ok_bind]
  exact body_loop_fuel mem _ _ _ _ (by omega) (le_refl _)

/-- An iteration of the body loop that returns ends the loop with that code. -/
theorem body_of_return (mem : List Byte) (src : string_t) (out : List Byte)
    (code : Int) (src' : string_t) (out' : List Byte) (hlt : src.ptr < src.end_)
    (hstep : body_step mem src out = .ok (some code, src', out')) :
    body mem src out = .ok (some code, out') := by
  unfold body
  obtain ⟨n, hn⟩ : ∃ n, (src.end_ - src.ptr).toNat = n + 1 :=
    ⟨(src.end_ - src.ptr).toNat - 1, by omega⟩
  rw [hn, body_loop, if_pos hlt, hstep]
  rfl

theorem body_at_end (mem : List Byte) (src : string_t) (out : List Byte)
    (h : ¬ src.ptr < src.end_) : body mem src out = .ok (none, out) := by
  unfold body
  cases (src.end_ - src.ptr).toNat <;> simp [body_loop, h]

/-! ## One iteration of the body loop on each kind of block -/

theorem trim_two_pass_length_le (s : List Byte) : (trim_two_pass s).length ≤ s.length := by
  have h := congrArg List.length (trim_two_pass_decomp s)
  simp only [List.length_append] at h
  omega

theorem render_trimmed (mem pre s post out : List Byte) (hm : mem = pre ++ s ++ post)
    (hlen : mem.length < 4294967296) :
    render_block mem out ⟨pre.length + (s.takeWhile ws).length,
        pre.length + (s.takeWhile ws).length + (trim_two_pass s).length⟩
      = .ok (out ++ escape (trim_two_pass s)) := by
  have hs : s.length < 4294967296 := by
    rw [hm] at hlen
    simp only [List.length_append] at hlen
    omega
  apply render_block_spec mem (pre ++ s.takeWhile ws) (trim_two_pass s)
    ((s.dropWhile ws).rtakeWhile ws ++ post)
  · rw [hm]
    conv_lhs => rw [trim_two_pass_decomp s]
    simp
  · simp
  · simp
  · have := trim_two_pass_length_le s
    omega

/-- Scanning a terminated line with trimming, then rendering it. -/
theorem scan_trimmed (mem pre t rest : List Byte) (term : Byte) (str : string_t)
    (hm : mem = pre ++ t ++ term :: rest) (hp : str.ptr = pre.length)
    (he : str.end_ = mem.length) (hmem : term ∉ t) (hlen : mem.length < 4294967296) :
    ∃ line : string_t,
      advance_block mem str term true = .ok (line, ⟨pre.length + t.length + 1, str.end_⟩)
      ∧ ∀ out, render_block mem out line = .ok (out ++ escape (trim_two_pass t)) := by
  have hle : (pre.length : Int) + t.length + 1 ≤ str.end_ := by
    rw [he, hm]
    simp only [List.length_append, List.length_cons]
    push_cast
    omega
  refine ⟨_, (advance_block_found mem pre t rest term str hm hp hle hmem).2, ?_⟩
  intro out
  exact render_trimmed mem pre t (term :: rest) out hm hlen

/-- Scanning a terminated line without trimming, then rendering it. -/
theorem scan_raw (mem pre t rest : List Byte) (term : Byte) (str : string_t)
    (hm : mem = pre ++ t ++ term :: rest) (hp : str.ptr = pre.length)
    (he : str.end_ = mem.length) (hmem : term ∉ t) (hlen : mem.length < 4294967296) :
    ∃ line : string_t,
      advance_block mem str term false = .ok (line, ⟨pre.length + t.length + 1, str.end_⟩)
      ∧ ∀ out, render_block mem out line = .ok (out ++ escape t) := by
  have hle : (pre.length : Int) + t.length + 1 ≤ str.end_ := by
    rw [he, hm]
    simp only [List.length_append, List.length_cons]
    push_cast
    omega
  refine ⟨_, (advance_block_found mem pre t rest term str hm hp hle hmem).1, ?_⟩
  intro out
  have hs : t.length < 4294967296 := by
    rw [hm] at hlen
    simp only [List.length_append] at hlen
    omega
  exact render_block_spec mem pre t (term :: rest) out _ hm rfl rfl hs

theorem body_step_paragraph (pre t rest out : List Byte) (hnl : 10 ∉ t)
    (hlen : (pre ++ 32 :: (t ++ 10 :: rest)).length < 4294967296) :
    body_step (pre ++ 32 :: (t ++ 10 :: rest))
        ⟨pre.length, (pre ++ 32 :: (t ++ 10 :: rest)).length⟩ out
      = .ok (none, ⟨pre.length + 1 + t.length + 1, (pre ++ 32 :: (t ++ 10 :: rest)).length⟩,
          out ++ bytes "<p>" ++ escape (trim_two_pass t) ++ bytes "</p>") := by
  have hl : load (pre ++ 32 :: (t ++ 10 :: rest)) (pre.length : Int) = .ok 32 :=
    load_at _ pre _ 32 _ rfl rfl
  obtain ⟨line, h1, h2⟩ := scan_trimmed (pre ++ 32 :: (t ++ 10 :: rest)) (pre ++ [32]) t rest 10
    ⟨pre.length + 1, (pre ++ 32 :: (t ++ 10 :: rest)).length⟩ (by simp) (by simp) rfl hnl hlen
  unfold body_step
  simp only [hl, Res.ok_bind]
  rw [if_neg (by decide), if_pos trivial, h1]
  simp only [Res.ok_bind, h2]
  simp

theorem body_step_heading (pre t rest out : List Byte) (hnl : 10 ∉ t)
    (hlen : (pre ++ 35 :: (t ++ 10 :: rest)).length < 4294967296) :
    body_step (pre ++ 35 :: (t ++ 10 :: rest))
        ⟨pre.length, (pre ++ 35 :: (t ++ 10 :: rest)).length⟩ out
      = .ok (none, ⟨pre.length + 1 + t.length + 1, (pre ++ 35 :: (t ++ 10 :: rest)).length⟩,
          out ++ bytes "<h2>" ++ escape (trim_two_pass t) ++ bytes "</h2>") := by
  have hl : load (pre ++ 35 :: (t ++ 10 :: rest)) (pre.length : Int) = .ok 35 :=
    load_at _ pre _ 35 _ rfl rfl
  obtain ⟨line, h1, h2⟩ := scan_trimmed (pre ++ 35 :: (t ++ 10 :: rest)) (pre ++ [35]) t rest 10
    ⟨pre.length + 1, (pre ++ 35 :: (t ++ 10 :: rest)).length⟩ (by simp) (by simp) rfl hnl hlen
  unfold body_step
  simp only [hl, Res.ok_bind]
  rw [if_neg (by decide), if_neg (by decide), if_pos trivial, h1]
  simp only [Res.ok_bind, h2]
  simp

theorem body_step_link (pre h l rest out : List Byte) (hbar : 124 ∉ h) (hnl : 10 ∉ l)
    (hlen : (pre ++ 33 :: (h ++ 124 :: (l ++ 10 :: rest))).length < 4294967296) :
    body_step (pre ++ 33 :: (h ++ 124 :: (l ++ 10 :: rest)))
        ⟨pre.length, (pre ++ 33 :: (h ++ 124 :: (l ++ 10 :: rest))).length⟩ out
      = .ok (none,
          ⟨pre.length + 1 + h.length + 1 + l.length + 1,
            (pre ++ 33 :: (h ++ 124 :: (l ++ 10 :: rest))).length⟩,
          out ++ bytes "<p><a href=\"" ++ escape (trim_two_pass h) ++ bytes "\">"
            ++ escape (trim_two_pass l) ++ bytes "</a></p>") := by
  have hl : load (pre ++ 33 :: (h ++ 124 :: (l ++ 10 :: rest))) (pre.length : Int) = .ok 33 :=
    load_at _ pre _ 33 _ rfl rfl
  obtain ⟨link, h1, h2⟩ := scan_trimmed (pre ++ 33 :: (h ++ 124 :: (l ++ 10 :: rest)))
    (pre ++ [33]) h (l ++ 10 :: rest) 124
    ⟨pre.length + 1, (pre ++ 33 :: (h ++ 124 :: (l ++ 10 :: rest))).length⟩
    (by simp) (by simp) rfl hbar hlen
  obtain ⟨label, h3, h4⟩ := scan_trimmed (pre ++ 33 :: (h ++ 124 :: (l ++ 10 :: rest)))
    (pre ++ [33] ++ h ++ [124]) l rest 10
    ⟨((pre ++ [33]).length : Int) + h.length + 1,
      (pre ++ 33 :: (h ++ 124 :: (l ++ 10 :: rest))).length⟩
    (by simp) (by simp; omega) rfl hnl hlen
  unfold body_step
  simp only [hl, Res.ok_bind]
  rw [if_neg (by decide), if_neg (by decide), if_neg (by decide), if_pos trivial, h1]
  simp only [Res.ok_bind, h2, h3, h4]
  simp; omega

theorem list_lines_length (items : List (List Byte)) :
    items.length ≤ (list_lines items).length := by
  induction items with
  | nil => simp [list_lines]
  | cons i items ih =>
    simp only [list_lines, List.flatMap_cons, List.length_append, List.length_cons] at ih ⊢
    omega

theorem code_lines_length (lines : List (List Byte)) :
    lines.length ≤ (code_lines lines).length := by
  induction lines with
  | nil => simp [code_lines]
  | cons i lines ih =>
    simp only [code_lines, List.flatMap_cons, List.length_append, List.length_cons] at ih ⊢
    omega

theorem list_loop_exit (mem : List Byte) (fuel : Nat) (src : string_t) (out : List Byte) :
    list_loop mem fuel 32 src out = .ok (src, out) := by
  cases fuel <;> simp [list_loop]

theorem code_loop_exit (mem : List Byte) (fuel : Nat) (src : string_t) (out : List Byte) :
    code_loop mem fuel 32 src out = .ok (src, out) := by
  cases fuel <;> simp [code_loop]

/-- The list loop entered behind the first '-' of a run of item lines. -/
theorem list_loop_items (rest : List Byte) (hrest : rest.head? ≠ some 45)
    (items : List (List Byte)) :
    ∀ (i pre out : List Byte) (fuel : Nat),
    10 ∉ i → (∀ x ∈ items, 10 ∉ x) → items.length + 1 ≤ fuel →
    (pre ++ i ++ 10 :: (list_lines items ++ rest)).length < 4294967296 →
    list_loop (pre ++ i ++ 10 :: (list_lines items ++ rest)) fuel 45
        ⟨pre.length, (pre ++ i ++ 10 :: (list_lines items ++ rest)).length⟩ out
      = .ok (⟨pre.length + i.length + 1 + (list_lines items).length,
              (pre ++ i ++ 10 :: (list_lines items ++ rest)).length⟩,
          out ++ (i :: items).flatMap fun x =>
            bytes "<li>" ++ escape (trim_two_pass x) ++ bytes "</li>") := by
  induction items with
  | nil =>
    intro i pre out fuel hi _ hfuel hlen
    obtain ⟨f, rfl⟩ : ∃ f, fuel = f + 1 := ⟨fuel - 1, by simp at hfuel; omega⟩
    obtain ⟨line, h1, h2⟩ := scan_trimmed (pre ++ i ++ 10 :: (list_lines [] ++ rest))
      pre i (list_lines [] ++ rest) 10
      ⟨pre.length, (pre ++ i ++ 10 :: (list_lines [] ++ rest)).length⟩ rfl rfl rfl hi hlen
    rw [list_loop, if_pos rfl, h1]
    simp only [Res.ok_bind, h2]
    cases rest with
    | nil =>
      rw [if_neg (by simp [list_lines]; omega)]
      rw [list_loop_exit]
      simp [list_lines]
    | cons c rest =>
      have hc : c ≠ 45 := fun h => hrest (by simp [h])
      have hl : load (pre ++ i ++ 10 :: (list_lines [] ++ c :: rest))
          ((pre.length : Int) + i.length + 1) = .ok c :=
        load_at _ (pre ++ i ++ [10]) rest c _ (by simp [list_lines]) (by simp; ring)
      rw [if_pos (by simp [list_lines]; omega)]
      simp only [hl, Res.ok_bind, hc, if_false]
      rw [list_loop_exit]
      simp [list_lines]
  | cons j items ih =>
    intro i pre out fuel hi hitems hfuel hlen
    obtain ⟨f, rfl⟩ : ∃ f, fuel = f + 1 := ⟨fuel - 1, by simp at hfuel; omega⟩
    have hcons : list_lines (j :: items) = 45 :: (j ++ 10 :: list_lines items) := by
      simp [list_lines]
    rw [hcons] at hlen ⊢
    obtain ⟨line, h1, h2⟩ := scan_trimmed
      (pre ++ i ++ 10 :: (45 :: (j ++ 10 :: list_lines items) ++ rest))
      pre i (45 :: (j ++ 10 :: list_lines items) ++ rest) 10
      ⟨pre.length, (pre ++ i ++ 10 :: (45 :: (j ++ 10 :: list_lines items) ++ rest)).length⟩
      rfl rfl rfl hi hlen
    have hm : pre ++ i ++ 10 :: (45 :: (j ++ 10 :: list_lines items) ++ rest)
        = (pre ++ i ++ [10, 45]) ++ j ++ 10 :: (list_lines items ++ rest) := by
      simp
    have hl : load (pre ++ i ++ 10 :: (45 :: (j ++ 10 :: list_lines items) ++ rest))
        ((pre.length : Int) + i.length + 1) = .ok 45 :=
      load_at _ (pre ++ i ++ [10]) (j ++ 10 :: (list_lines items ++ rest)) 45 _
        (by simp) (by simp; omega)
    rw [list_loop, if_pos rfl, h1]
    simp only [Res.ok_bind, h2]
    rw [if_pos (by simp; omega)]
    simp only [hl, Res.ok_bind, if_true]
    have := ih j (pre ++ i ++ [10, 45]) (out ++ bytes "<li>" ++ escape (trim_two_pass i)
      ++ bytes "</li>") f (hitems j (by simp)) (fun x hx => hitems x (by simp [hx]))
      (by simp at hfuel; omega) (by rw [← hm]; exact hlen)
    rw [← hm] at this
    convert this using 2
    · simp; omega
    · simp; omega

/-- The code loop entered behind the first backquote of a run of code lines. -/
theorem code_loop_lines (rest : List Byte) (hrest : rest.head? ≠ some 96)
    (lines : List (List Byte)) :
    ∀ (i pre out : List Byte) (fuel : Nat),
    10 ∉ i → (∀ x ∈ lines, 10 ∉ x) → lines.length + 1 ≤ fuel →
    (pre ++ i ++ 10 :: (code_lines lines ++ rest)).length < 4294967296 →
    code_loop (pre ++ i ++ 10 :: (code_lines lines ++ rest)) fuel 96
        ⟨pre.length, (pre ++ i ++ 10 :: (code_lines lines ++ rest)).length⟩ out
      = .ok (⟨pre.length + i.length + 1 + (code_lines lines).length,
              (pre ++ i ++ 10 :: (code_lines lines ++ rest)).length⟩,
          out ++ (i :: lines).flatMap fun x => escape x ++ bytes "\n") := by
  induction lines with
  | nil =>
    intro i pre out fuel hi _ hfuel hlen
    obtain ⟨f, rfl⟩ : ∃ f, fuel = f + 1 := ⟨fuel - 1, by simp at hfuel; omega⟩
    obtain ⟨line, h1, h2⟩ := scan_raw (pre ++ i ++ 10 :: (code_lines [] ++ rest))
      pre i (code_lines [] ++ rest) 10
      ⟨pre.length, (pre ++ i ++ 10 :: (code_lines [] ++ rest)).length⟩ rfl rfl rfl hi hlen
    rw [code_loop, if_pos rfl, h1]
    simp only [Res.ok_bind, h2]
    cases rest with
    | nil =>
      rw [if_neg (by simp [code_lines]; omega)]
      rw [code_loop_exit]
      simp [code_lines]
    | cons c rest =>
      have hc : c ≠ 96 := fun h => hrest (by simp [h])
      have hl : load (pre ++ i ++ 10 :: (code_lines [] ++ c :: rest))
          ((pre.length : Int) + i.length + 1) = .ok c :=
        load_at _ (pre ++ i ++ [10]) rest c _ (by simp [code_lines]) (by simp; ring)
      rw [if_pos (by simp [code_lines]; omega)]
      simp only [hl, Res.ok_bind, hc, if_false]
      rw [code_loop_exit]
      simp [code_lines]
  | cons j lines ih =>
    intro i pre out fuel hi hlines hfuel hlen
    obtain ⟨f, rfl⟩ : ∃ f, fuel = f + 1 := ⟨fuel - 1, by simp at hfuel; omega⟩
    have hcons : code_lines (j :: lines) = 96 :: (j ++ 10 :: code_lines lines) := by
      simp [code_lines]
    rw [hcons] at hlen ⊢
    obtain ⟨line, h1, h2⟩ := scan_raw
      (pre ++ i ++ 10 :: (96 :: (j ++ 10 :: code_lines lines) ++ rest))
      pre i (96 :: (j ++ 10 :: code_lines lines) ++ rest) 10
      ⟨pre.length, (pre ++ i ++ 10 :: (96 :: (j ++ 10 :: code_lines lines) ++ rest)).length⟩
      rfl rfl rfl hi hlen
    have hm : pre ++ i ++ 10 :: (96 :: (j ++ 10 :: code_lines lines) ++ rest)
        = (pre ++ i ++ [10, 96]) ++ j ++ 10 :: (code_lines lines ++ rest) := by
      simp
    have hl : load (pre ++ i ++ 10 :: (96 :: (j ++ 10 :: code_lines lines) ++ rest))
        ((pre.length : Int) + i.length + 1) = .ok 96 :=
      load_at _ (pre ++ i ++ [10]) (j ++ 10 :: (code_lines lines ++ rest)) 96 _
        (by simp) (by simp; omega)
    rw [code_loop, if_pos rfl, h1]
    simp only [Res.ok_bind, h2]
    rw [if_pos (by simp; omega)]
    simp only [hl, Res.ok_bind, if_true]
    have := ih j (pre ++ i ++ [10, 96]) (out ++ escape i ++ bytes "\n") f
      (hlines j (by simp)) (fun x hx => hlines x (by simp [hx]))
      (by simp at hfuel; omega) (by rw [← hm]; exact hlen)
    rw [← hm] at this
    convert this using 2
    · simp; omega
    · simp; omega

theorem body_step_list (pre i rest out : List Byte) (items : List (List Byte))
    (hrest : rest.head? ≠ some 45) (hi : 10 ∉ i) (hitems : ∀ x ∈ items, 10 ∉ x)
    (hlen : (pre ++ 45 :: (i ++ 10 :: (list_lines items ++ rest))).length < 4294967296) :
    body_step (pre ++ 45 :: (i ++ 10 :: (list_lines items ++ rest)))
        ⟨pre.length, (pre ++ 45 :: (i ++ 10 :: (list_lines items ++ rest))).length⟩ out
      = .ok (none,
          ⟨pre.length + 1 + i.length + 1 + (list_lines items).length,
            (pre ++ 45 :: (i ++ 10 :: (list_lines items ++ rest))).length⟩,
          out ++ bytes "<ul>"
            ++ ((i :: items).flatMap fun x =>
                  bytes "<li>" ++ escape (trim_two_pass x) ++ bytes "</li>")
            ++ bytes "</ul>") := by
  have hl : load (pre ++ 45 :: (i ++ 10 :: (list_lines items ++ rest))) (pre.length : Int)
      = .ok 45 := load_at _ pre _ 45 _ rfl rfl
  have hm : pre ++ 45 :: (i ++ 10 :: (list_lines items ++ rest))
      = (pre ++ [45]) ++ i ++ 10 :: (list_lines items ++ rest) := by simp
  have hlist := list_loop_items rest hrest items i (pre ++ [45]) (out ++ bytes "<ul>")
    (((pre ++ 45 :: (i ++ 10 :: (list_lines items ++ rest))).length
        - ((pre.length : Int) + 1)).toNat + 2) hi hitems
    (by have := list_lines_length items
        simp only [List.length_append, List.length_cons]
        push_cast
        omega)
    (by rw [← hm]; exact hlen)
  rw [← hm] at hlist
  have e1 : ((pre ++ [45]).length : Int) = pre.length + 1 := by simp
  rw [e1] at hlist
  unfold body_step
  simp only [hl, Res.ok_bind]
  rw [if_neg (by decide), if_neg (by decide), if_neg (by decide), if_neg (by decide),
    if_pos trivial, hlist]
  simp only [Res.ok_bind]

theorem body_step_code (pre i rest out : List Byte) (lines : List (List Byte))
    (hrest : rest.head? ≠ some 96) (hi : 10 ∉ i) (hlines : ∀ x ∈ lines, 10 ∉ x)
    (hlen : (pre ++ 96 :: (i ++ 10 :: (code_lines lines ++ rest))).length < 4294967296) :
    body_step (pre ++ 96 :: (i ++ 10 :: (code_lines lines ++ rest)))
        ⟨pre.length, (pre ++ 96 :: (i ++ 10 :: (code_lines lines ++ rest))).length⟩ out
      = .ok (none,
          ⟨pre.length + 1 + i.length + 1 + (code_lines lines).length,
            (pre ++ 96 :: (i ++ 10 :: (code_lines lines ++ rest))).length⟩,
          out ++ bytes "<pre>"
            ++ ((i :: lines).flatMap fun x => escape x ++ bytes "\n")
            ++ bytes "</pre>") := by
  have hl : load (pre ++ 96 :: (i ++ 10 :: (code_lines lines ++ rest))) (pre.length : Int)
      = .ok 96 := load_at _ pre _ 96 _ rfl rfl
  have hm : pre ++ 96 :: (i ++ 10 :: (code_lines lines ++ rest))
      = (pre ++ [96]) ++ i ++ 10 :: (code_lines lines ++ rest) := by simp
  have hcode := code_loop_lines rest hrest lines i (pre ++ [96]) (out ++ bytes "<pre>")
    (((pre ++ 96 :: (i ++ 10 :: (code_lines lines ++ rest))).length
        - ((pre.length : Int) + 1)).toNat + 2) hi hlines
    (by have := code_lines_length lines
        simp only [List.length_append, List.length_cons]
        push_cast
        omega)
    (by rw [← hm]; exact hlen)
  rw [← hm] at hcode
  have e1 : ((pre ++ [96]).length : Int) = pre.length + 1 := by simp
  rw [e1] at hcode
  unfold body_step
  simp only [hl, Res.ok_bind]
  rw [if_neg (by decide), if_neg (by decide), if_neg (by decide), if_neg (by decide),
    if_neg (by decide), if_pos trivial, hcode]
  simp only [Res.ok_bind]

/-! ## The output stream is only appended to -/

@[simp] theorem Res.map_ok {α β : Type} (f : α → β) (a : α) :
    Res.map f (.ok a) = .ok (f a) := rfl

@[simp] theorem Res.map_oob {α β : Type} (f : α → β) :
    Res.map f (.oob : Res α) = .oob := rfl

@[simp] theorem Res.map_nofuel {α β : Type} (f : α → β) :
    Res.map f (.nofuel : Res α) = .nofuel := rfl

theorem render_loop_append_out (mem : List Byte) (str : string_t) (o1 : List Byte) :
    ∀ (n i : Nat) (o2 : List Byte),
    render_loop mem str n i (o1 ++ o2) = Res.map (o1 ++ ·) (render_loop mem str n i o2) := by
  intro n
  induction n with
  | zero => intro i o2; simp [render_loop]
  | succ n ih =>
    intro i o2
    rw [render_loop, render_loop]
    cases load mem (str.ptr + i) with
    | ok c => simp only [Res.ok_bind, List.append_assoc, ih]
    | oob => rfl
    | nofuel => rfl

theorem render_block_append_out (mem : List Byte) (str : string_t) (o1 o2 : List Byte) :
    render_block mem (o1 ++ o2) str = Res.map (o1 ++ ·) (render_block mem o2 str) := by
  unfold render_block
  exact render_loop_append_out mem str o1 _ _ o2

theorem list_loop_append_out (mem : List Byte) (o1 : List Byte) :
    ∀ (fuel : Nat) (c : Byte) (src : string_t) (o2 : List Byte),
    list_loop mem fuel c src (o1 ++ o2)
      = Res.map (fun r => (r.1, o1 ++ r.2)) (list_loop mem fuel c src o2) := by
  intro fuel
  induction fuel with
  | zero =>
    intro c src o2
    rw [list_loop, list_loop]
    split <;> rfl
  | succ f ih =>
    intro c src o2
    rw [list_loop, list_loop]
    split
    · cases advance_block mem src 10 true with
      | ok v =>
        obtain ⟨line, s1⟩ := v
        simp only [Res.ok_bind, List.append_assoc]
        rw [render_block_append_out]
        cases render_block mem (o2 ++ bytes "<li>") line with
        | ok o =>
          simp only [Res.ok_bind, Res.map_ok, List.append_assoc]
          split
          · cases load mem s1.ptr with
            | ok d =>
              simp only [Res.ok_bind]
              split <;> exact ih _ _ _
            | oob => rfl
            | nofuel => rfl
          · exact ih _ _ _
        | oob => rfl
        | nofuel => rfl
      | oob => rfl
      | nofuel => rfl
    · rfl

theorem code_loop_append_out (mem : List Byte) (o1 : List Byte) :
    ∀ (fuel : Nat) (c : Byte) (src : string_t) (o2 : List Byte),
    code_loop mem fuel c src (o1 ++ o2)
      = Res.map (fun r => (r.1, o1 ++ r.2)) (code_loop mem fuel c src o2) := by
  intro fuel
  induction fuel with
  | zero =>
    intro c src o2
    rw [code_loop, code_loop]
    split <;> rfl
  | succ f ih =>
    intro c src o2
    rw [code_loop, code_loop]
    split
    · cases advance_block mem src 10 false with
      | ok v =>
        obtain ⟨line, s1⟩ := v
        simp only [Res.ok_bind]
        rw [render_block_append_out]
        cases render_block mem o2 line with
        | ok o =>
          simp only [Res.ok_bind, Res.map_ok, List.append_assoc]
          split
          · cases load mem s1.ptr with
            | ok d =>
              simp only [Res.ok_bind]
              split <;> exact ih _ _ _
            | oob => rfl
            | nofuel => rfl
          · exact ih _ _ _
        | oob => rfl
        | nofuel => rfl
      | oob => rfl
      | nofuel => rfl
    · rfl

theorem body_step_append_out (mem : List Byte) (src : string_t) (o1 o2 : List Byte) :
    body_step mem src (o1 ++ o2)
      = Res.map (fun r => (r.1, r.2.1, o1 ++ r.2.2)) (body_step mem src o2) := by
  unfold body_step
  cases load mem src.ptr with
  | oob => rfl
  | nofuel => rfl
  | ok c =>
    simp only [Res.ok_bind]
    split
    · rfl
    split
    · cases advance_block mem ⟨src.ptr + 1, src.end_⟩ 10 true with
      | ok v =>
        obtain ⟨line, s1⟩ := v
        simp only [Res.ok_bind, List.append_assoc]
        rw [render_block_append_out]
        cases render_block mem (o2 ++ bytes "<p>") line <;> simp
      | oob => rfl
      | nofuel => rfl
    split
    · cases advance_block mem ⟨src.ptr + 1, src.end_⟩ 10 true with
      | ok v =>
        obtain ⟨line, s1⟩ := v
        simp only [Res.ok_bind, List.append_assoc]
        rw [render_block_append_out]
        cases render_block mem (o2 ++ bytes "<h2>") line <;> simp
      | oob => rfl
      | nofuel => rfl
    split
    · cases advance_block mem ⟨src.ptr + 1, src.end_⟩ 124 true with
      | ok v =>
        obtain ⟨link, s1⟩ := v
        simp only [Res.ok_bind]
        cases advance_block mem s1 10 true with
        | ok w =>
          obtain ⟨label, s2⟩ := w
          simp only [Res.ok_bind, List.append_assoc]
          rw [render_block_append_out]
          cases render_block mem (o2 ++ bytes "<p><a href=\"") link with
          | ok o =>
            simp only [Res.ok_bind, Res.map_ok, List.append_assoc]
            rw [render_block_append_out]
            cases render_block mem (o ++ bytes "\">") label <;> simp
          | oob => rfl
          | nofuel => rfl
        | oob => rfl
        | nofuel => rfl
      | oob => rfl
      | nofuel => rfl
    split
    · simp only [List.append_assoc]
      rw [list_loop_append_out]
      cases list_loop mem ((src.end_ - (src.ptr + 1)).toNat + 2) c ⟨src.ptr + 1, src.end_⟩
        (o2 ++ bytes "<ul>") <;> simp
    split
    · simp only [List.append_assoc]
      rw [code_loop_append_out]
      cases code_loop mem ((src.end_ - (src.ptr + 1)).toNat + 2) c ⟨src.ptr + 1, src.end_⟩
        (o2 ++ bytes "<pre>") <;> simp
    · rfl

theorem body_loop_append_out (mem : List Byte) (o1 : List Byte) :
    ∀ (fuel : Nat) (src : string_t) (o2 : List Byte),
    body_loop mem fuel src (o1 ++ o2)
      = Res.map (fun r => (r.1, o1 ++ r.2)) (body_loop mem fuel src o2) := by
  intro fuel
  induction fuel with
  | zero =>
    intro src o2
    rw [body_loop, body_loop]
    split <;> rfl
  | succ f ih =>
    intro src o2
    rw [body_loop, body_loop]
    split
    · rw [body_step_append_out]
      cases body_step mem src o2 with
      | ok v =>
        obtain ⟨ret, s1, o⟩ := v
        simp only [Res.map_ok, Res.ok_bind]
        cases ret with
        | some code => rfl
        | none => exact ih _ _
      | oob => rfl
      | nofuel => rfl
    · rfl

theorem body_append_out (mem : List Byte) (src : string_t) (o1 o2 : List Byte) :
    body mem src (o1 ++ o2) = Res.map (fun r => (r.1, o1 ++ r.2)) (body mem src o2) := by
  unfold body
  exact body_loop_append_out mem o1 _ src o2

theorem body_of_reaches (mem : List Byte) (src : string_t) (out : List Byte)
    (src' : string_t) (out' : List Byte) (h : BodyReaches mem src out src' out') :
    body mem src out = body mem src' out' := by
  induction h with
  | refl => rfl
  | step src out src1 out1 src2 out2 hlt hstep _ ih =>
    rw [body_of_step mem src out src1 out1 hlt hstep, ih]

/-! ## The bytes in front of the cursor do not matter -/

theorem load_shift (pre mem : List Byte) (p : Int) (hp : 0 ≤ p) :
    load (pre ++ mem) (p + pre.length) = load mem p := by
  have h1 : (0 : Int) ≤ p + pre.length := by omega
  have h2 : (p + pre.length).toNat = pre.length + p.toNat := by omega
  simp only [load, if_pos h1, if_pos hp, h2]
  rw [List.getElem?_append_right (by omega)]
  simp

theorem trim_loop_shift (pre mem : List Byte) :
    ∀ (fuel : Nat) (str : string_t), 0 ≤ str.ptr →
    trim_loop (pre ++ mem) fuel (shift pre.length str)
      = Res.map (shift pre.length) (trim_loop mem fuel str) := by
  intro fuel
  induction fuel with
  | zero =>
    intro str _
    simp only [trim_loop, shift]
    by_cases h : str.ptr < str.end_
    · rw [if_pos (by omega), if_pos h]; rfl
    · rw [if_neg (by omega), if_neg h]; rfl
  | succ f ih =>
    intro str hp
    simp only [trim_loop, shift]
    by_cases h : str.ptr < str.end_
    · rw [if_pos (by omega), if_pos h, load_shift pre mem _ hp]
      have e : str.end_ + (pre.length : Int) - 1 = (str.end_ - 1) + pre.length := by ring
      rw [e, load_shift pre mem _ (by omega)]
      cases load mem str.ptr with
      | ok c0 =>
        simp only [Res.ok_bind]
        split
        · have := ih ⟨str.ptr + 1, str.end_⟩ (by simp only; omega)
          simp only [shift] at this
          rw [← this]
          congr 2
          ring
        · cases load mem (str.end_ - 1) with
          | ok c1 =>
            simp only [Res.ok_bind]
            split
            · have := ih ⟨str.ptr, str.end_ - 1⟩ hp
              simp only [shift] at this
              rw [← this]
            · rfl
          | oob => rfl
          | nofuel => rfl
      | oob => rfl
      | nofuel => rfl
    · rw [if_neg (by omega), if_neg h]; rfl

theorem trim_shift (pre mem : List Byte) (str : string_t) (hp : 0 ≤ str.ptr) :
    trim (pre ++ mem) (shift pre.length str) = Res.map (shift pre.length) (trim mem str) := by
  unfold trim
  have e : ((shift pre.length str).end_ - (shift pre.length str).ptr) = str.end_ - str.ptr := by
    simp only [shift]; ring
  rw [e]
  exact trim_loop_shift pre mem _ str hp

theorem advance_loop_shift (pre mem : List Byte) (term : Byte) :
    ∀ (fuel : Nat) (str : string_t), 0 ≤ str.ptr →
    advance_loop (pre ++ mem) term fuel (shift pre.length str)
      = Res.map (shift pre.length) (advance_loop mem term fuel str) := by
  intro fuel
  induction fuel with
  | zero =>
    intro str _
    simp only [advance_loop, shift]
    by_cases h : str.ptr < str.end_
    · rw [if_pos (by omega), if_pos h]; rfl
    · rw [if_neg (by omega), if_neg h]; rfl
  | succ f ih =>
    intro str hp
    simp only [advance_loop, shift]
    by_cases h : str.ptr < str.end_
    · rw [if_pos (by omega), if_pos h, load_shift pre mem _ hp]
      cases load mem str.ptr with
      | ok c =>
        simp only [Res.ok_bind]
        split
        · simp only [Res.map_ok, shift]
          congr 2
          ring
        · have := ih ⟨str.ptr + 1, str.end_⟩ (by simp only; omega)
          simp only [shift] at this
          rw [← this]
          congr 2
          ring
      | oob => rfl
      | nofuel => rfl
    · rw [if_neg (by omega), if_neg h]; rfl

theorem advance_block_shift (pre mem : List Byte) (str : string_t) (term : Byte)
    (tw : Bool) (hp : 0 ≤ str.ptr) :
    advance_block (pre ++ mem) (shift pre.length str) term tw
      = Res.map (fun r => (shift pre.length r.1, shift pre.length r.2))
          (advance_block mem str term tw) := by
  unfold advance_block
  have e : ((shift pre.length str).end_ - (shift pre.length str).ptr) = str.end_ - str.ptr := by
    simp only [shift]; ring
  rw [e, advance_loop_shift pre mem term _ str hp]
  cases advance_loop mem term (str.end_ - str.ptr).toNat str with
  | ok s1 =>
    simp only [Res.map_ok, Res.ok_bind]
    have e2 : ({ ptr := (shift pre.length str).ptr, end_ := (shift pre.length s1).ptr - 1 } : string_t)
        = shift pre.length ⟨str.ptr, s1.ptr - 1⟩ := by
      simp only [shift]
      congr 1
      ring
    rw [e2]
    cases tw with
    | false => rfl
    | true =>
      simp only [if_true]
      rw [trim_shift pre mem ⟨str.ptr, s1.ptr - 1⟩ hp]
      cases trim mem ⟨str.ptr, s1.ptr - 1⟩ <;> rfl
  | oob => rfl
  | nofuel => rfl

theorem advance_block_result_ptr (mem : List Byte) (term : Byte) (tw : Bool)
    (str r str' : string_t) (h : advance_block mem str term tw = .ok (r, str')) :
    str.ptr ≤ r.ptr := by
  unfold advance_block at h
  rw [Res.bind_eq_ok] at h
  obtain ⟨s1, _, h⟩ := h
  cases tw with
  | false =>
    simp only [Bool.false_eq_true, if_false] at h
    cases h
    exact le_refl _
  | true =>
    simp only [if_true] at h
    rw [Res.bind_eq_ok] at h
    obtain ⟨r1, h1, h⟩ := h
    cases h
    exact (trim_loop_progress mem _ _ _ h1).1

theorem render_loop_shift (pre mem : List Byte) (str : string_t) (hp : 0 ≤ str.ptr) :
    ∀ (n i : Nat) (out : List Byte),
    render_loop (pre ++ mem) (shift pre.length str) n i out = render_loop mem str n i out := by
  intro n
  induction n with
  | zero => intro i out; rfl
  | succ n ih =>
    intro i out
    simp only [render_loop]
    have e : (shift pre.length str).ptr + (i : Int) = (str.ptr + i) + pre.length := by
      simp only [shift]; ring
    rw [e, load_shift pre mem _ (by omega)]
    cases load mem (str.ptr + i) with
    | ok c => simp only [Res.ok_bind, ih]
    | oob => rfl
    | nofuel => rfl

theorem render_block_shift (pre mem out : List Byte) (str : string_t) (hp : 0 ≤ str.ptr) :
    render_block (pre ++ mem) out (shift pre.length str) = render_block mem out str := by
  unfold render_block
  have e : ((shift pre.length str).end_ - (shift pre.length str).ptr) = str.end_ - str.ptr := by
    simp only [shift]; ring
  simp only [e]
  exact render_loop_shift pre mem str hp _ _ _

theorem list_loop_shift (pre mem : List Byte) :
    ∀ (fuel : Nat) (c : Byte) (src : string_t) (out : List Byte), 0 ≤ src.ptr →
    list_loop (pre ++ mem) fuel c (shift pre.length src) out
      = Res.map (fun r => (shift pre.length r.1, r.2)) (list_loop mem fuel c src out) := by
  intro fuel
  induction fuel with
  | zero =>
    intro c src out _
    rw [list_loop, list_loop]
    split <;> rfl
  | succ f ih =>
    intro c src out hp
    rw [list_loop, list_loop]
    split
    · rw [advance_block_shift pre mem src 10 true hp]
      cases h : advance_block mem src 10 true with
      | ok v =>
        obtain ⟨line, s1⟩ := v
        have h1 := advance_block_progress _ _ _ _ _ _ h
        have h2 := advance_block_result_ptr _ _ _ _ _ _ h
        simp only [Res.map_ok, Res.ok_bind]
        rw [render_block_shift pre mem _ line (by omega)]
        cases render_block mem (out ++ bytes "<li>") line with
        | ok o =>
          simp only [Res.ok_bind]
          have e1 : (shift pre.length s1).ptr = s1.ptr + pre.length := rfl
          have e2 : (shift pre.length s1).end_ = s1.end_ + pre.length := rfl
          have e3 : ({ ptr := s1.ptr + (pre.length : Int) + 1, end_ := s1.end_ + pre.length }
              : string_t) = shift pre.length ⟨s1.ptr + 1, s1.end_⟩ := by
            simp only [shift]
            congr 1
            ring
          by_cases hlt : s1.ptr < s1.end_
          · rw [if_pos (by rw [e1, e2]; omega), if_pos hlt, e1,
              load_shift pre mem _ (by omega)]
            cases load mem s1.ptr with
            | ok d =>
              simp only [Res.ok_bind, e2]
              split
              · rw [e3]
                exact ih _ _ _ (by simp only; omega)
              · exact ih _ _ _ (by omega)
            | oob => rfl
            | nofuel => rfl
          · rw [if_neg (by rw [e1, e2]; omega), if_neg hlt]
            exact ih _ _ _ (by omega)
        | oob => rfl
        | nofuel => rfl
      | oob => rfl
      | nofuel => rfl
    · rfl

theorem code_loop_shift (pre mem : List Byte) :
    ∀ (fuel : Nat) (c : Byte) (src : string_t) (out : List Byte), 0 ≤ src.ptr →
    code_loop (pre ++ mem) fuel c (shift pre.length src) out
      = Res.map (fun r => (shift pre.length r.1, r.2)) (code_loop mem fuel c src out) := by
  intro fuel
  induction fuel with
  | zero =>
    intro c src out _
    rw [code_loop, code_loop]
    split <;> rfl
  | succ f ih =>
    intro c src out hp
    rw [code_loop, code_loop]
    split
    · rw [advance_block_shift pre mem src 10 false hp]
      cases h : advance_block mem src 10 false with
      | ok v =>
        obtain ⟨line, s1⟩ := v
        have h1 := advance_block_progress _ _ _ _ _ _ h
        have h2 := advance_block_result_ptr _ _ _ _ _ _ h
        simp only [Res.map_ok, Res.ok_bind]
        rw [render_block_shift pre mem _ line (by omega)]
        cases render_block mem out line with
        | ok o =>
          simp only [Res.ok_bind]
          have e1 : (shift pre.length s1).ptr = s1.ptr + pre.length := rfl
          have e2 : (shift pre.length s1).end_ = s1.end_ + pre.length := rfl
          have e3 : ({ ptr := s1.ptr + (pre.length : Int) + 1, end_ := s1.end_ + pre.length }
              : string_t) = shift pre.length ⟨s1.ptr + 1, s1.end_⟩ := by
            simp only [shift]
            congr 1
            ring
          by_cases hlt : s1.ptr < s1.end_
          · rw [if_pos (by rw [e1, e2]; omega), if_pos hlt, e1,
              load_shift pre mem _ (by omega)]
            cases load mem s1.ptr with
            | ok d =>
              simp only [Res.ok_bind, e2]
              split
              · rw [e3]
                exact ih _ _ _ (by simp only; omega)
              · exact ih _ _ _ (by omega)
            | oob => rfl
            | nofuel => rfl
          · rw [if_neg (by rw [e1, e2]; omega), if_neg hlt]
            exact ih _ _ _ (by omega)
        | oob => rfl
        | nofuel => rfl
      | oob => rfl
      | nofuel => rfl
    · rfl

theorem body_step_shift (pre mem out : List Byte) (src : string_t) (hp : 0 ≤ src.ptr) :
    body_step (pre ++ mem) (shift pre.length src) out
      = Res.map (fun r => (r.1, shift pre.length r.2.1, r.2.2)) (body_step mem src out) := by
  unfold body_step
  have e1 : (shift pre.length src).ptr = src.ptr + pre.length := rfl
  have e2 : (shift pre.length src).end_ = src.end_ + pre.length := rfl
  have e3 : ({ ptr := src.ptr + (pre.length : Int) + 1, end_ := src.end_ + pre.length }
      : string_t) = shift pre.length ⟨src.ptr + 1, src.end_⟩ := by
    simp only [shift]
    congr 1
    ring
  have hp1 : (0 : Int) ≤ (⟨src.ptr + 1, src.end_⟩ : string_t).ptr := by simp only; omega
  rw [e1, load_shift pre mem _ hp]
  cases load mem src.ptr with
  | oob => rfl
  | nofuel => rfl
  | ok c =>
    simp only [Res.ok_bind, e2, e3]
    split
    · rfl
    split
    · rw [advance_block_shift pre mem _ 10 true hp1]
      cases h : advance_block mem ⟨src.ptr + 1, src.end_⟩ 10 true with
      | ok v =>
        obtain ⟨line, s1⟩ := v
        have h2 := advance_block_result_ptr _ _ _ _ _ _ h
        simp only [Res.map_ok, Res.ok_bind]
        rw [render_block_shift pre mem _ line (by simp only at h2; omega)]
        cases render_block mem (out ++ bytes "<p>") line <;> rfl
      | oob => rfl
      | nofuel => rfl
    split
    · rw [advance_block_shift pre mem _ 10 true hp1]
      cases h : advance_block mem ⟨src.ptr + 1, src.end_⟩ 10 true with
      | ok v =>
        obtain ⟨line, s1⟩ := v
        have h2 := advance_block_result_ptr _ _ _ _ _ _ h
        simp only [Res.map_ok, Res.ok_bind]
        rw [render_block_shift pre mem _ line (by simp only at h2; omega)]
        cases render_block mem (out ++ bytes "<h2>") line <;> rfl
      | oob => rfl
      | nofuel => rfl
    split
    · rw [advance_block_shift pre mem _ 124 true hp1]
      cases h : advance_block mem ⟨src.ptr + 1, src.end_⟩ 124 true with
      | ok v =>
        obtain ⟨link, s1⟩ := v
        have h1 := advance_block_progress _ _ _ _ _ _ h
        have h2 := advance_block_result_ptr _ _ _ _ _ _ h
        simp only at h1 h2
        simp only [Res.map_ok, Res.ok_bind]
        rw [advance_block_shift pre mem s1 10 true (by omega)]
        cases h' : advance_block mem s1 10 true with
        | ok w =>
          obtain ⟨label, s2⟩ := w
          have h3 := advance_block_result_ptr _ _ _ _ _ _ h'
          simp only [Res.map_ok, Res.ok_bind]
          rw [render_block_shift pre mem _ link (by omega)]
          cases render_block mem (out ++ bytes "<p><a href=\"") link with
          | ok o =>
            simp only [Res.ok_bind]
            rw [render_block_shift pre mem _ label (by omega)]
            cases render_block mem (o ++ bytes "\">") label <;> rfl
          | oob => rfl
          | nofuel => rfl
        | oob => rfl
        | nofuel => rfl
      | oob => rfl
      | nofuel => rfl
    split
    · have e4 : src.end_ + (pre.length : Int) - (src.ptr + pre.length + 1)
          = src.end_ - (src.ptr + 1) := by ring
      rw [e4, list_loop_shift pre mem _ c _ _ hp1]
      cases list_loop mem ((src.end_ - (src.ptr + 1)).toNat + 2) c ⟨src.ptr + 1, src.end_⟩
        (out ++ bytes "<ul>") <;> rfl
    split
    · have e4 : src.end_ + (pre.length : Int) - (src.ptr + pre.length + 1)
          = src.end_ - (src.ptr + 1) := by ring
      rw [e4, code_loop_shift pre mem _ c _ _ hp1]
      cases code_loop mem ((src.end_ - (src.ptr + 1)).toNat + 2) c ⟨src.ptr + 1, src.end_⟩
        (out ++ bytes "<pre>") <;> rfl
    · rfl

theorem body_loop_shift (pre mem : List Byte) :
    ∀ (fuel : Nat) (src : string_t) (out : List Byte), 0 ≤ src.ptr →
    body_loop (pre ++ mem) fuel (shift pre.length src) out = body_loop mem fuel src out := by
  intro fuel
  induction fuel with
  | zero =>
    intro src out _
    rw [body_loop, body_loop]
    have e1 : (shift pre.length src).ptr = src.ptr + pre.length := rfl
    have e2 : (shift pre.length src).end_ = src.end_ + pre.length := rfl
    by_cases h : src.ptr < src.end_
    · rw [if_pos (by rw [e1, e2]; omega), if_pos h]
    · rw [if_neg (by rw [e1, e2]; omega), if_neg h]
  | succ f ih =>
    intro src out hp
    rw [body_loop, body_loop]
    have e1 : (shift pre.length src).ptr = src.ptr + pre.length := rfl
    have e2 : (shift pre.length src).end_ = src.end_ + pre.length := rfl
    by_cases h : src.ptr < src.end_
    · rw [if_pos (by rw [e1, e2]; omega), if_pos h, body_step_shift pre mem out src hp]
      cases hs : body_step mem src out with
      | ok v =>
        obtain ⟨ret, s1, o⟩ := v
        have h1 := body_step_progress _ _ _ _ _ _ hs
        simp only [Res.map_ok, Res.ok_bind]
        cases ret with
        | some code => rfl
        | none => exact ih s1 o (by omega)
      | oob => simp only [Res.map_oob, Res.oob_bind]
      | nofuel => simp only [Res.map_nofuel, Res.nofuel_bind]
    · rw [if_neg (by rw [e1, e2]; omega), if_neg h]

/-- The body loop does not depend on what lies in the buffer before the cursor:
run on the rest of a buffer from position `pre.length`, it does what it does on
that rest alone from position 0. -/
theorem body_shift (pre mem out : List Byte) (src : string_t) (hp : 0 ≤ src.ptr) :
    body (pre ++ mem) (shift pre.length src) out = body mem src out := by
  unfold body
  have e : ((shift pre.length src).end_ - (shift pre.length src).ptr) = src.end_ - src.ptr := by
    simp only [shift]; ring
  rw [e]
  exact body_loop_shift pre mem _ src out hp

/-! ## `compile` as head, body loop and foot -/

/-- On a document with a well-formed header line, `compile` is the page head, the
body loop run on what follows the header (as a buffer of its own), and the page
foot when the loop ends without returning. -/
theorem compile_eq (css D T B : List Byte) (hD : 124 ∉ D) (hT : 10 ∉ T)
    (hlen : (D ++ 124 :: (T ++ 10 :: B)).length < 4294967296)
    (hcss : css.length < 4294967296) :
    compile (some (D ++ 124 :: (T ++ 10 :: B))) css ⟨0, css.length⟩
      = Res.map (fun r => match r.1 with
          | some code => (code, page_head (trim_two_pass T) css (trim_two_pass D) ++ r.2)
          | none => (0, page_head (trim_two_pass T) css (trim_two_pass D) ++ r.2 ++ page_foot))
        (body B ⟨0, B.length⟩ []) := by
  obtain ⟨date, h1, h2⟩ := scan_trimmed (D ++ 124 :: (T ++ 10 :: B)) [] D (T ++ 10 :: B) 124
    ⟨0, (D ++ 124 :: (T ++ 10 :: B)).length⟩ (by simp) (by simp) rfl hD hlen
  obtain ⟨title, h3, h4⟩ := scan_trimmed (D ++ 124 :: (T ++ 10 :: B)) (D ++ [124]) T B 10
    ⟨(([] : List Byte).length : Int) + D.length + 1, (D ++ 124 :: (T ++ 10 :: B)).length⟩
    (by simp) (by simp) rfl hT hlen
  have h5 : ∀ out, render_block css out ⟨0, css.length⟩ = .ok (out ++ escape css) :=
    fun out => render_block_spec css [] css [] out _ (by simp) (by simp) (by simp) hcss
  have e1 : (((D ++ [124]).length : Int) + T.length + 1) = D.length + 1 + T.length + 1 := by
    simp
  have hb := body_append_out (D ++ 124 :: (T ++ 10 :: B))
    ⟨D.length + 1 + T.length + 1, (D ++ 124 :: (T ++ 10 :: B)).length⟩
    (page_head (trim_two_pass T) css (trim_two_pass D)) []
  rw [List.append_nil] at hb
  unfold compile
  simp only [h1, h3, Res.ok_bind, render_header, h2, h4, h5, List.nil_append, e1]
  have e2 : bytes "<!DOCTYPE html><head>" ++ bytes "<meta charset=\"utf-8\">" ++ bytes "<title>"
      ++ escape (trim_two_pass T) ++ bytes "</title>" ++ bytes "<style>" ++ escape css
      ++ bytes "</style>" ++ bytes "</head><body>" ++ bytes "<h1>" ++ escape (trim_two_pass T)
      ++ bytes "</h1>" ++ bytes "<p class=\"subt\">" ++ escape (trim_two_pass D) ++ bytes "</p>"
      = page_head (trim_two_pass T) css (trim_two_pass D) := rfl
  have hs : body (D ++ 124 :: (T ++ 10 :: B))
      ⟨D.length + 1 + T.length + 1, (D ++ 124 :: (T ++ 10 :: B)).length⟩ []
      = body B ⟨0, B.length⟩ [] := by
    have h := body_shift (D ++ 124 :: (T ++ [10])) B [] ⟨0, B.length⟩ (le_refl _)
    have e3 : D ++ 124 :: (T ++ [10]) ++ B = D ++ 124 :: (T ++ 10 :: B) := by simp
    have e4 : shift ((D ++ 124 :: (T ++ [10])).length : Int) ⟨0, B.length⟩
        = ⟨D.length + 1 + T.length + 1, (D ++ 124 :: (T ++ 10 :: B)).length⟩ := by
      simp only [shift, List.length_append, List.length_cons, List.length_nil]
      congr 1 <;> push_cast <;> ring
    rw [e3, e4] at h
    exact h
  rw [e2, hb, hs]
  cases body B ⟨0, B.length⟩ [] with
  | ok v =>
    obtain ⟨ret, o⟩ := v
    cases ret with
    | some code => rfl
    | none =>
      simp only [Res.map_ok, Res.ok_bind, page_foot, List.append_assoc]
  | oob => rfl
  | nofuel => rfl

/-! ## The properties of the specification: scanner, escaper and blocks -/

theorem slice_trimmed (mem pre s post : List Byte) (hm : mem = pre ++ s ++ post) :
    slice mem ⟨pre.length + (s.takeWhile ws).length,
      pre.length + (s.takeWhile ws).length + (trim_two_pass s).length⟩ = trim_two_pass s := by
  apply slice_at mem (pre ++ s.takeWhile ws) (trim_two_pass s)
    ((s.dropWhile ws).rtakeWhile ws ++ post)
  · rw [hm]
    conv_lhs => rw [trim_two_pass_decomp s]
    simp
  · simp
  · simp

theorem ws_of_mem_rtakeWhile (s : List Byte) (c : Byte) (h : c ∈ s.rtakeWhile ws) :
    ws c = true := by
  rw [List.rtakeWhile, List.mem_reverse] at h
  exact List.mem_takeWhile_imp h

/-- C1: when the bytes left under the cursor are `a ++ [term] ++ b` and `term` does
not occur in `a`, `advance_block` without trimming returns exactly the span `a`
and leaves the cursor on `b`, just past the first `term`; with trimming the
cursor is the same and the span returned is `trim` of the span `a`, whose bytes
are `a` trimmed at both ends. -/
theorem advance_block_terminator_present (pre a b post : List Byte) (term : Byte)
    (hterm : term ∉ a) :
    advance_block (pre ++ a ++ term :: (b ++ post))
        ⟨pre.length, pre.length + a.length + 1 + b.length⟩ term false
      = .ok (⟨pre.length, pre.length + a.length⟩,
             ⟨pre.length + a.length + 1, pre.length + a.length + 1 + b.length⟩)
    ∧ slice (pre ++ a ++ term :: (b ++ post))
        ⟨pre.length, pre.length + a.length + 1 + b.length⟩ = a ++ term :: b
    ∧ slice (pre ++ a ++ term :: (b ++ post)) ⟨pre.length, pre.length + a.length⟩ = a
    ∧ slice (pre ++ a ++ term :: (b ++ post))
        ⟨pre.length + a.length + 1, pre.length + a.length + 1 + b.length⟩ = b
    ∧ ∃ rt : string_t,
        advance_block (pre ++ a ++ term :: (b ++ post))
            ⟨pre.length, pre.length + a.length + 1 + b.length⟩ term true
          = .ok (rt, ⟨pre.length + a.length + 1, pre.length + a.length + 1 + b.length⟩)
        ∧ trim (pre ++ a ++ term :: (b ++ post)) ⟨pre.length, pre.length + a.length⟩ = .ok rt
        ∧ slice (pre ++ a ++ term :: (b ++ post)) rt = trim_two_pass a := by
  have hf := advance_block_found (pre ++ a ++ term :: (b ++ post)) pre a (b ++ post) term
    ⟨pre.length, pre.length + a.length + 1 + b.length⟩ rfl rfl (by simp) hterm
  refine ⟨hf.1, ?_, ?_, ?_, _, hf.2, ?_, ?_⟩
  · exact slice_at _ pre (a ++ term :: b) post _ (by simp) rfl (by simp; ring)
  · exact slice_at _ pre a (term :: (b ++ post)) _ rfl rfl rfl
  · exact slice_at _ (pre ++ a ++ [term]) b post _ (by simp) (by simp; ring)
      (by simp; ring)
  · exact trim_spec _ pre a (term :: (b ++ post)) _ rfl rfl rfl
  · exact slice_trimmed _ pre a (term :: (b ++ post)) rfl

/-- Witness of C1: on "abc|def" with terminator '|' the span returned is "abc" and
the cursor is left on "def". -/
theorem advance_block_terminator_present_witness :
    advance_block (bytes "abc|def") ⟨0, 7⟩ 124 false = .ok (⟨0, 3⟩, ⟨4, 7⟩)
    ∧ slice (bytes "abc|def") ⟨0, 7⟩ = bytes "abc" ++ 124 :: bytes "def"
    ∧ slice (bytes "abc|def") ⟨0, 3⟩ = bytes "abc"
    ∧ slice (bytes "abc|def") ⟨4, 7⟩ = bytes "def"
    ∧ ∃ rt : string_t,
        advance_block (bytes "abc|def") ⟨0, 7⟩ 124 true = .ok (rt, ⟨4, 7⟩)
        ∧ trim (bytes "abc|def") ⟨0, 3⟩ = .ok rt
        ∧ slice (bytes "abc|def") rt = trim_two_pass (bytes "abc") :=
  advance_block_terminator_present [] (bytes "abc") (bytes "def") [] 124 (by decide)

/-- C2 (the code departs from it): with the terminator absent from the remainder
"abc", `advance_block` leaves the cursor at the end of the buffer but returns
the span "ab": the last byte of the remainder is not covered; on an empty
remainder the span returned ends one byte before it starts. -/
theorem advance_block_terminator_absent_drops_last :
    advance_block (bytes "abc") ⟨0, 3⟩ 124 false = .ok (⟨0, 2⟩, ⟨3, 3⟩)
    ∧ slice (bytes "abc") ⟨0, 2⟩ = bytes "ab"
    ∧ slice (bytes "abc") ⟨0, 3⟩ = bytes "abc"
    ∧ advance_block (bytes "abc") ⟨3, 3⟩ 124 false = .ok (⟨3, 2⟩, ⟨3, 3⟩) := by
  decide

/-- C3: `trim` computes two-ended trimming. For every span `s` of a buffer the
span returned denotes `s` without its longest leading run of spaces and tabs and
then without its longest trailing run; what is removed at either end is spaces
and tabs only; a span of nothing but spaces and tabs (or empty) becomes empty.
On tab, space, space, 'x', space, tab the result is "x". -/
theorem trim_eq_two_pass :
    (∀ pre s post : List Byte, ∃ r : string_t,
      trim (pre ++ s ++ post) ⟨pre.length, pre.length + s.length⟩ = .ok r
      ∧ slice (pre ++ s ++ post) r = trim_two_pass s
      ∧ r.ptr ≤ r.end_
      ∧ (∃ lead trail : List Byte, s = lead ++ trim_two_pass s ++ trail
          ∧ (∀ c ∈ lead, c = 32 ∨ c = 9) ∧ (∀ c ∈ trail, c = 32 ∨ c = 9)
          ∧ r.ptr = pre.length + lead.length)
      ∧ ((∀ c ∈ s, c = 32 ∨ c = 9) → slice (pre ++ s ++ post) r = [] ∧ r.ptr = r.end_))
    ∧ (trim [9, 32, 32, 120, 32, 9] ⟨0, 6⟩ = .ok ⟨3, 4⟩
        ∧ slice [9, 32, 32, 120, 32, 9] ⟨3, 4⟩ = bytes "x") := by
  refine ⟨?_, by decide⟩
  intro pre s post
  refine ⟨_, trim_spec _ pre s post _ rfl rfl rfl, slice_trimmed _ pre s post rfl, ?_, ?_, ?_⟩
  · simp
  · refine ⟨s.takeWhile ws, (s.dropWhile ws).rtakeWhile ws, trim_two_pass_decomp s, ?_, ?_, rfl⟩
    · intro c hc
      exact (ws_iff c).2 (List.mem_takeWhile_imp hc)
    · intro c hc
      exact (ws_iff c).2 (ws_of_mem_rtakeWhile _ c hc)
  · intro hall
    have hd : s.dropWhile ws = [] := by
      rw [List.dropWhile_eq_nil_iff]
      intro c hc
      exact (ws_iff c).1 (hall c hc)
    have ht : trim_two_pass s = [] := by simp [trim_two_pass, hd]
    rw [slice_trimmed _ pre s post rfl]
    simp [ht]

/-- C4: `render_block` is the byte-wise HTML escaper. For every span `s` of a
buffer (a loaded buffer has fewer than 2^32 bytes) the bytes appended to the
stream are the concatenation, in order, of what the switch writes for each byte:
"&lt;" for '<', "&gt;" for '>', "&amp;" for '&', and the byte itself otherwise. -/
theorem render_block_escapes (pre s post out : List Byte) (hlen : s.length < 4294967296) :
    render_block (pre ++ s ++ post) out ⟨pre.length, pre.length + s.length⟩
      = .ok (out ++ (s.map render_char).flatten)
    ∧ render_char 60 = bytes "&lt;" ∧ render_char 62 = bytes "&gt;"
    ∧ render_char 38 = bytes "&amp;"
    ∧ ∀ c : Byte, c ≠ 60 → c ≠ 62 → c ≠ 38 → render_char c = [c] := by
  refine ⟨?_, by decide, by decide, by decide, ?_⟩
  · have := render_block_spec _ pre s post out ⟨pre.length, pre.length + s.length⟩ rfl rfl rfl hlen
    simpa [escape, List.flatMap] using this
  · intro c h1 h2 h3
    simp [render_char, h1, h2, h3]

/-- Witness of C4: "<a & b>" is written as "&lt;a &amp; b&gt;". -/
theorem render_block_escapes_witness :
    render_block (bytes "<a & b>") [] ⟨0, 7⟩ = .ok (bytes "&lt;a &amp; b&gt;")
    ∧ bytes "&lt;a &amp; b&gt;" = [] ++ ((bytes "<a & b>").map render_char).flatten :=
  ⟨(render_block_escapes [] (bytes "<a & b>") [] [] (by decide)).1.trans (by decide),
   by decide⟩

/-- When the body loop, run on the body `B` of a document with a well-formed header
line, ends without returning and has written `H`, `compile` returns 0 and the page
is the head with the escaped trimmed title, stylesheet and date, then `H`, then the
back link and the closing tags. -/
theorem compile_of_body (css D T B H : List Byte) (hD : 124 ∉ D) (hT : 10 ∉ T)
    (hlen : (D ++ 124 :: (T ++ 10 :: B)).length < 4294967296)
    (hcss : css.length < 4294967296)
    (hbody : body B ⟨0, B.length⟩ [] = .ok (none, H)) :
    compile (some (D ++ 124 :: (T ++ 10 :: B))) css ⟨0, css.length⟩
      = .ok (0, bytes "<!DOCTYPE html><head><meta charset=\"utf-8\"><title>"
          ++ escape (trim_two_pass T)
          ++ bytes "</title><style>" ++ escape css ++ bytes "</style></head><body><h1>"
          ++ escape (trim_two_pass T)
          ++ bytes "</h1><p class=\"subt\">" ++ escape (trim_two_pass D) ++ bytes "</p>"
          ++ H
          ++ bytes "<p class=\"back\"><a href=\"index.html\">&larr; Back to index</a></p></body></html>") := by
  have e1 : bytes "<!DOCTYPE html><head><meta charset=\"utf-8\"><title>"
      = bytes "<!DOCTYPE html><head>" ++ (bytes "<meta charset=\"utf-8\">" ++ bytes "<title>") := by
    decide
  have e2 : bytes "</title><style>" = bytes "</title>" ++ bytes "<style>" := by decide
  have e3 : bytes "</style></head><body><h1>"
      = bytes "</style>" ++ (bytes "</head><body>" ++ bytes "<h1>") := by decide
  have e4 : bytes "</h1><p class=\"subt\">" = bytes "</h1>" ++ bytes "<p class=\"subt\">" := by
    decide
  have e5 : bytes "<p class=\"back\"><a href=\"index.html\">&larr; Back to index</a></p></body></html>"
      = bytes "<p class=\"back\"><a href=\"index.html\">&larr; Back to index</a></p>"
        ++ bytes "</body></html>" := by
    decide
  rw [compile_eq css D T B hD hT hlen hcss, hbody, e1, e2, e3, e4, e5]
  simp only [Res.map_ok, page_head, page_foot, List.append_assoc]

/-- C6: the unrecognized marker. When the body loop, run on the body `B` of a
document with a well-formed header line, is after some complete iterations that
wrote `H` at a lead byte `c` that is none of newline, space, '#', '!', '-', backquote, `compile`
returns 1 as an ordinary result, and the output is exactly the page head followed
by `H`: nothing written before is lost and the page foot is not written. -/
theorem compile_unrecognized_marker (css D T B H : List Byte) (src : string_t) (c : Byte)
    (hD : 124 ∉ D) (hT : 10 ∉ T)
    (hlen : (D ++ 124 :: (T ++ 10 :: B)).length < 4294967296)
    (hcss : css.length < 4294967296)
    (hreach : BodyReaches B ⟨0, B.length⟩ [] src H)
    (hlt : src.ptr < src.end_)
    (hc : load B src.ptr = .ok c)
    (hbad : c ≠ 10 ∧ c ≠ 32 ∧ c ≠ 35 ∧ c ≠ 33 ∧ c ≠ 45 ∧ c ≠ 96) :
    compile (some (D ++ 124 :: (T ++ 10 :: B))) css ⟨0, css.length⟩
      = .ok (1, page_head (trim_two_pass T) css (trim_two_pass D) ++ H) := by
  have hstep : body_step B src H
      = .ok (some 1, ⟨src.ptr + 1, src.end_⟩, H) := by
    obtain ⟨h1, h2, h3, h4, h5, h6⟩ := hbad
    unfold body_step
    simp only [hc, Res.ok_bind, h1, h2, h3, h4, h5, h6, if_false]
  rw [compile_eq css D T B hD hT hlen hcss, body_of_reaches _ _ _ _ _ hreach,
    body_of_return _ _ _ _ _ _ hlt hstep]
  rfl

/-- Witness of C6: a body line beginning with '@' after a paragraph line. -/
theorem compile_unrecognized_marker_witness :
    compile (some (bytes "d|t\n a\n@x\n")) (bytes "") ⟨0, 0⟩
      = .ok (1, bytes "<!DOCTYPE html><head><meta charset=\"utf-8\"><title>t</title><style></style></head><body><h1>t</h1><p class=\"subt\">d</p><p>a</p>") :=
  (compile_unrecognized_marker (bytes "") (bytes "d") (bytes "t") (bytes " a\n@x\n")
    (bytes "<p>a</p>") ⟨3, 6⟩ 64 (by decide) (by decide) (by decide) (by decide)
    (BodyReaches.step _ _ ⟨3, 6⟩ (bytes "<p>a</p>") _ _ (by decide) (by decide)
      (BodyReaches.refl _ _))
    (by decide) (by decide) (by decide)).trans (by decide)

/-- C7: the greedy list rule. For one or more items without newline, each on a
line behind '-', followed by a remainder that is empty or does not start with
'-', one iteration of the body loop writes a single `<ul>` holding one `<li>`
per item, in order, with the item trimmed and escaped (an empty item gives
`<li></li>`), and the loop goes on with the cursor at the remainder. -/
theorem list_block_greedy (pre rest out : List Byte) (items : List (List Byte))
    (hne : items ≠ []) (hnl : ∀ x ∈ items, 10 ∉ x) (hrest : rest.head? ≠ some 45)
    (hlen : (pre ++ list_lines items ++ rest).length < 4294967296) :
    body_step (pre ++ list_lines items ++ rest)
        ⟨pre.length, (pre ++ list_lines items ++ rest).length⟩ out
      = .ok (none,
          ⟨pre.length + (list_lines items).length, (pre ++ list_lines items ++ rest).length⟩,
          out ++ bytes "<ul>"
            ++ (items.flatMap fun x => bytes "<li>" ++ escape (trim_two_pass x) ++ bytes "</li>")
            ++ bytes "</ul>")
    ∧ body (pre ++ list_lines items ++ rest)
        ⟨pre.length, (pre ++ list_lines items ++ rest).length⟩ out
      = body (pre ++ list_lines items ++ rest)
          ⟨pre.length + (list_lines items).length, (pre ++ list_lines items ++ rest).length⟩
          (out ++ bytes "<ul>"
            ++ (items.flatMap fun x => bytes "<li>" ++ escape (trim_two_pass x) ++ bytes "</li>")
            ++ bytes "</ul>")
    ∧ slice (pre ++ list_lines items ++ rest)
        ⟨pre.length + (list_lines items).length, (pre ++ list_lines items ++ rest).length⟩
      = rest
    ∧ bytes "<li>" ++ escape (trim_two_pass []) ++ bytes "</li>" = bytes "<li></li>" := by
  obtain ⟨i, items, rfl⟩ : ∃ i t, items = i :: t := by
    cases items with
    | nil => exact absurd rfl hne
    | cons i t => exact ⟨i, t, rfl⟩
  have hm : pre ++ list_lines (i :: items) ++ rest
      = pre ++ 45 :: (i ++ 10 :: (list_lines items ++ rest)) := by
    simp [list_lines]
  have hl : ((list_lines (i :: items)).length : Int)
      = 1 + i.length + 1 + (list_lines items).length := by
    simp [list_lines]; omega
  have hstep := body_step_list pre i rest out items hrest (hnl i (by simp))
    (fun x hx => hnl x (by simp [hx])) (by rw [← hm]; exact hlen)
  rw [← hm] at hstep
  have e : (pre.length : Int) + (list_lines (i :: items)).length
      = pre.length + 1 + i.length + 1 + (list_lines items).length := by
    rw [hl]; ring
  rw [e]
  refine ⟨hstep, body_of_step _ _ _ _ _ ?_ hstep, ?_, by decide⟩
  · simp only [List.length_append]
    push_cast
    omega
  · apply slice_at _ (pre ++ list_lines (i :: items)) rest []
    · simp
    · simp only [List.length_append]
      push_cast
      omega
    · simp only [List.length_append, List.length_nil]
      push_cast
      omega

/-- Witness of C7: three consecutive '-' lines give one `<ul>` with three `<li>`. -/
theorem list_block_greedy_witness :
    body_step (bytes "-a\n-b\n-c\n x\n") ⟨0, 12⟩ []
      = .ok (none, ⟨9, 12⟩, bytes "<ul><li>a</li><li>b</li><li>c</li></ul>") :=
  (list_block_greedy [] (bytes " x\n") [] [bytes "a", bytes "b", bytes "c"]
    (by decide) (by decide) (by decide) (by decide)).1.trans (by decide)

/-- C8: the code block rule. For one or more lines without newline, each on a
line behind a backquote, followed by a remainder that is empty or does not start
with a backquote, one iteration of the body loop writes a single `<pre>` holding
every line escaped, not trimmed, and followed by one newline, and the loop goes on
with the cursor at the remainder. -/
theorem code_block_lines (pre rest out : List Byte) (lines : List (List Byte))
    (hne : lines ≠ []) (hnl : ∀ x ∈ lines, 10 ∉ x) (hrest : rest.head? ≠ some 96)
    (hlen : (pre ++ code_lines lines ++ rest).length < 4294967296) :
    body_step (pre ++ code_lines lines ++ rest)
        ⟨pre.length, (pre ++ code_lines lines ++ rest).length⟩ out
      = .ok (none,
          ⟨pre.length + (code_lines lines).length, (pre ++ code_lines lines ++ rest).length⟩,
          out ++ bytes "<pre>" ++ (lines.flatMap fun x => escape x ++ [10]) ++ bytes "</pre>")
    ∧ body (pre ++ code_lines lines ++ rest)
        ⟨pre.length, (pre ++ code_lines lines ++ rest).length⟩ out
      = body (pre ++ code_lines lines ++ rest)
          ⟨pre.length + (code_lines lines).length, (pre ++ code_lines lines ++ rest).length⟩
          (out ++ bytes "<pre>" ++ (lines.flatMap fun x => escape x ++ [10]) ++ bytes "</pre>")
    ∧ slice (pre ++ code_lines lines ++ rest)
        ⟨pre.length + (code_lines lines).length, (pre ++ code_lines lines ++ rest).length⟩
      = rest := by
  obtain ⟨i, lines, rfl⟩ : ∃ i t, lines = i :: t := by
    cases lines with
    | nil => exact absurd rfl hne
    | cons i t => exact ⟨i, t, rfl⟩
  have hm : pre ++ code_lines (i :: lines) ++ rest
      = pre ++ 96 :: (i ++ 10 :: (code_lines lines ++ rest)) := by
    simp [code_lines]
  have hl : ((code_lines (i :: lines)).length : Int)
      = 1 + i.length + 1 + (code_lines lines).length := by
    simp [code_lines]; omega
  have hstep := body_step_code pre i rest out lines hrest (hnl i (by simp))
    (fun x hx => hnl x (by simp [hx])) (by rw [← hm]; exact hlen)
  rw [← hm] at hstep
  have e : (pre.length : Int) + (code_lines (i :: lines)).length
      = pre.length + 1 + i.length + 1 + (code_lines lines).length := by
    rw [hl]; ring
  have eb : bytes "\n" = [10] := by decide
  rw [eb] at hstep
  rw [e]
  refine ⟨hstep, body_of_step _ _ _ _ _ ?_ hstep, ?_⟩
  · simp only [List.length_append]
    push_cast
    omega
  · apply slice_at _ (pre ++ code_lines (i :: lines)) rest []
    · simp
    · simp only [List.length_append]
      push_cast
      omega
    · simp only [List.length_append, List.length_nil]
      push_cast
      omega

/-- Witness of C8: two code lines, the first with leading and trailing blanks and
a '<', give one `<pre>` with both lines untrimmed. -/
theorem code_block_lines_witness :
    body_step (bytes "`  a<b \n`c\n") ⟨0, 11⟩ []
      = .ok (none, ⟨11, 11⟩, bytes "<pre>  a&lt;b \nc\n</pre>") :=
  (code_block_lines [] [] [] [bytes "  a<b ", bytes "c"]
    (by decide) (by decide) (by decide) (by decide)).1.trans (by decide)

/-- C9: the link block. For an href without '|' (newlines allowed), a label
without newline and any remainder, one iteration of the body loop on
`"!" ++ h ++ "|" ++ l ++ "\n" ++ R` writes `<p><a href="`, the escaped trimmed
href, `">`, the escaped trimmed label, `</a></p>`, and the loop goes on with the
cursor at `R`; a double quote is written as it is. -/
theorem link_block (pre h l rest out : List Byte) (hbar : 124 ∉ h) (hnl : 10 ∉ l)
    (hlen : (pre ++ 33 :: (h ++ 124 :: (l ++ 10 :: rest))).length < 4294967296) :
    body_step (pre ++ 33 :: (h ++ 124 :: (l ++ 10 :: rest)))
        ⟨pre.length, (pre ++ 33 :: (h ++ 124 :: (l ++ 10 :: rest))).length⟩ out
      = .ok (none,
          ⟨pre.length + 1 + h.length + 1 + l.length + 1,
            (pre ++ 33 :: (h ++ 124 :: (l ++ 10 :: rest))).length⟩,
          out ++ bytes "<p><a href=\"" ++ escape (trim_two_pass h) ++ bytes "\">"
            ++ escape (trim_two_pass l) ++ bytes "</a></p>")
    ∧ body (pre ++ 33 :: (h ++ 124 :: (l ++ 10 :: rest)))
        ⟨pre.length, (pre ++ 33 :: (h ++ 124 :: (l ++ 10 :: rest))).length⟩ out
      = body (pre ++ 33 :: (h ++ 124 :: (l ++ 10 :: rest)))
          ⟨pre.length + 1 + h.length + 1 + l.length + 1,
            (pre ++ 33 :: (h ++ 124 :: (l ++ 10 :: rest))).length⟩
          (out ++ bytes "<p><a href=\"" ++ escape (trim_two_pass h) ++ bytes "\">"
            ++ escape (trim_two_pass l) ++ bytes "</a></p>")
    ∧ slice (pre ++ 33 :: (h ++ 124 :: (l ++ 10 :: rest)))
        ⟨pre.length + 1 + h.length + 1 + l.length + 1,
          (pre ++ 33 :: (h ++ 124 :: (l ++ 10 :: rest))).length⟩
      = rest
    ∧ render_char 34 = [34] := by
  have hstep := body_step_link pre h l rest out hbar hnl hlen
  refine ⟨hstep, body_of_step _ _ _ _ _ ?_ hstep, ?_, by decide⟩
  · simp only [List.length_append, List.length_cons]
    push_cast
    omega
  · apply slice_at _ (pre ++ 33 :: (h ++ 124 :: (l ++ [10]))) rest []
    · simp
    · simp only [List.length_append, List.length_cons, List.length_nil]
      push_cast
      omega
    · simp only [List.length_append, List.length_cons, List.length_nil]
      push_cast
      omega

/-- Witness of C9: an href that runs over a line end and holds a double quote. -/
theorem link_block_witness :
    body_step (bytes "! http://x.com/\"a\nb | my <link> \n x\n") ⟨0, 36⟩ []
      = .ok (none, ⟨33, 36⟩,
          bytes "<p><a href=\"http://x.com/\"a\nb\">my &lt;link&gt;</a></p>") :=
  (link_block [] (bytes " http://x.com/\"a\nb ") (bytes " my <link> ") (bytes " x\n") []
    (by decide) (by decide) (by decide)).1.trans (by decide)

/-- C10: paragraph and heading blocks. For a text `t` without newline and any
remainder `R`, one iteration of the body loop on `" " ++ t ++ "\n" ++ R` writes
`<p>`, the escaped trimmed text, `</p>`, and on `"#" ++ t ++ "\n" ++ R` it writes
`<h2>`, the escaped trimmed text, `</h2>`; in both cases the loop goes on with
the cursor at `R`. -/
theorem paragraph_heading_blocks (pre t rest out : List Byte) (hnl : 10 ∉ t)
    (hlen : pre.length + 1 + t.length + 1 + rest.length < 4294967296) :
    (body_step (pre ++ 32 :: (t ++ 10 :: rest))
        ⟨pre.length, (pre ++ 32 :: (t ++ 10 :: rest)).length⟩ out
      = .ok (none, ⟨pre.length + 1 + t.length + 1, (pre ++ 32 :: (t ++ 10 :: rest)).length⟩,
          out ++ bytes "<p>" ++ escape (trim_two_pass t) ++ bytes "</p>")
    ∧ body (pre ++ 32 :: (t ++ 10 :: rest))
        ⟨pre.length, (pre ++ 32 :: (t ++ 10 :: rest)).length⟩ out
      = body (pre ++ 32 :: (t ++ 10 :: rest))
          ⟨pre.length + 1 + t.length + 1, (pre ++ 32 :: (t ++ 10 :: rest)).length⟩
          (out ++ bytes "<p>" ++ escape (trim_two_pass t) ++ bytes "</p>")
    ∧ slice (pre ++ 32 :: (t ++ 10 :: rest))
        ⟨pre.length + 1 + t.length + 1, (pre ++ 32 :: (t ++ 10 :: rest)).length⟩ = rest)
    ∧ (body_step (pre ++ 35 :: (t ++ 10 :: rest))
        ⟨pre.length, (pre ++ 35 :: (t ++ 10 :: rest)).length⟩ out
      = .ok (none, ⟨pre.length + 1 + t.length + 1, (pre ++ 35 :: (t ++ 10 :: rest)).length⟩,
          out ++ bytes "<h2>" ++ escape (trim_two_pass t) ++ bytes "</h2>")
    ∧ body (pre ++ 35 :: (t ++ 10 :: rest))
        ⟨pre.length, (pre ++ 35 :: (t ++ 10 :: rest)).length⟩ out
      = body (pre ++ 35 :: (t ++ 10 :: rest))
          ⟨pre.length + 1 + t.length + 1, (pre ++ 35 :: (t ++ 10 :: rest)).length⟩
          (out ++ bytes "<h2>" ++ escape (trim_two_pass t) ++ bytes "</h2>")
    ∧ slice (pre ++ 35 :: (t ++ 10 :: rest))
        ⟨pre.length + 1 + t.length + 1, (pre ++ 35 :: (t ++ 10 :: rest)).length⟩ = rest) := by
  have hp := body_step_paragraph pre t rest out hnl
    (by simp only [List.length_append, List.length_cons]; omega)
  have hh := body_step_heading pre t rest out hnl
    (by simp only [List.length_append, List.length_cons]; omega)
  refine ⟨⟨hp, body_of_step _ _ _ _ _ ?_ hp, ?_⟩, ⟨hh, body_of_step _ _ _ _ _ ?_ hh, ?_⟩⟩
  · simp only [List.length_append, List.length_cons]
    push_cast
    omega
  · apply slice_at _ (pre ++ 32 :: (t ++ [10])) rest []
    · simp
    · simp only [List.length_append, List.length_cons, List.length_nil]
      push_cast
      omega
    · simp only [List.length_append, List.length_cons, List.length_nil]
      push_cast
      omega
  · simp only [List.length_append, List.length_cons]
    push_cast
    omega
  · apply slice_at _ (pre ++ 35 :: (t ++ [10])) rest []
    · simp
    · simp only [List.length_append, List.length_cons, List.length_nil]
      push_cast
      omega
    · simp only [List.length_append, List.length_cons, List.length_nil]
      push_cast
      omega

/-- Witness of C10: a paragraph line and a heading line, each followed by more text. -/
theorem paragraph_heading_blocks_witness :
    body_step (bytes " Hello world \n# x\n") ⟨0, 18⟩ []
      = .ok (none, ⟨14, 18⟩, bytes "<p>Hello world</p>")
    ∧ body_step (bytes "#\tA & B\n x\n") ⟨0, 11⟩ []
      = .ok (none, ⟨8, 11⟩, bytes "<h2>A &amp; B</h2>") :=
  ⟨(paragraph_heading_blocks [] (bytes "Hello world ") (bytes "# x\n") []
      (by decide) (by decide)).1.1.trans (by decide),
   (paragraph_heading_blocks [] (bytes "\tA & B") (bytes " x\n") []
      (by decide) (by decide)).2.1.trans (by decide)⟩

/-- C11: the blank line. On a lead byte that is a newline one iteration of the body
loop consumes exactly that byte and writes nothing, and the loop goes on behind
it; so the body loop does on `"\n" ++ B` what it does on `B`, and for a document
with a well-formed header line `compile` returns the same code and the same
output with the body `"\n" ++ B` as with the body `B`. -/
theorem blank_line (css D T B : List Byte) (hD : 124 ∉ D) (hT : 10 ∉ T)
    (hlen : (D ++ 124 :: (T ++ 10 :: (10 :: B))).length < 4294967296)
    (hcss : css.length < 4294967296) :
    (∀ pre rest out : List Byte,
      body_step (pre ++ 10 :: rest) ⟨pre.length, (pre ++ 10 :: rest).length⟩ out
        = .ok (none, ⟨pre.length + 1, (pre ++ 10 :: rest).length⟩, out)
      ∧ body (pre ++ 10 :: rest) ⟨pre.length, (pre ++ 10 :: rest).length⟩ out
        = body (pre ++ 10 :: rest) ⟨pre.length + 1, (pre ++ 10 :: rest).length⟩ out)
    ∧ (∀ out : List Byte, body (10 :: B) ⟨0, (10 :: B).length⟩ out = body B ⟨0, B.length⟩ out)
    ∧ compile (some (D ++ 124 :: (T ++ 10 :: (10 :: B)))) css ⟨0, css.length⟩
        = compile (some (D ++ 124 :: (T ++ 10 :: B))) css ⟨0, css.length⟩ := by
  have hstep : ∀ pre rest out : List Byte,
      body_step (pre ++ 10 :: rest) ⟨pre.length, (pre ++ 10 :: rest).length⟩ out
        = .ok (none, ⟨pre.length + 1, (pre ++ 10 :: rest).length⟩, out) := by
    intro pre rest out
    have hl : load (pre ++ 10 :: rest) (pre.length : Int) = .ok 10 :=
      load_at _ pre rest 10 _ rfl rfl
    unfold body_step
    simp only [hl, Res.ok_bind]
    rw [if_pos trivial]
  have hbody : ∀ out : List Byte,
      body (10 :: B) ⟨0, (10 :: B).length⟩ out = body B ⟨0, B.length⟩ out := by
    intro out
    have h1 := hstep [] B out
    have h2 := body_of_step ([] ++ 10 :: B) _ out _ _
      (by simp only [List.length_append, List.length_cons, List.length_nil]; push_cast; omega) h1
    have h3 := body_shift [10] B out ⟨0, B.length⟩ (le_refl _)
    have e : shift (([10] : List Byte).length : Int) ⟨0, B.length⟩
        = ⟨(([] : List Byte).length : Int) + 1, ([] ++ 10 :: B).length⟩ := by
      simp only [shift, List.length_append, List.length_cons, List.length_nil]
      congr 1
      push_cast
      ring
    rw [e] at h3
    have e2 : ([] : List Byte) ++ 10 :: B = 10 :: B := rfl
    rw [e2] at h2 h3
    have e3 : ((([] : List Byte).length : Nat) : Int) = 0 := rfl
    rw [e3] at h2
    rw [h2, ← h3]
    rfl
  refine ⟨fun pre rest out => ⟨hstep pre rest out, body_of_step _ _ _ _ _ ?_ (hstep pre rest out)⟩,
    hbody, ?_⟩
  · simp only [List.length_append, List.length_cons]
    push_cast
    omega
  · rw [compile_eq css D T (10 :: B) hD hT hlen hcss,
      compile_eq css D T B hD hT
        (by simp only [List.length_append, List.length_cons] at hlen ⊢; omega) hcss, hbody]

/-- Witness of C11: a document with a blank line ahead of its paragraph compiles to
the page of the document without that line. -/
theorem blank_line_witness :
    compile (some (bytes "d|t\n\n a\n")) (bytes "") ⟨0, 0⟩
      = compile (some (bytes "d|t\n a\n")) (bytes "") ⟨0, 0⟩
    ∧ compile (some (bytes "d|t\n a\n")) (bytes "") ⟨0, 0⟩
      = .ok (0, bytes "<!DOCTYPE html><head><meta charset=\"utf-8\"><title>t</title><style></style></head><body><h1>t</h1><p class=\"subt\">d</p><p>a</p><p class=\"back\"><a href=\"index.html\">&larr; Back to index</a></p></body></html>") :=
  ⟨(blank_line (bytes "") (bytes "d") (bytes "t") (bytes " a\n")
      (by decide) (by decide) (by decide) (by decide)).2.2, by decide⟩

/-- C12 (the code departs from it): called with the cursor at the end of the
buffer, as `compile` does on the document "d|t\n#" behind the lead byte '#',
`advance_block` returns a span whose `end` is one below its `ptr`, with and
without trimming; `render_block` then takes 2^32 - 1 for its length and reads
behind the buffer. -/
theorem advance_block_at_buffer_end :
    advance_block (bytes "d|t\n#") ⟨5, 5⟩ 10 true = .ok (⟨5, 4⟩, ⟨5, 5⟩)
    ∧ advance_block (bytes "d|t\n#") ⟨5, 5⟩ 10 false = .ok (⟨5, 4⟩, ⟨5, 5⟩)
    ∧ ¬ ((⟨5, 4⟩ : string_t).ptr ≤ (⟨5, 4⟩ : string_t).end_)
    ∧ render_block (bytes "d|t\n#") [] ⟨5, 4⟩ = .oob
    ∧ compile (some (bytes "d|t\n#")) (bytes "") ⟨0, 0⟩ = .oob := by
  decide

/-! ## Spans inside the buffer, and the index -/

theorem slice_decomp (mem : List Byte) (s : string_t) (h : span_in mem s) :
    mem = mem.take s.ptr.toNat ++ slice mem s ++ mem.drop s.end_.toNat
    ∧ ((mem.take s.ptr.toNat).length : Int) = s.ptr
    ∧ ((slice mem s).length : Int) = s.end_ - s.ptr := by
  obtain ⟨h0, h1, h2⟩ := h
  have e1 : (mem.take s.ptr.toNat).length = s.ptr.toNat := by
    rw [List.length_take]; omega
  have e2 : (slice mem s).length = (s.end_ - s.ptr).toNat := by
    simp only [slice, List.length_take, List.length_drop]; omega
  refine ⟨?_, by omega, by omega⟩
  have e3 : s.end_.toNat = s.ptr.toNat + (s.end_ - s.ptr).toNat := by omega
  have e4 : mem.drop s.end_.toNat
      = (mem.drop s.ptr.toNat).drop (s.end_ - s.ptr).toNat := by
    rw [List.drop_drop, e3, Nat.add_comm]
  rw [List.append_assoc, slice, e4, List.take_append_drop, List.take_append_drop]

theorem render_block_valid (mem out : List Byte) (s : string_t) (h : span_in mem s)
    (hlen : mem.length < 4294967296) :
    render_block mem out s = .ok (out ++ escape (slice mem s)) := by
  obtain ⟨hm, hp, hl⟩ := slice_decomp mem s h
  obtain ⟨h0, h1, h2⟩ := h
  exact render_block_spec mem (mem.take s.ptr.toNat) (slice mem s) (mem.drop s.end_.toNat) out s
    hm hp.symm (by omega) (by omega)

theorem index_step_entry (read : List Byte → Option (List Byte)) (in_path out : List Byte)
    (d : IndexedDoc)
    (h : read (in_path ++ bytes "/" ++ d.d_name) = some d.mem
      ∧ d.mem.length < 4294967296
      ∧ Res.map (fun r => (r.1, r.2.1)) (parse_header d.mem ⟨0, d.mem.length⟩) = .ok (d.date, d.title)
      ∧ span_in d.mem d.date ∧ span_in d.mem d.title) :
    index_step read in_path d.d_name out = .ok (out ++ index_entry d) := by
  obtain ⟨hread, hlen, hp, hdate, htitle⟩ := h
  obtain ⟨src, hparse⟩ : ∃ src, parse_header d.mem ⟨0, d.mem.length⟩
      = .ok (d.date, d.title, src) := by
    cases h : parse_header d.mem ⟨0, d.mem.length⟩ with
    | ok v =>
      obtain ⟨a, b, c⟩ := v
      rw [h] at hp
      simp only [Res.map_ok, Res.ok.injEq, Prod.mk.injEq] at hp
      exact ⟨c, by rw [hp.1, hp.2]⟩
    | oob => rw [h] at hp; simp at hp
    | nofuel => rw [h] at hp; simp at hp
  unfold index_step
  simp only [hread, Option.getD_some, hparse, Res.ok_bind,
    render_block_valid _ _ _ hdate hlen, render_block_valid _ _ _ htitle hlen]
  simp only [index_entry, List.append_assoc]

theorem parse_header_wellformed (D T B : List Byte) (hD : 124 ∉ D) (hT : 10 ∉ T) :
    parse_header (D ++ 124 :: (T ++ 10 :: B)) ⟨0, (D ++ 124 :: (T ++ 10 :: B)).length⟩
      = .ok (⟨(D.takeWhile ws).length, (D.takeWhile ws).length + (trim_two_pass D).length⟩,
          ⟨D.length + 1 + (T.takeWhile ws).length,
            D.length + 1 + (T.takeWhile ws).length + (trim_two_pass T).length⟩,
          ⟨D.length + 1 + T.length + 1, (D ++ 124 :: (T ++ 10 :: B)).length⟩) := by
  have h1 := (advance_block_found (D ++ 124 :: (T ++ 10 :: B)) [] D (T ++ 10 :: B) 124
    ⟨0, (D ++ 124 :: (T ++ 10 :: B)).length⟩ (by simp) (by simp)
    (by simp only [List.length_append, List.length_cons, List.length_nil]; push_cast; omega)
    hD).2
  have h2 := (advance_block_found (D ++ 124 :: (T ++ 10 :: B)) (D ++ [124]) T B 10
    ⟨D.length + 1, (D ++ 124 :: (T ++ 10 :: B)).length⟩ (by simp) (by simp)
    (by simp only [List.length_append, List.length_cons, List.length_nil]; push_cast; omega)
    hT).2
  simp only [List.length_nil, Nat.cast_zero, zero_add] at h1
  have e : ((D ++ [124]).length : Int) = D.length + 1 := by simp
  rw [e] at h2
  unfold parse_header
  simp only [h1, h2, Res.ok_bind]

/-- C14, as stated, fails: two documents of the same name that agree up to and
including their first newline, "a\nb|c\n" and "a\nd|e\n", get different index
entries, because the scan for '|' of the header parse does not stop at the end of
the first line. -/
theorem index_entry_reads_past_first_line :
    (bytes "a\nb|c\n").take 2 = bytes "a\n" ∧ (bytes "a\nd|e\n").take 2 = bytes "a\n"
    ∧ 10 ∉ bytes "a"
    ∧ index_step (fun _ => some (bytes "a\nb|c\n")) (bytes "in") (bytes "x.txt") []
        = .ok (bytes "<p><a href=\"x.html\">a\nb - c</a></p>")
    ∧ index_step (fun _ => some (bytes "a\nd|e\n")) (bytes "in") (bytes "x.txt") []
        = .ok (bytes "<p><a href=\"x.html\">a\nd - e</a></p>")
    ∧ index_step (fun _ => some (bytes "a\nb|c\n")) (bytes "in") (bytes "x.txt") []
        ≠ index_step (fun _ => some (bytes "a\nd|e\n")) (bytes "in") (bytes "x.txt") [] := by
  decide

/-- C14, amended: two documents of the same name that agree up to and including
the first newline behind their first '|' (so: up to and including their first
newline, when the first line holds a '|') get the same index entry, the link to
the derived name around the escaped trimmed date and title; nothing behind that
newline is read. -/
theorem index_entry_header_only (read1 read2 : List Byte → Option (List Byte))
    (in_path d_name out D T R1 R2 : List Byte)
    (hD : 124 ∉ D) (hT : 10 ∉ T)
    (h1 : read1 (in_path ++ bytes "/" ++ d_name) = some (D ++ 124 :: (T ++ 10 :: R1)))
    (h2 : read2 (in_path ++ bytes "/" ++ d_name) = some (D ++ 124 :: (T ++ 10 :: R2)))
    (hlen1 : (D ++ 124 :: (T ++ 10 :: R1)).length < 4294967296)
    (hlen2 : (D ++ 124 :: (T ++ 10 :: R2)).length < 4294967296) :
    index_step read1 in_path d_name out = index_step read2 in_path d_name out
    ∧ index_step read1 in_path d_name out
        = .ok (out ++ bytes "<p><a href=\"" ++ html_name d_name ++ bytes "\">"
            ++ escape (trim_two_pass D) ++ bytes " - " ++ escape (trim_two_pass T)
            ++ bytes "</a></p>") := by
  have key : ∀ (read : List Byte → Option (List Byte)) (R : List Byte),
      read (in_path ++ bytes "/" ++ d_name) = some (D ++ 124 :: (T ++ 10 :: R)) →
      (D ++ 124 :: (T ++ 10 :: R)).length < 4294967296 →
      index_step read in_path d_name out
        = .ok (out ++ bytes "<p><a href=\"" ++ html_name d_name ++ bytes "\">"
            ++ escape (trim_two_pass D) ++ bytes " - " ++ escape (trim_two_pass T)
            ++ bytes "</a></p>") := by
    intro read R hread hlen
    have hp := parse_header_wellformed D T R hD hT
    have hd := render_trimmed (D ++ 124 :: (T ++ 10 :: R)) [] D (124 :: (T ++ 10 :: R))
      (out ++ bytes "<p><a href=\"" ++ html_name d_name ++ bytes "\">") (by simp) hlen
    have ht := render_trimmed (D ++ 124 :: (T ++ 10 :: R)) (D ++ [124]) T (10 :: R)
      (out ++ bytes "<p><a href=\"" ++ html_name d_name ++ bytes "\">"
        ++ escape (trim_two_pass D) ++ bytes " - ") (by simp) hlen
    simp only [List.length_nil, Nat.cast_zero, zero_add] at hd
    have e : ((D ++ [124]).length : Int) = D.length + 1 := by simp
    rw [e] at ht
    unfold index_step
    simp only [hread, Option.getD_some, hp, Res.ok_bind, hd, ht]
  exact ⟨(key read1 R1 h1 hlen1).trans (key read2 R2 h2 hlen2).symm, key read1 R1 h1 hlen1⟩

/-- Witness of the amended C14: two documents with the header line "d | t" and
different bodies. -/
theorem index_entry_header_only_witness :
    index_step (fun _ => some (bytes "d | t\n one\n")) (bytes "in") (bytes "x.txt") []
      = index_step (fun _ => some (bytes "d | t\n# two\n- 2\n")) (bytes "in") (bytes "x.txt") []
    ∧ index_step (fun _ => some (bytes "d | t\n one\n")) (bytes "in") (bytes "x.txt") []
      = .ok (bytes "<p><a href=\"x.html\">d - t</a></p>") :=
  ⟨(index_entry_header_only (fun _ => some (bytes "d | t\n one\n"))
      (fun _ => some (bytes "d | t\n# two\n- 2\n")) (bytes "in") (bytes "x.txt") []
      (bytes "d ") (bytes " t") (bytes " one\n") (bytes "# two\n- 2\n")
      (by decide) (by decide) (by decide) (by decide) (by decide) (by decide)).1,
   by decide⟩

theorem strrchr_none_of_not_mem (c : Byte) (s : List Byte) (h : c ∉ s) :
    strrchr s c = none := by
  induction s with
  | nil => rfl
  | cons x t ih =>
    have hx : x ≠ c := fun e => h (by simp [e])
    simp [strrchr, ih (fun m => h (by simp [m])), hx]

theorem strrchr_last (c : Byte) (t : List Byte) (h : c ∉ t) (p : List Byte) :
    strrchr (p ++ c :: t) c = some (c :: t) := by
  induction p with
  | nil => simp [strrchr, strrchr_none_of_not_mem c t h]
  | cons x p ih => simp [strrchr, ih]

theorem strrchr_suffix (c : Byte) (s r : List Byte) (h : strrchr s c = some r) :
    ∃ p, s = p ++ r := by
  induction s with
  | nil => simp [strrchr] at h
  | cons x t ih =>
    rw [strrchr] at h
    cases ht : strrchr t c with
    | some r' =>
      rw [ht] at h
      simp only [Option.some.injEq] at h
      obtain ⟨p, hp⟩ := ih (by rw [ht, h])
      exact ⟨x :: p, by rw [hp]; rfl⟩
    | none =>
      rw [ht] at h
      simp only at h
      split at h
      · simp only [Option.some.injEq] at h
        exact ⟨[], by rw [← h]; rfl⟩
      · simp at h

/-- C15: selection of the entries and the derived output name. `filter_txt` returns
1 exactly for the names that end in ".txt" from their last '.' on, and 0 for all
others; `main` keeps the entries for which it does not return 0. For a name
`s ++ ".txt"` the derived name is `s ++ ".html"`, in the path of the page (behind
the output directory and a '/') and in the href of the index entry alike. -/
theorem derived_output_name :
    (∀ d_name : List Byte,
      (filter_txt d_name = 1 ↔ strrchr d_name 46 = some (bytes ".txt"))
      ∧ (filter_txt d_name = 1 ↔ ∃ s, d_name = s ++ bytes ".txt")
      ∧ (filter_txt d_name = 0 ∨ filter_txt d_name = 1))
    ∧ (∀ s : List Byte, html_name (s ++ bytes ".txt") = s ++ bytes ".html")
    ∧ (∀ out_path s : List Byte,
        page_path out_path (s ++ bytes ".txt") = out_path ++ bytes "/" ++ s ++ bytes ".html")
    ∧ (∀ (read : List Byte → Option (List Byte)) (in_path s out : List Byte) (d : IndexedDoc),
        d.d_name = s ++ bytes ".txt" →
        read (in_path ++ bytes "/" ++ d.d_name) = some d.mem
          ∧ d.mem.length < 4294967296
          ∧ Res.map (fun r => (r.1, r.2.1)) (parse_header d.mem ⟨0, d.mem.length⟩)
              = .ok (d.date, d.title)
          ∧ span_in d.mem d.date ∧ span_in d.mem d.title →
        index_step read in_path d.d_name out
          = .ok (out ++ bytes "<p><a href=\"" ++ (s ++ bytes ".html") ++ bytes "\">"
              ++ escape (slice d.mem d.date) ++ bytes " - " ++ escape (slice d.mem d.title)
              ++ bytes "</a></p>"))
    ∧ main 4 (bytes "in") (bytes "out") (bytes "s.css")
        (some [bytes "a.txt", bytes "b.md", bytes "c.txt", bytes "d.txt.bak", bytes "txt"])
        (fun p =>
          if p = bytes "s.css" then some (bytes "p")
          else if p = bytes "in/a.txt" then some (bytes "1|A\n")
          else if p = bytes "in/c.txt" then some (bytes "3|C\n")
          else none)
      = .ok (0,
          [(bytes "out/a.html", bytes "<!DOCTYPE html><head><meta charset=\"utf-8\"><title>A</title><style>p</style></head><body><h1>A</h1><p class=\"subt\">1</p><p class=\"back\"><a href=\"index.html\">&larr; Back to index</a></p></body></html>"),
           (bytes "out/c.html", bytes "<!DOCTYPE html><head><meta charset=\"utf-8\"><title>C</title><style>p</style></head><body><h1>C</h1><p class=\"subt\">3</p><p class=\"back\"><a href=\"index.html\">&larr; Back to index</a></p></body></html>"),
           (bytes "out/index.html", bytes "<!DOCTYPE html><head><meta charset=\"utf-8\"><title>bareware.dev</title><style>p</style></head><body><h1>bareware.dev</h1><p class=\"subt\">Engineering without abstraction layers between you and the machine!</p><p><a href=\"c.html\">3 - C</a></p><p><a href=\"a.html\">1 - A</a></p></body></html>")]) := by
  have hname : ∀ s : List Byte, html_name (s ++ bytes ".txt") = s ++ bytes ".html" := by
    intro s
    have hl : ((s ++ bytes ".txt").length : Int) - 3 = (s.length + 1 : Nat) := by
      have : (bytes ".txt").length = 4 := by decide
      rw [List.length_append, this]
      push_cast
      ring
    have e : bytes ".txt" = [46] ++ bytes "txt" := by decide
    have e2 : bytes ".html" = [46] ++ bytes "html" := by decide
    unfold html_name
    simp only [hl]
    rw [if_pos (by positivity), Int.toNat_ofNat, e, e2, ← List.append_assoc s,
      List.take_left' (by simp)]
    simp
  have hfilter : ∀ d_name : List Byte,
      filter_txt d_name = 1 ↔ strrchr d_name 46 = some (bytes ".txt") := by
    intro d_name
    unfold filter_txt
    cases h : strrchr d_name 46 with
    | none => simp
    | some ext =>
      by_cases he : ext = bytes ".txt"
      · simp [he]
      · simp [he]
  refine ⟨fun d_name => ⟨hfilter d_name, ?_, ?_⟩, hname, ?_, ?_, by decide⟩
  · rw [hfilter]
    constructor
    · intro h
      exact strrchr_suffix 46 d_name _ h
    · rintro ⟨s, rfl⟩
      have e : bytes ".txt" = 46 :: bytes "txt" := by decide
      rw [e]
      exact strrchr_last 46 (bytes "txt") (by decide) s
  · unfold filter_txt
    cases strrchr d_name 46 with
    | none => simp
    | some ext =>
      by_cases he : ext = bytes ".txt"
      · simp [he]
      · simp [he]
  · intro out_path s
    rw [page_path, hname, List.append_assoc, List.append_assoc, List.append_assoc]
  · intro read in_path s out d hd h
    rw [index_step_entry read in_path out d h, index_entry, hd, hname]
    simp only [List.append_assoc]

/-! ## Progress and termination -/

theorem list_loop_unfold (mem : List Byte) (fuel : Nat) (src : string_t) (out : List Byte) :
    list_loop mem (fuel + 1) 45 src out
      = list_iter mem src out >>= fun r => list_loop mem fuel r.1 r.2.1 r.2.2 := by
  rw [list_loop, if_pos rfl]
  unfold list_iter
  cases advance_block mem src 10 true with
  | ok v =>
    obtain ⟨line, s1⟩ := v
    simp only [Res.ok_bind]
    cases render_block mem (out ++ bytes "<li>") line with
    | ok o =>
      simp only [Res.ok_bind]
      split
      · cases load mem s1.ptr with
        | ok d =>
          simp only [Res.ok_bind]
          split <;> simp only [Res.ok_bind]
        | oob => simp only [Res.oob_bind]
        | nofuel => simp only [Res.nofuel_bind]
      · simp only [Res.ok_bind]
    | oob => simp only [Res.oob_bind]
    | nofuel => simp only [Res.nofuel_bind]
  | oob => simp only [Res.oob_bind]
  | nofuel => simp only [Res.nofuel_bind]

theorem code_loop_unfold (mem : List Byte) (fuel : Nat) (src : string_t) (out : List Byte) :
    code_loop mem (fuel + 1) 96 src out
      = code_iter mem src out >>= fun r => code_loop mem fuel r.1 r.2.1 r.2.2 := by
  rw [code_loop, if_pos rfl]
  unfold code_iter
  cases advance_block mem src 10 false with
  | ok v =>
    obtain ⟨line, s1⟩ := v
    simp only [Res.ok_bind]
    cases render_block mem out line with
    | ok o =>
      simp only [Res.ok_bind]
      split
      · cases load mem s1.ptr with
        | ok d =>
          simp only [Res.ok_bind]
          split <;> simp only [Res.ok_bind]
        | oob => simp only [Res.oob_bind]
        | nofuel => simp only [Res.nofuel_bind]
      · simp only [Res.ok_bind]
    | oob => simp only [Res.oob_bind]
    | nofuel => simp only [Res.nofuel_bind]
  | oob => simp only [Res.oob_bind]
  | nofuel => simp only [Res.nofuel_bind]

theorem advance_loop_strict (mem : List Byte) (term : Byte) (fuel : Nat) (str str' : string_t)
    (h : advance_loop mem term fuel str = .ok str') (hlt : str.ptr < str.end_) :
    str.ptr < str'.ptr := by
  cases fuel with
  | zero =>
    rw [advance_loop, if_pos hlt] at h
    simp at h
  | succ f =>
    rw [advance_loop, if_pos hlt, Res.bind_eq_ok] at h
    obtain ⟨c, _, h⟩ := h
    split at h
    · cases h
      dsimp only
      omega
    · have := advance_loop_progress mem term _ _ _ h
      simp only at this
      omega

theorem advance_block_strict (mem : List Byte) (term : Byte) (tw : Bool)
    (str r str' : string_t) (h : advance_block mem str term tw = .ok (r, str'))
    (hlt : str.ptr < str.end_) : str.ptr < str'.ptr := by
  unfold advance_block at h
  rw [Res.bind_eq_ok] at h
  obtain ⟨s1, h1, h⟩ := h
  have hp := advance_loop_strict mem term _ _ _ h1 hlt
  cases tw with
  | false =>
    simp only [Bool.false_eq_true, if_false] at h
    cases h
    exact hp
  | true =>
    simp only [if_true] at h
    rw [Res.bind_eq_ok] at h
    obtain ⟨r1, _, h⟩ := h
    cases h
    exact hp

theorem advance_block_at_end (mem : List Byte) (term : Byte) (tw : Bool) (str : string_t)
    (h : ¬ str.ptr < str.end_) :
    advance_block mem str term tw = .ok (⟨str.ptr, str.ptr - 1⟩, str) := by
  have h1 : advance_loop mem term (str.end_ - str.ptr).toNat str = .ok str := by
    cases (str.end_ - str.ptr).toNat <;> simp [advance_loop, h]
  have h2 : trim mem ⟨str.ptr, str.ptr - 1⟩ = .ok ⟨str.ptr, str.ptr - 1⟩ :=
    trim_of_not_lt mem _ (by dsimp only; omega)
  unfold advance_block
  simp only [h1, Res.ok_bind, h2]
  cases tw <;> rfl

theorem load_oob (mem : List Byte) (p : Int) (h : (mem.length : Int) ≤ p) :
    load mem p = .oob := by
  unfold load
  split
  · have : mem[p.toNat]? = none := List.getElem?_eq_none (by omega)
    rw [this]
  · rfl

/-- The span that `advance_block` returns at the end of the buffer cannot be
rendered: the first read is behind the buffer. -/
theorem render_block_at_end (mem out : List Byte) (p : Int) (h : (mem.length : Int) ≤ p) :
    render_block mem out ⟨p, p - 1⟩ = .oob := by
  have hl : ((p - 1 - p) % 4294967296).toNat = 4294967294 + 1 := by omega
  unfold render_block
  simp only [hl]
  rw [render_loop]
  have : load mem (p + ((0 : Nat) : Int)) = .oob := load_oob mem _ (by omega)
  rw [this]
  rfl

theorem list_iter_progress (mem : List Byte) (src : string_t) (out : List Byte) (c : Byte)
    (src' : string_t) (out' : List Byte) (hle : src.ptr ≤ src.end_)
    (hend : src.end_ = mem.length) (h : list_iter mem src out = .ok (c, src', out')) :
    src.ptr < src'.ptr ∧ src'.ptr ≤ src.end_ ∧ src'.end_ = src.end_ := by
  by_cases hlt : src.ptr < src.end_
  · unfold list_iter at h
    rw [Res.bind_eq_ok] at h
    obtain ⟨⟨line, s1⟩, h1, h⟩ := h
    have hp := advance_block_progress _ _ _ _ _ _ h1
    have hs := advance_block_strict _ _ _ _ _ _ h1 hlt
    simp only at h
    rw [Res.bind_eq_ok] at h
    obtain ⟨o1, _, h⟩ := h
    split at h
    · rw [Res.bind_eq_ok] at h
      obtain ⟨d, _, h⟩ := h
      split at h
      · cases h
        dsimp only
        omega
      · cases h
        omega
    · cases h
      omega
  · exfalso
    unfold list_iter at h
    rw [advance_block_at_end mem 10 true src hlt] at h
    simp only [Res.ok_bind] at h
    rw [render_block_at_end mem _ src.ptr (by omega)] at h
    simp at h

theorem code_iter_progress (mem : List Byte) (src : string_t) (out : List Byte) (c : Byte)
    (src' : string_t) (out' : List Byte) (hle : src.ptr ≤ src.end_)
    (hend : src.end_ = mem.length) (h : code_iter mem src out = .ok (c, src', out')) :
    src.ptr < src'.ptr ∧ src'.ptr ≤ src.end_ ∧ src'.end_ = src.end_ := by
  by_cases hlt : src.ptr < src.end_
  · unfold code_iter at h
    rw [Res.bind_eq_ok] at h
    obtain ⟨⟨line, s1⟩, h1, h⟩ := h
    have hp := advance_block_progress _ _ _ _ _ _ h1
    have hs := advance_block_strict _ _ _ _ _ _ h1 hlt
    simp only at h
    rw [Res.bind_eq_ok] at h
    obtain ⟨o1, _, h⟩ := h
    split at h
    · rw [Res.bind_eq_ok] at h
      obtain ⟨d, _, h⟩ := h
      split at h
      · cases h
        dsimp only
        omega
      · cases h
        omega
    · cases h
      omega
  · exfalso
    unfold code_iter at h
    rw [advance_block_at_end mem 10 false src hlt] at h
    simp only [Res.ok_bind] at h
    rw [render_block_at_end mem _ src.ptr (by omega)] at h
    simp at h

theorem list_loop_bound (mem : List Byte) :
    ∀ (fuel : Nat) (c : Byte) (src : string_t) (out : List Byte) (src' : string_t)
      (out' : List Byte),
    list_loop mem fuel c src out = .ok (src', out') → src.ptr ≤ src.end_ →
      src'.ptr ≤ src.end_ := by
  intro fuel
  induction fuel with
  | zero =>
    intro c src out src' out' h hle
    rw [list_loop] at h
    split at h
    · simp at h
    · cases h; exact hle
  | succ f ih =>
    intro c src out src' out' h hle
    rw [list_loop] at h
    split at h
    · rw [Res.bind_eq_ok] at h
      obtain ⟨⟨line, s1⟩, h1, h⟩ := h
      have hp := advance_block_progress _ _ _ _ _ _ h1
      simp only at h
      rw [Res.bind_eq_ok] at h
      obtain ⟨o1, _, h⟩ := h
      split at h
      · rw [Res.bind_eq_ok] at h
        obtain ⟨d, _, h⟩ := h
        split at h
        · have := ih _ _ _ _ _ h (by dsimp only; omega)
          simp only at this
          omega
        · have := ih _ _ _ _ _ h (by omega)
          omega
      · have := ih _ _ _ _ _ h (by omega)
        omega
    · cases h; exact hle

theorem code_loop_bound (mem : List Byte) :
    ∀ (fuel : Nat) (c : Byte) (src : string_t) (out : List Byte) (src' : string_t)
      (out' : List Byte),
    code_loop mem fuel c src out = .ok (src', out') → src.ptr ≤ src.end_ →
      src'.ptr ≤ src.end_ := by
  intro fuel
  induction fuel with
  | zero =>
    intro c src out src' out' h hle
    rw [code_loop] at h
    split at h
    · simp at h
    · cases h; exact hle
  | succ f ih =>
    intro c src out src' out' h hle
    rw [code_loop] at h
    split at h
    · rw [Res.bind_eq_ok] at h
      obtain ⟨⟨line, s1⟩, h1, h⟩ := h
      have hp := advance_block_progress _ _ _ _ _ _ h1
      simp only at h
      rw [Res.bind_eq_ok] at h
      obtain ⟨o1, _, h⟩ := h
      split at h
      · rw [Res.bind_eq_ok] at h
        obtain ⟨d, _, h⟩ := h
        split at h
        · have := ih _ _ _ _ _ h (by dsimp only; omega)
          simp only at this
          omega
        · have := ih _ _ _ _ _ h (by omega)
          omega
      · have := ih _ _ _ _ _ h (by omega)
        omega
    · cases h; exact hle

theorem body_step_bound (mem : List Byte) (src : string_t) (out : List Byte)
    (ret : Option Int) (src' : string_t) (out' : List Byte)
    (h : body_step mem src out = .ok (ret, src', out')) (hlt : src.ptr < src.end_) :
    src'.ptr ≤ src.end_ := by
  unfold body_step at h
  rw [Res.bind_eq_ok] at h
  obtain ⟨c, _, h⟩ := h
  simp only at h
  split at h
  · cases h; dsimp only; omega
  split at h
  · rw [Res.bind_eq_ok] at h
    obtain ⟨⟨line, s1⟩, h1, h⟩ := h
    have hp := advance_block_progress _ _ _ _ _ _ h1
    simp only at h hp
    rw [Res.bind_eq_ok] at h
    obtain ⟨o1, _, h⟩ := h
    cases h
    omega
  split at h
  · rw [Res.bind_eq_ok] at h
    obtain ⟨⟨line, s1⟩, h1, h⟩ := h
    have hp := advance_block_progress _ _ _ _ _ _ h1
    simp only at h hp
    rw [Res.bind_eq_ok] at h
    obtain ⟨o1, _, h⟩ := h
    cases h
    omega
  split at h
  · rw [Res.bind_eq_ok] at h
    obtain ⟨⟨link, s1⟩, h1, h⟩ := h
    have hp1 := advance_block_progress _ _ _ _ _ _ h1
    simp only at h hp1
    rw [Res.bind_eq_ok] at h
    obtain ⟨⟨label, s2⟩, h2, h⟩ := h
    have hp2 := advance_block_progress _ _ _ _ _ _ h2
    simp only at h
    rw [Res.bind_eq_ok] at h
    obtain ⟨o1, _, h⟩ := h
    rw [Res.bind_eq_ok] at h
    obtain ⟨o2, _, h⟩ := h
    cases h
    omega
  split at h
  · rw [Res.bind_eq_ok] at h
    obtain ⟨⟨s1, o1⟩, h1, h⟩ := h
    have hp := list_loop_bound _ _ _ _ _ _ _ h1 (by dsimp only; omega)
    simp only at h hp
    cases h
    omega
  split at h
  · rw [Res.bind_eq_ok] at h
    obtain ⟨⟨s1, o1⟩, h1, h⟩ := h
    have hp := code_loop_bound _ _ _ _ _ _ _ h1 (by dsimp only; omega)
    simp only at h hp
    cases h
    omega
  · cases h; dsimp only; omega

theorem Res.bind_ne_nofuel {α β : Type} (x : Res α) (f : α → Res β)
    (hx : x ≠ .nofuel) (hf : ∀ a, x = .ok a → f a ≠ .nofuel) : (x >>= f) ≠ .nofuel := by
  cases x with
  | ok a => simpa using hf a rfl
  | oob => simp
  | nofuel => exact absurd rfl hx

theorem load_ne_nofuel (mem : List Byte) (p : Int) : load mem p ≠ .nofuel := by
  unfold load
  split
  · split <;> simp
  · simp

theorem advance_loop_ne_nofuel (mem : List Byte) (term : Byte) :
    ∀ (fuel : Nat) (str : string_t), (str.end_ - str.ptr).toNat ≤ fuel →
    advance_loop mem term fuel str ≠ .nofuel := by
  intro fuel
  induction fuel with
  | zero =>
    intro str h
    rw [advance_loop, if_neg (by omega)]
    simp
  | succ f ih =>
    intro str h
    rw [advance_loop]
    split
    · apply Res.bind_ne_nofuel _ _ (load_ne_nofuel _ _)
      intro c _
      split
      · simp
      · exact ih _ (by dsimp only; omega)
    · simp

theorem trim_loop_ne_nofuel (mem : List Byte) :
    ∀ (fuel : Nat) (str : string_t), (str.end_ - str.ptr).toNat ≤ fuel →
    trim_loop mem fuel str ≠ .nofuel := by
  intro fuel
  induction fuel with
  | zero =>
    intro str h
    rw [trim_loop, if_neg (by omega)]
    simp
  | succ f ih =>
    intro str h
    rw [trim_loop]
    split
    · apply Res.bind_ne_nofuel _ _ (load_ne_nofuel _ _)
      intro c0 _
      split
      · exact ih _ (by dsimp only; omega)
      · apply Res.bind_ne_nofuel _ _ (load_ne_nofuel _ _)
        intro c1 _
        split
        · exact ih _ (by dsimp only; omega)
        · simp
    · simp

theorem advance_block_ne_nofuel (mem : List Byte) (str : string_t) (term : Byte) (tw : Bool) :
    advance_block mem str term tw ≠ .nofuel := by
  unfold advance_block
  apply Res.bind_ne_nofuel _ _ (advance_loop_ne_nofuel mem term _ str (le_refl _))
  intro s1 _
  cases tw with
  | false => simp
  | true =>
    simp only [if_true]
    apply Res.bind_ne_nofuel _ _ (trim_loop_ne_nofuel mem _ _ (le_refl _))
    intro r _
    simp

theorem render_block_ne_nofuel (mem out : List Byte) (str : string_t) :
    render_block mem out str ≠ .nofuel := by
  have h : ∀ (n i : Nat) (out : List Byte), render_loop mem str n i out ≠ .nofuel := by
    intro n
    induction n with
    | zero => intro i out; simp [render_loop]
    | succ n ih =>
      intro i out
      rw [render_loop]
      exact Res.bind_ne_nofuel _ _ (load_ne_nofuel _ _) (fun c _ => ih _ _)
  exact h _ _ _

theorem list_loop_ne_nofuel (mem : List Byte) :
    ∀ (fuel : Nat) (c : Byte) (src : string_t) (out : List Byte),
    (c = 45 → (src.end_ - src.ptr).toNat + 1 ≤ fuel) →
    list_loop mem fuel c src out ≠ .nofuel := by
  intro fuel
  induction fuel with
  | zero =>
    intro c src out h
    rw [list_loop]
    split
    · rename_i hc
      have := h hc
      omega
    · simp
  | succ f ih =>
    intro c src out h
    rw [list_loop]
    split
    · rename_i hc
      have hf := h hc
      apply Res.bind_ne_nofuel _ _ (advance_block_ne_nofuel _ _ _ _)
      rintro ⟨line, s1⟩ h1
      have hp := advance_block_progress _ _ _ _ _ _ h1
      dsimp only
      apply Res.bind_ne_nofuel _ _ (render_block_ne_nofuel _ _ _)
      intro o _
      split
      · apply Res.bind_ne_nofuel _ _ (load_ne_nofuel _ _)
        intro d _
        split
        · exact ih _ _ _ (fun _ => by dsimp only; omega)
        · exact ih _ _ _ (fun hc32 => absurd hc32 (by decide))
      · exact ih _ _ _ (fun hc32 => absurd hc32 (by decide))
    · simp

theorem code_loop_ne_nofuel (mem : List Byte) :
    ∀ (fuel : Nat) (c : Byte) (src : string_t) (out : List Byte),
    (c = 96 → (src.end_ - src.ptr).toNat + 1 ≤ fuel) →
    code_loop mem fuel c src out ≠ .nofuel := by
  intro fuel
  induction fuel with
  | zero =>
    intro c src out h
    rw [code_loop]
    split
    · rename_i hc
      have := h hc
      omega
    · simp
  | succ f ih =>
    intro c src out h
    rw [code_loop]
    split
    · rename_i hc
      have hf := h hc
      apply Res.bind_ne_nofuel _ _ (advance_block_ne_nofuel _ _ _ _)
      rintro ⟨line, s1⟩ h1
      have hp := advance_block_progress _ _ _ _ _ _ h1
      dsimp only
      apply Res.bind_ne_nofuel _ _ (render_block_ne_nofuel _ _ _)
      intro o _
      split
      · apply Res.bind_ne_nofuel _ _ (load_ne_nofuel _ _)
        intro d _
        split
        · exact ih _ _ _ (fun _ => by dsimp only; omega)
        · exact ih _ _ _ (fun hc32 => absurd hc32 (by decide))
      · exact ih _ _ _ (fun hc32 => absurd hc32 (by decide))
    · simp

theorem body_step_ne_nofuel (mem : List Byte) (src : string_t) (out : List Byte) :
    body_step mem src out ≠ .nofuel := by
  unfold body_step
  apply Res.bind_ne_nofuel _ _ (load_ne_nofuel _ _)
  intro c _
  dsimp only
  split
  · simp
  split
  · apply Res.bind_ne_nofuel _ _ (advance_block_ne_nofuel _ _ _ _)
    rintro ⟨line, s1⟩ _
    exact Res.bind_ne_nofuel _ _ (render_block_ne_nofuel _ _ _) (fun o _ => by simp)
  split
  · apply Res.bind_ne_nofuel _ _ (advance_block_ne_nofuel _ _ _ _)
    rintro ⟨line, s1⟩ _
    exact Res.bind_ne_nofuel _ _ (render_block_ne_nofuel _ _ _) (fun o _ => by simp)
  split
  · apply Res.bind_ne_nofuel _ _ (advance_block_ne_nofuel _ _ _ _)
    rintro ⟨link, s1⟩ _
    apply Res.bind_ne_nofuel _ _ (advance_block_ne_nofuel _ _ _ _)
    rintro ⟨label, s2⟩ _
    apply Res.bind_ne_nofuel _ _ (render_block_ne_nofuel _ _ _)
    intro o1 _
    exact Res.bind_ne_nofuel _ _ (render_block_ne_nofuel _ _ _) (fun o _ => by simp)
  split
  · apply Res.bind_ne_nofuel _ _ (list_loop_ne_nofuel _ _ _ _ _ (fun _ => by dsimp only; omega))
    rintro ⟨s1, o1⟩ _
    simp
  split
  · apply Res.bind_ne_nofuel _ _ (code_loop_ne_nofuel _ _ _ _ _ (fun _ => by dsimp only; omega))
    rintro ⟨s1, o1⟩ _
    simp
  · simp

theorem body_loop_ne_nofuel (mem : List Byte) :
    ∀ (fuel : Nat) (src : string_t) (out : List Byte), (src.end_ - src.ptr).toNat ≤ fuel →
    body_loop mem fuel src out ≠ .nofuel := by
  intro fuel
  induction fuel with
  | zero =>
    intro src out h
    rw [body_loop, if_neg (by omega)]
    simp
  | succ f ih =>
    intro src out h
    rw [body_loop]
    split
    · apply Res.bind_ne_nofuel _ _ (body_step_ne_nofuel _ _ _)
      rintro ⟨ret, s1, o1⟩ hs
      have hp := body_step_progress _ _ _ _ _ _ hs
      cases ret with
      | some code => simp
      | none => exact ih _ _ (by omega)
    · simp

theorem compile_ne_nofuel (file : Option (List Byte)) (cssmem : List Byte) (css : string_t) :
    compile file cssmem css ≠ .nofuel := by
  unfold compile
  cases file with
  | none => simp
  | some mem =>
    dsimp only
    apply Res.bind_ne_nofuel _ _ (advance_block_ne_nofuel _ _ _ _)
    rintro ⟨date, s1⟩ _
    apply Res.bind_ne_nofuel _ _ (advance_block_ne_nofuel _ _ _ _)
    rintro ⟨title, s2⟩ _
    dsimp only
    apply Res.bind_ne_nofuel
    · unfold render_header
      apply Res.bind_ne_nofuel _ _ (render_block_ne_nofuel _ _ _)
      intro o1 _
      apply Res.bind_ne_nofuel _ _ (render_block_ne_nofuel _ _ _)
      intro o2 _
      apply Res.bind_ne_nofuel _ _ (render_block_ne_nofuel _ _ _)
      intro o3 _
      apply Res.bind_ne_nofuel _ _ (render_block_ne_nofuel _ _ _)
      intro o4 _
      simp
    · intro o _
      apply Res.bind_ne_nofuel _ _ (body_loop_ne_nofuel _ _ _ _ (le_refl _))
      rintro ⟨ret, o2⟩ _
      cases ret <;> simp

/-- C17: progress and termination. Every call of `advance_block` leaves the
cursor at or behind its old position and not behind the end of the buffer. Every
iteration of the body loop moves the cursor forward by at least one byte, and so
does every iteration of the list loop and of the code loop that `compile` runs
(the cursor's end being the end of the buffer). Hence no loop needs more
iterations than bytes are left: the body loop never uses up a budget of the bytes
left under the cursor, the inner loops never use up the bytes left plus one, and
`compile` ends on every document, with a value or in an out-of-bounds read, never
for want of iterations. -/
theorem compile_progress_and_termination :
    (∀ (mem : List Byte) (str : string_t) (term : Byte) (tw : Bool) (r str' : string_t),
      advance_block mem str term tw = .ok (r, str') →
      str.ptr ≤ str'.ptr ∧ str'.end_ = str.end_ ∧ (str.ptr ≤ str.end_ → str'.ptr ≤ str.end_))
    ∧ (∀ (mem : List Byte) (src : string_t) (out : List Byte) (ret : Option Int)
        (src' : string_t) (out' : List Byte),
      src.ptr < src.end_ → body_step mem src out = .ok (ret, src', out') →
      src.ptr + 1 ≤ src'.ptr ∧ src'.ptr ≤ src.end_ ∧ src'.end_ = src.end_)
    ∧ (∀ (mem : List Byte) (src : string_t) (out : List Byte) (c : Byte) (src' : string_t)
        (out' : List Byte),
      src.ptr ≤ src.end_ → src.end_ = mem.length →
      (list_iter mem src out = .ok (c, src', out') ∨ code_iter mem src out = .ok (c, src', out')) →
      src.ptr + 1 ≤ src'.ptr ∧ src'.ptr ≤ src.end_ ∧ src'.end_ = src.end_)
    ∧ (∀ (mem : List Byte) (fuel : Nat) (src : string_t) (out : List Byte),
      list_loop mem (fuel + 1) 45 src out
          = (list_iter mem src out >>= fun r => list_loop mem fuel r.1 r.2.1 r.2.2)
      ∧ code_loop mem (fuel + 1) 96 src out
          = (code_iter mem src out >>= fun r => code_loop mem fuel r.1 r.2.1 r.2.2))
    ∧ (∀ (mem : List Byte) (n : Nat) (src : string_t) (out : List Byte),
      (src.end_ - src.ptr).toNat ≤ n →
      body_loop mem n src out = body mem src out ∧ body_loop mem n src out ≠ .nofuel)
    ∧ (∀ (mem : List Byte) (n : Nat) (src : string_t) (out : List Byte),
      (src.end_ - src.ptr).toNat + 1 ≤ n →
      list_loop mem n 45 src out ≠ .nofuel ∧ code_loop mem n 96 src out ≠ .nofuel)
    ∧ (∀ (file : Option (List Byte)) (cssmem : List Byte) (css : string_t),
      compile file cssmem css ≠ .nofuel
      ∧ ((∃ r, compile file cssmem css = .ok r) ∨ compile file cssmem css = .oob)) := by
  refine ⟨fun mem str term tw r str' h => advance_block_progress mem term tw str r str' h,
    ?_, ?_, fun mem fuel src out => ⟨list_loop_unfold mem fuel src out,
      code_loop_unfold mem fuel src out⟩, ?_, ?_, ?_⟩
  · intro mem src out ret src' out' hlt h
    have h1 := body_step_progress _ _ _ _ _ _ h
    have h2 := body_step_bound _ _ _ _ _ _ h hlt
    omega
  · intro mem src out c src' out' hle hend h
    rcases h with h | h
    · have := list_iter_progress mem src out c src' out' hle hend h
      omega
    · have := code_iter_progress mem src out c src' out' hle hend h
      omega
  · intro mem n src out h
    exact ⟨body_loop_fuel mem n _ src out h (le_refl _), body_loop_ne_nofuel mem n src out h⟩
  · intro mem n src out h
    exact ⟨list_loop_ne_nofuel mem n 45 src out (fun _ => h),
      code_loop_ne_nofuel mem n 96 src out (fun _ => h)⟩
  · intro file cssmem css
    have h := compile_ne_nofuel file cssmem css
    refine ⟨h, ?_⟩
    cases hc : compile file cssmem css with
    | ok r => exact Or.inl ⟨r, rfl⟩
    | oob => exact Or.inr rfl
    | nofuel => exact absurd hc h

/-! ## Spans handed to `render_block` on well-terminated documents -/

theorem load_in_range (mem : List Byte) (p : Int) (h0 : 0 ≤ p) (h1 : p < mem.length) :
    ∃ c, load mem p = .ok c := by
  have hlt : p.toNat < mem.length := by omega
  refine ⟨mem[p.toNat], ?_⟩
  unfold load
  rw [if_pos h0, List.getElem?_eq_getElem hlt]

theorem load_ok_iff (mem : List Byte) (p : Int) (c : Byte) :
    load mem p = .ok c ↔ 0 ≤ p ∧ mem[p.toNat]? = some c := by
  unfold load
  by_cases h0 : 0 ≤ p
  · rw [if_pos h0]
    cases mem[p.toNat]? with
    | none => simp [h0]
    | some d =>
      simp only [h0, true_and, Option.some.injEq]
      constructor
      · intro h; cases h; rfl
      · intro h; rw [h]
  · rw [if_neg h0]
    simp [h0]

theorem load_ok_bounds (mem : List Byte) (p : Int) (c : Byte) (h : load mem p = .ok c) :
    0 ≤ p ∧ p < mem.length := by
  rw [load_ok_iff] at h
  obtain ⟨h0, h1⟩ := h
  have := (List.getElem?_eq_some_iff.mp h1).1
  omega

theorem advance_loop_scan (mem : List Byte) (term : Byte) :
    ∀ (fuel : Nat) (str : string_t), 0 ≤ str.ptr → str.ptr ≤ str.end_ →
      str.end_ ≤ mem.length → (str.end_ - str.ptr).toNat ≤ fuel →
      ∃ str', advance_loop mem term fuel str = .ok str'
        ∧ (load mem (str'.ptr - 1) = .ok term
          ∨ (str'.ptr = str.end_
            ∧ ∀ r : Int, str.ptr ≤ r → r < str.end_ → load mem r ≠ .ok term)) := by
  intro fuel
  induction fuel with
  | zero =>
    intro str h0 hle hlen hf
    have hn : ¬ str.ptr < str.end_ := by omega
    refine ⟨str, by rw [advance_loop, if_neg hn], Or.inr ⟨by omega, fun r h1 h2 => by omega⟩⟩
  | succ f ih =>
    intro str h0 hle hlen hf
    by_cases hlt : str.ptr < str.end_
    · obtain ⟨c, hc⟩ := load_in_range mem str.ptr h0 (by omega)
      rw [advance_loop, if_pos hlt, hc]
      simp only [Res.ok_bind]
      by_cases hct : c = term
      · rw [if_pos hct]
        refine ⟨_, rfl, Or.inl ?_⟩
        simp only [add_sub_cancel_right]
        rw [hc, hct]
      · rw [if_neg hct]
        obtain ⟨s1, hs, hr⟩ := ih ⟨str.ptr + 1, str.end_⟩ (by simp only; omega)
          (by simp only; omega) hlen (by simp only; omega)
        refine ⟨s1, hs, ?_⟩
        rcases hr with hr | ⟨he, hall⟩
        · exact Or.inl hr
        · refine Or.inr ⟨he, fun r h1 h2 => ?_⟩
          by_cases hr : r = str.ptr
          · rw [hr, hc]
            intro e
            cases e
            exact hct rfl
          · exact hall r (by simp only; omega) h2
    · refine ⟨str, by rw [advance_loop, if_neg hlt], Or.inr ⟨by omega, fun r h1 h2 => by omega⟩⟩

theorem trim_loop_total (mem : List Byte) :
    ∀ (fuel : Nat) (str : string_t), 0 ≤ str.ptr → str.end_ ≤ mem.length →
      (str.end_ - str.ptr).toNat ≤ fuel → ∃ str', trim_loop mem fuel str = .ok str' := by
  intro fuel
  induction fuel with
  | zero =>
    intro str h0 hlen hf
    have hn : ¬ str.ptr < str.end_ := by omega
    exact ⟨str, by rw [trim_loop, if_neg hn]⟩
  | succ f ih =>
    intro str h0 hlen hf
    by_cases hlt : str.ptr < str.end_
    · obtain ⟨c0, hc0⟩ := load_in_range mem str.ptr h0 (by omega)
      obtain ⟨c1, hc1⟩ := load_in_range mem (str.end_ - 1) (by omega) (by omega)
      rw [trim_loop, if_pos hlt, hc0]
      simp only [Res.ok_bind]
      split
      · exact ih ⟨str.ptr + 1, str.end_⟩ (by simp only; omega) hlen (by simp only; omega)
      · rw [hc1]
        simp only [Res.ok_bind]
        split
        · exact ih ⟨str.ptr, str.end_ - 1⟩ h0 (by simp only; omega) (by simp only; omega)
        · exact ⟨str, rfl⟩
    · exact ⟨str, by rw [trim_loop, if_neg hlt]⟩

/-- Called with the cursor strictly before the end of the buffer, `advance_block`
reads inside the buffer only and returns a span inside the buffer; the cursor has
moved, and it stands behind a terminator unless there was none up to the end. -/
theorem advance_block_safe (mem : List Byte) (str : string_t) (term : Byte) (tw : Bool)
    (h0 : 0 ≤ str.ptr) (hlt : str.ptr < str.end_) (hlen : str.end_ ≤ mem.length) :
    ∃ r str', advance_block mem str term tw = .ok (r, str') ∧ span_in mem r
      ∧ str.ptr < str'.ptr ∧ str'.ptr ≤ str.end_ ∧ str'.end_ = str.end_
      ∧ (load mem (str'.ptr - 1) = .ok term
        ∨ (str'.ptr = str.end_
          ∧ ∀ r : Int, str.ptr ≤ r → r < str.end_ → load mem r ≠ .ok term)) := by
  obtain ⟨s1, hs, hr⟩ := advance_loop_scan mem term _ str h0 (by omega) hlen (le_refl _)
  have hp := advance_loop_progress mem term _ _ _ hs
  have hst := advance_loop_strict mem term _ _ _ hs hlt
  obtain ⟨r1, ht⟩ := trim_loop_total mem (((s1.ptr - 1) - str.ptr).toNat) ⟨str.ptr, s1.ptr - 1⟩
    h0 (by simp only; omega) (le_refl _)
  have htp := trim_loop_progress mem _ _ _ ht
  simp only at htp
  cases tw with
  | false =>
    refine ⟨⟨str.ptr, s1.ptr - 1⟩, s1, ?_, ?_, hst, by omega, hp.2.1, hr⟩
    · unfold advance_block
      rw [hs]
      rfl
    · unfold span_in
      dsimp only
      omega
  | true =>
    refine ⟨r1, s1, ?_, ?_, hst, by omega, hp.2.1, hr⟩
    · unfold advance_block trim
      rw [hs]
      simp only [Res.ok_bind, if_true]
      rw [ht]
      rfl
    · unfold span_in
      omega

theorem list_loop_erase (mem : List Byte) :
    ∀ (fuel : Nat) (c : Byte) (src : string_t) (out : List Byte) (tr : List string_t),
    Res.map (fun r => (r.1, r.2.1)) (list_loop_traced mem fuel c src out tr)
      = list_loop mem fuel c src out := by
  intro fuel
  induction fuel with
  | zero =>
    intro c src out tr
    rw [list_loop_traced, list_loop]
    split <;> rfl
  | succ f ih =>
    intro c src out tr
    rw [list_loop_traced, list_loop]
    split
    · cases advance_block mem src 10 true with
      | ok v =>
        obtain ⟨line, s1⟩ := v
        simp only [Res.ok_bind]
        cases render_block mem (out ++ bytes "<li>") line with
        | ok o =>
          simp only [Res.ok_bind]
          split
          · cases load mem s1.ptr with
            | ok d =>
              simp only [Res.ok_bind]
              split <;> exact ih _ _ _ _
            | oob => simp only [Res.map_oob, Res.oob_bind]
            | nofuel => simp only [Res.map_nofuel, Res.nofuel_bind]
          · exact ih _ _ _ _
        | oob => simp only [Res.map_oob, Res.oob_bind]
        | nofuel => simp only [Res.map_nofuel, Res.nofuel_bind]
      | oob => simp only [Res.map_oob, Res.oob_bind]
      | nofuel => simp only [Res.map_nofuel, Res.nofuel_bind]
    · rfl

theorem code_loop_erase (mem : List Byte) :
    ∀ (fuel : Nat) (c : Byte) (src : string_t) (out : List Byte) (tr : List string_t),
    Res.map (fun r => (r.1, r.2.1)) (code_loop_traced mem fuel c src out tr)
      = code_loop mem fuel c src out := by
  intro fuel
  induction fuel with
  | zero =>
    intro c src out tr
    rw [code_loop_traced, code_loop]
    split <;> rfl
  | succ f ih =>
    intro c src out tr
    rw [code_loop_traced, code_loop]
    split
    · cases advance_block mem src 10 false with
      | ok v =>
        obtain ⟨line, s1⟩ := v
        simp only [Res.ok_bind]
        cases render_block mem out line with
        | ok o =>
          simp only [Res.ok_bind]
          split
          · cases load mem s1.ptr with
            | ok d =>
              simp only [Res.ok_bind]
              split <;> exact ih _ _ _ _
            | oob => simp only [Res.map_oob, Res.oob_bind]
            | nofuel => simp only [Res.map_nofuel, Res.nofuel_bind]
          · exact ih _ _ _ _
        | oob => simp only [Res.map_oob, Res.oob_bind]
        | nofuel => simp only [Res.map_nofuel, Res.nofuel_bind]
      | oob => simp only [Res.map_oob, Res.oob_bind]
      | nofuel => simp only [Res.map_nofuel, Res.nofuel_bind]
    · rfl

theorem Res.map_bind {α β γ : Type} (f : β → γ) (x : Res α) (k : α → Res β) :
    Res.map f (x >>= k) = x >>= fun a => Res.map f (k a) := by
  cases x with
  | ok a => simp only [Res.ok_bind]
  | oob => simp only [Res.map_oob, Res.oob_bind]
  | nofuel => simp only [Res.map_nofuel, Res.nofuel_bind]

theorem Res.bind_map {α β γ : Type} (f : α → β) (x : Res α) (k : β → Res γ) :
    (Res.map f x >>= k) = x >>= fun a => k (f a) := by
  cases x with
  | ok a => simp only [Res.ok_bind, Res.map_ok]
  | oob => simp only [Res.map_oob, Res.oob_bind]
  | nofuel => simp only [Res.map_nofuel, Res.nofuel_bind]

theorem body_step_erase (mem : List Byte) (src : string_t) (out : List Byte)
    (tr : List string_t) :
    Res.map (fun r => (r.1, r.2.1, r.2.2.1)) (body_step_traced mem src out tr)
      = body_step mem src out := by
  unfold body_step_traced body_step
  rw [Res.map_bind]
  congr 1
  funext c
  dsimp only
  split
  · rfl
  split
  · simp only [Res.map_bind, Res.map_ok]
  split
  · simp only [Res.map_bind, Res.map_ok]
  split
  · simp only [Res.map_bind, Res.map_ok]
  split
  · rw [← list_loop_erase mem _ c _ _ tr]
    simp only [Res.map_bind, Res.map_ok, Res.bind_map]
  split
  · rw [← code_loop_erase mem _ c _ _ tr]
    simp only [Res.map_bind, Res.map_ok, Res.bind_map]
  · rfl

theorem body_loop_erase (mem : List Byte) :
    ∀ (fuel : Nat) (src : string_t) (out : List Byte) (tr : List string_t),
    Res.map (fun r => (r.1, r.2.1)) (body_loop_traced mem fuel src out tr)
      = body_loop mem fuel src out := by
  intro fuel
  induction fuel with
  | zero =>
    intro src out tr
    rw [body_loop_traced, body_loop]
    split <;> rfl
  | succ f ih =>
    intro src out tr
    rw [body_loop_traced, body_loop]
    split
    · rw [← body_step_erase mem src out tr, Res.map_bind, Res.bind_map]
      congr 1
      funext r
      obtain ⟨ret, s1, o1, t1⟩ := r
      cases ret with
      | some code => rfl
      | none => exact ih _ _ _
    · rfl

/-- Dropping the ghost list from `compile_traced` gives `compile`. -/
theorem compile_erase (file : Option (List Byte)) (cssmem : List Byte) (css : string_t) :
    Res.map (fun r => (r.1, r.2.1)) (compile_traced file cssmem css)
      = compile file cssmem css := by
  unfold compile_traced compile
  cases file with
  | none => rfl
  | some mem =>
    dsimp only
    simp only [Res.map_bind]
    congr 1
    funext r1
    congr 1
    funext r2
    congr 1
    funext o
    unfold body
    rw [← body_loop_erase mem _ _ _ [r2.1, r2.1, r1.1], Res.bind_map]
    congr 1
    funext r
    obtain ⟨ret, o1, t1⟩ := r
    cases ret with
    | some code => rfl
    | none => rfl

theorem list_loop_traced_safe (mem : List Byte) (hlen : mem.length < 4294967296)
    (hlast : load mem (mem.length - 1) = .ok 10) :
    ∀ (fuel : Nat) (c : Byte) (src : string_t) (out : List Byte) (tr : List string_t),
    src.end_ = mem.length → 0 ≤ src.ptr → src.ptr ≤ src.end_ →
    (c = 45 → src.ptr < src.end_ ∧ (src.end_ - src.ptr).toNat + 1 ≤ fuel) →
    (c ≠ 45 → src.ptr = src.end_ ∨ load mem (src.ptr - 1) = .ok 10) →
    (∀ s ∈ tr, span_in mem s) →
    ∃ src' out' tr', list_loop_traced mem fuel c src out tr = .ok (src', out', tr')
      ∧ src.ptr ≤ src'.ptr ∧ src'.ptr ≤ src.end_ ∧ src'.end_ = src.end_
      ∧ (src'.ptr = src'.end_ ∨ load mem (src'.ptr - 1) = .ok 10)
      ∧ ∀ s ∈ tr', span_in mem s := by
  intro fuel
  induction fuel with
  | zero =>
    intro c src out tr hend h0 hle hc hnc htr
    have hc45 : c ≠ 45 := fun e => by have := (hc e).2; omega
    refine ⟨src, out, tr, ?_, le_refl _, hle, rfl, ?_, htr⟩
    · rw [list_loop_traced, if_neg hc45]
    · rcases hnc hc45 with h | h
      · exact Or.inl h
      · exact Or.inr h
  | succ f ih =>
    intro c src out tr hend h0 hle hc hnc htr
    by_cases hc45 : c = 45
    · obtain ⟨hlt, hf⟩ := hc hc45
      obtain ⟨r, s1, hadv, hspan, hst, hle1, hend1, hfound⟩ :=
        advance_block_safe mem src 10 true h0 hlt (by omega)
      have hline : s1.ptr = s1.end_ ∨ load mem (s1.ptr - 1) = .ok 10 := by
        rcases hfound with h | ⟨h, _⟩
        · exact Or.inr h
        · exact Or.inl (by omega)
      have htr1 : ∀ s ∈ tr ++ [r], span_in mem s := by
        intro s hs
        rcases List.mem_append.mp hs with h | h
        · exact htr s h
        · rw [List.mem_singleton.mp h]; exact hspan
      rw [list_loop_traced, if_pos hc45, hadv]
      simp only [Res.ok_bind]
      rw [render_block_valid mem _ r hspan hlen]
      simp only [Res.ok_bind]
      by_cases h2 : s1.ptr < s1.end_
      · obtain ⟨d, hd⟩ := load_in_range mem s1.ptr (by omega) (by omega)
        rw [if_pos h2, hd]
        simp only [Res.ok_bind]
        by_cases hd45 : d = 45
        · rw [if_pos hd45]
          have hne : s1.ptr ≠ mem.length - 1 := by
            intro e
            rw [e, hlast] at hd
            cases hd
            exact absurd hd45 (by decide)
          obtain ⟨s2, o2, t2, hrun, g1, g2, g3, g4, g5⟩ :=
            ih d ⟨s1.ptr + 1, s1.end_⟩ _ _ (by simp only; omega) (by simp only; omega)
              (by simp only; omega) (fun _ => ⟨by simp only; omega, by simp only; omega⟩)
              (fun h => absurd hd45 h) htr1
          simp only at g1 g2 g3
          exact ⟨s2, o2, t2, hrun, by omega, by omega, by omega, g4, g5⟩
        · rw [if_neg hd45]
          obtain ⟨s2, o2, t2, hrun, g1, g2, g3, g4, g5⟩ :=
            ih 32 s1 _ _ (by omega) (by omega) (by omega) (fun h => absurd h (by decide))
              (fun _ => hline) htr1
          exact ⟨s2, o2, t2, hrun, by omega, by omega, by omega, g4, g5⟩
      · rw [if_neg h2]
        obtain ⟨s2, o2, t2, hrun, g1, g2, g3, g4, g5⟩ :=
          ih 32 s1 _ _ (by omega) (by omega) (by omega) (fun h => absurd h (by decide))
            (fun _ => hline) htr1
        exact ⟨s2, o2, t2, hrun, by omega, by omega, by omega, g4, g5⟩
    · refine ⟨src, out, tr, ?_, le_refl _, hle, rfl, hnc hc45, htr⟩
      rw [list_loop_traced, if_neg hc45]

theorem code_loop_traced_safe (mem : List Byte) (hlen : mem.length < 4294967296)
    (hlast : load mem (mem.length - 1) = .ok 10) :
    ∀ (fuel : Nat) (c : Byte) (src : string_t) (out : List Byte) (tr : List string_t),
    src.end_ = mem.length → 0 ≤ src.ptr → src.ptr ≤ src.end_ →
    (c = 96 → src.ptr < src.end_ ∧ (src.end_ - src.ptr).toNat + 1 ≤ fuel) →
    (c ≠ 96 → src.ptr = src.end_ ∨ load mem (src.ptr - 1) = .ok 10) →
    (∀ s ∈ tr, span_in mem s) →
    ∃ src' out' tr', code_loop_traced mem fuel c src out tr = .ok (src', out', tr')
      ∧ src.ptr ≤ src'.ptr ∧ src'.ptr ≤ src.end_ ∧ src'.end_ = src.end_
      ∧ (src'.ptr = src'.end_ ∨ load mem (src'.ptr - 1) = .ok 10)
      ∧ ∀ s ∈ tr', span_in mem s := by
  intro fuel
  induction fuel with
  | zero =>
    intro c src out tr hend h0 hle hc hnc htr
    have hc96 : c ≠ 96 := fun e => by have := (hc e).2; omega
    refine ⟨src, out, tr, ?_, le_refl _, hle, rfl, ?_, htr⟩
    · rw [code_loop_traced, if_neg hc96]
    · rcases hnc hc96 with h | h
      · exact Or.inl h
      · exact Or.inr h
  | succ f ih =>
    intro c src out tr hend h0 hle hc hnc htr
    by_cases hc96 : c = 96
    · obtain ⟨hlt, hf⟩ := hc hc96
      obtain ⟨r, s1, hadv, hspan, hst, hle1, hend1, hfound⟩ :=
        advance_block_safe mem src 10 false h0 hlt (by omega)
      have hline : s1.ptr = s1.end_ ∨ load mem (s1.ptr - 1) = .ok 10 := by
        rcases hfound with h | ⟨h, _⟩
        · exact Or.inr h
        · exact Or.inl (by omega)
      have htr1 : ∀ s ∈ tr ++ [r], span_in mem s := by
        intro s hs
        rcases List.mem_append.mp hs with h | h
        · exact htr s h
        · rw [List.mem_singleton.mp h]; exact hspan
      rw [code_loop_traced, if_pos hc96, hadv]
      simp only [Res.ok_bind]
      rw [render_block_valid mem _ r hspan hlen]
      simp only [Res.ok_bind]
      by_cases h2 : s1.ptr < s1.end_
      · obtain ⟨d, hd⟩ := load_in_range mem s1.ptr (by omega) (by omega)
        rw [if_pos h2, hd]
        simp only [Res.ok_bind]
        by_cases hd96 : d = 96
        · rw [if_pos hd96]
          have hne : s1.ptr ≠ mem.length - 1 := by
            intro e
            rw [e, hlast] at hd
            cases hd
            exact absurd hd96 (by decide)
          obtain ⟨s2, o2, t2, hrun, g1, g2, g3, g4, g5⟩ :=
            ih d ⟨s1.ptr + 1, s1.end_⟩ _ _ (by simp only; omega) (by simp only; omega)
              (by simp only; omega) (fun _ => ⟨by simp only; omega, by simp only; omega⟩)
              (fun h => absurd hd96 h) htr1
          simp only at g1 g2 g3
          exact ⟨s2, o2, t2, hrun, by omega, by omega, by omega, g4, g5⟩
        · rw [if_neg hd96]
          obtain ⟨s2, o2, t2, hrun, g1, g2, g3, g4, g5⟩ :=
            ih 32 s1 _ _ (by omega) (by omega) (by omega) (fun h => absurd h (by decide))
              (fun _ => hline) htr1
          exact ⟨s2, o2, t2, hrun, by omega, by omega, by omega, g4, g5⟩
      · rw [if_neg h2]
        obtain ⟨s2, o2, t2, hrun, g1, g2, g3, g4, g5⟩ :=
          ih 32 s1 _ _ (by omega) (by omega) (by omega) (fun h => absurd h (by decide))
            (fun _ => hline) htr1
        exact ⟨s2, o2, t2, hrun, by omega, by omega, by omega, g4, g5⟩
    · refine ⟨src, out, tr, ?_, le_refl _, hle, rfl, hnc hc96, htr⟩
      rw [code_loop_traced, if_neg hc96]

theorem span_in_snoc (mem : List Byte) (tr : List string_t) (r : string_t)
    (htr : ∀ s ∈ tr, span_in mem s) (hr : span_in mem r) : ∀ s ∈ tr ++ [r], span_in mem s := by
  intro s hs
  rcases List.mem_append.mp hs with h | h
  · exact htr s h
  · rw [List.mem_singleton.mp h]; exact hr

theorem not_last_of_ne_newline (mem : List Byte) (p : Int) (c : Byte)
    (hlast : load mem (mem.length - 1) = .ok 10) (hc : load mem p = .ok c) (hne : c ≠ 10) :
    p + 1 < mem.length := by
  have hb := load_ok_bounds mem p c hc
  have : p ≠ mem.length - 1 := by
    intro e
    rw [e, hlast] at hc
    cases hc
    exact hne rfl
  omega

theorem body_step_traced_safe (mem : List Byte) (hlen : mem.length < 4294967296)
    (hlast : load mem (mem.length - 1) = .ok 10)
    (hlink : ∀ p : Int, load mem (p - 1) = .ok 10 → load mem p = .ok 33 →
      ∃ q : Int, p < q ∧ load mem q = .ok 124)
    (src : string_t) (out : List Byte) (tr : List string_t)
    (hend : src.end_ = mem.length) (h0 : 0 ≤ src.ptr) (hlt : src.ptr < src.end_)
    (hline : load mem (src.ptr - 1) = .ok 10) (htr : ∀ s ∈ tr, span_in mem s) :
    ∃ ret src' out' tr', body_step_traced mem src out tr = .ok (ret, src', out', tr')
      ∧ src.ptr < src'.ptr ∧ src'.ptr ≤ src.end_ ∧ src'.end_ = src.end_
      ∧ (ret = none → src'.ptr = src'.end_ ∨ load mem (src'.ptr - 1) = .ok 10)
      ∧ (∀ s ∈ tr', span_in mem s)
      ∧ (ret ≠ none → ∀ c, load mem src.ptr = .ok c →
          ¬ (c = 10 ∨ c = 32 ∨ c = 35 ∨ c = 33 ∨ c = 45 ∨ c = 96)) := by
  obtain ⟨c, hc⟩ := load_in_range mem src.ptr h0 (by omega)
  unfold body_step_traced
  rw [hc]
  simp only [Res.ok_bind]
  by_cases c10 : c = 10
  · rw [if_pos c10]
    refine ⟨none, _, out, tr, rfl, by simp only; omega, by simp only; omega, rfl,
      fun _ => Or.inr ?_, htr, fun h => absurd rfl h⟩
    simp only [add_sub_cancel_right]
    rw [hc, c10]
  rw [if_neg c10]
  have hnl := not_last_of_ne_newline mem src.ptr c hlast hc c10
  by_cases c32 : c = 32
  · rw [if_pos c32]
    obtain ⟨r, s1, hadv, hspan, hst, hle1, hend1, hfound⟩ :=
      advance_block_safe mem ⟨src.ptr + 1, src.end_⟩ 10 true (by simp only; omega)
        (by simp only; omega) (by simp only; omega)
    simp only at hst hle1 hend1
    rw [hadv]
    simp only [Res.ok_bind]
    rw [render_block_valid mem _ r hspan hlen]
    refine ⟨none, s1, _, _, rfl, by omega, by omega, by omega, fun _ => ?_,
      span_in_snoc mem tr r htr hspan, fun h => absurd rfl h⟩
    rcases hfound with h | ⟨h, _⟩
    · exact Or.inr h
    · exact Or.inl (by simp only at h; omega)
  rw [if_neg c32]
  by_cases c35 : c = 35
  · rw [if_pos c35]
    obtain ⟨r, s1, hadv, hspan, hst, hle1, hend1, hfound⟩ :=
      advance_block_safe mem ⟨src.ptr + 1, src.end_⟩ 10 true (by simp only; omega)
        (by simp only; omega) (by simp only; omega)
    simp only at hst hle1 hend1
    rw [hadv]
    simp only [Res.ok_bind]
    rw [render_block_valid mem _ r hspan hlen]
    refine ⟨none, s1, _, _, rfl, by omega, by omega, by omega, fun _ => ?_,
      span_in_snoc mem tr r htr hspan, fun h => absurd rfl h⟩
    rcases hfound with h | ⟨h, _⟩
    · exact Or.inr h
    · exact Or.inl (by simp only at h; omega)
  rw [if_neg c35]
  by_cases c33 : c = 33
  · rw [if_pos c33]
    obtain ⟨r, s1, hadv, hspan, hst, hle1, hend1, hfound⟩ :=
      advance_block_safe mem ⟨src.ptr + 1, src.end_⟩ 124 true (by simp only; omega)
        (by simp only; omega) (by simp only; omega)
    simp only at hst hle1 hend1 hfound
    have hbar : load mem (s1.ptr - 1) = .ok 124 := by
      rcases hfound with h | ⟨_, h⟩
      · exact h
      · obtain ⟨q, hq, hq124⟩ := hlink src.ptr hline (by rw [hc, c33])
        have hb := load_ok_bounds mem q 124 hq124
        exact absurd hq124 (h q (by omega) (by omega))
    have hs1 := not_last_of_ne_newline mem (s1.ptr - 1) 124 hlast hbar (by decide)
    obtain ⟨r2, s2, hadv2, hspan2, hst2, hle2, hend2, hfound2⟩ :=
      advance_block_safe mem s1 10 true (by omega) (by omega) (by omega)
    rw [hadv]
    simp only [Res.ok_bind]
    rw [hadv2]
    simp only [Res.ok_bind]
    rw [render_block_valid mem _ r hspan hlen]
    simp only [Res.ok_bind]
    rw [render_block_valid mem _ r2 hspan2 hlen]
    refine ⟨none, s2, _, _, rfl, by omega, by omega, by omega, fun _ => ?_,
      span_in_snoc mem _ r2 (span_in_snoc mem tr r htr hspan) hspan2, fun h => absurd rfl h⟩
    rcases hfound2 with h | ⟨h, _⟩
    · exact Or.inr h
    · exact Or.inl (by omega)
  rw [if_neg c33]
  by_cases c45 : c = 45
  · rw [if_pos c45]
    obtain ⟨s1, o1, t1, hrun, g1, g2, g3, g4, g5⟩ :=
      list_loop_traced_safe mem hlen hlast ((src.end_ - (src.ptr + 1)).toNat + 2) c
        ⟨src.ptr + 1, src.end_⟩ (out ++ bytes "<ul>") tr hend (by simp only; omega)
        (by simp only; omega) (fun _ => ⟨by simp only; omega, by simp only; omega⟩)
        (fun h => absurd c45 h) htr
    simp only at g1 g2 g3
    rw [hrun]
    exact ⟨none, s1, _, t1, rfl, by omega, by omega, by omega, fun _ => g4, g5,
      fun h => absurd rfl h⟩
  rw [if_neg c45]
  by_cases c96 : c = 96
  · rw [if_pos c96]
    obtain ⟨s1, o1, t1, hrun, g1, g2, g3, g4, g5⟩ :=
      code_loop_traced_safe mem hlen hlast ((src.end_ - (src.ptr + 1)).toNat + 2) c
        ⟨src.ptr + 1, src.end_⟩ (out ++ bytes "<pre>") tr hend (by simp only; omega)
        (by simp only; omega) (fun _ => ⟨by simp only; omega, by simp only; omega⟩)
        (fun h => absurd c96 h) htr
    simp only at g1 g2 g3
    rw [hrun]
    exact ⟨none, s1, _, t1, rfl, by omega, by omega, by omega, fun _ => g4, g5,
      fun h => absurd rfl h⟩
  rw [if_neg c96]
  refine ⟨some 1, _, out, tr, rfl, by simp only; omega, by simp only; omega, rfl,
    fun h => Option.noConfusion h, htr, fun _ d hd => ?_⟩
  cases hd
  rintro (h | h | h | h | h | h) <;> contradiction

theorem body_loop_traced_safe (mem : List Byte) (hlen : mem.length < 4294967296)
    (hlast : load mem (mem.length - 1) = .ok 10)
    (hlink : ∀ p : Int, load mem (p - 1) = .ok 10 → load mem p = .ok 33 →
      ∃ q : Int, p < q ∧ load mem q = .ok 124) :
    ∀ (fuel : Nat) (src : string_t) (out : List Byte) (tr : List string_t),
    src.end_ = mem.length → 0 ≤ src.ptr → src.ptr ≤ src.end_ →
    (src.end_ - src.ptr).toNat ≤ fuel →
    (src.ptr = src.end_ ∨ load mem (src.ptr - 1) = .ok 10) →
    (∀ s ∈ tr, span_in mem s) →
    ∃ ret out' tr', body_loop_traced mem fuel src out tr = .ok (ret, out', tr')
      ∧ (∀ s ∈ tr', span_in mem s)
      ∧ ((∀ (p : Int) (c : Byte), load mem (p - 1) = .ok 10 → load mem p = .ok c →
          c = 10 ∨ c = 32 ∨ c = 35 ∨ c = 33 ∨ c = 45 ∨ c = 96) → ret = none) := by
  intro fuel
  induction fuel with
  | zero =>
    intro src out tr hend h0 hle hf hline htr
    have hn : ¬ src.ptr < src.end_ := by omega
    exact ⟨none, out, tr, by rw [body_loop_traced, if_neg hn], htr, fun _ => rfl⟩
  | succ f ih =>
    intro src out tr hend h0 hle hf hline htr
    by_cases hlt : src.ptr < src.end_
    · have hl : load mem (src.ptr - 1) = .ok 10 := by
        rcases hline with h | h
        · omega
        · exact h
      obtain ⟨ret, s1, o1, t1, hrun, g1, g2, g3, g4, g5, g6⟩ :=
        body_step_traced_safe mem hlen hlast hlink src out tr hend h0 hlt hl htr
      rw [body_loop_traced, if_pos hlt, hrun]
      simp only [Res.ok_bind]
      cases ret with
      | some code =>
        refine ⟨some code, o1, t1, rfl, g5, fun hrec => ?_⟩
        obtain ⟨c, hc⟩ := load_in_range mem src.ptr h0 (by omega)
        exact absurd (hrec src.ptr c hl hc) (g6 (fun h => Option.noConfusion h) c hc)
      | none =>
        exact ih s1 o1 t1 (by omega) (by omega) (by omega) (by omega) (g4 rfl) g5
    · exact ⟨none, out, tr, by rw [body_loop_traced, if_neg hlt], htr, fun _ => rfl⟩

theorem load_nat (mem : List Byte) (q : Nat) (c : Byte) (h : mem[q]? = some c) :
    load mem (q : Int) = .ok c := by
  rw [load_ok_iff]
  exact ⟨by omega, by simpa using h⟩

theorem last_newline_load (mem : List Byte) (hlast : mem.getLast? = some 10) :
    0 < mem.length ∧ load mem (mem.length - 1) = .ok 10 := by
  have hpos : 0 < mem.length := by
    cases mem with
    | nil => simp at hlast
    | cons a l => simp
  refine ⟨hpos, ?_⟩
  rw [List.getLast?_eq_getElem?] at hlast
  have := load_nat mem (mem.length - 1) 10 hlast
  rwa [Nat.cast_sub (by omega), Nat.cast_one] at this

theorem links_closed_load (mem : List Byte) (hlinks : links_closed mem) :
    ∀ p : Int, load mem (p - 1) = .ok 10 → load mem p = .ok 33 →
      ∃ q : Int, p < q ∧ load mem q = .ok 124 := by
  intro p h1 h2
  have b1 := load_ok_bounds mem _ _ h1
  rw [load_ok_iff] at h1 h2
  have e : p.toNat = (p - 1).toNat + 1 := by omega
  rw [e] at h2
  obtain ⟨q, _, hq, h124, _⟩ := hlinks (p - 1).toNat (by omega) h1.2 h2.2
  exact ⟨(q : Int), by omega, load_nat mem q 124 h124⟩

theorem lines_recognized_load (mem : List Byte) (h : lines_recognized mem) :
    ∀ (p : Int) (c : Byte), load mem (p - 1) = .ok 10 → load mem p = .ok c →
      c = 10 ∨ c = 32 ∨ c = 35 ∨ c = 33 ∨ c = 45 ∨ c = 96 := by
  intro p c h1 h2
  have b1 := load_ok_bounds mem _ _ h1
  rw [load_ok_iff] at h1 h2
  have e : p.toNat = (p - 1).toNat + 1 := by omega
  rw [e] at h2
  have := h (p - 1).toNat (by omega) h1.2
  rw [h2.2] at this
  simpa using this

theorem render_header_valid (mem : List Byte) (date title : string_t) (cssmem : List Byte)
    (css : string_t) (out : List Byte) (hd : span_in mem date) (ht : span_in mem title)
    (hlen : mem.length < 4294967296) (hcss : span_in cssmem css)
    (hcsslen : cssmem.length < 4294967296) :
    ∃ out', render_header mem date title cssmem css out = .ok out' := by
  unfold render_header
  simp only [render_block_valid mem _ title ht hlen, render_block_valid cssmem _ css hcss hcsslen,
    render_block_valid mem _ date hd hlen, Res.ok_bind]
  exact ⟨_, rfl⟩

theorem compile_traced_safe (mem cssmem : List Byte) (css : string_t)
    (hlast : mem.getLast? = some 10) (hhead : bar_on_line mem 0) (hlinks : links_closed mem)
    (hlen : mem.length < 4294967296) (hcss : span_in cssmem css)
    (hcsslen : cssmem.length < 4294967296) :
    ∃ code out spans, compile_traced (some mem) cssmem css = .ok (code, out, spans)
      ∧ (∀ s ∈ spans, span_in mem s)
      ∧ (lines_recognized mem → code = 0) := by
  have hpos := (last_newline_load mem hlast).1
  have hl := (last_newline_load mem hlast).2
  have hlink := links_closed_load mem hlinks
  obtain ⟨q0, _, _, hq0, _⟩ := hhead
  have hq0 := load_nat mem q0 124 hq0
  obtain ⟨date, s1, hadv, hspan, hst, hle1, hend1, hfound⟩ :=
    advance_block_safe mem ⟨0, mem.length⟩ 124 true (le_refl _) (by simp only; omega)
      (le_refl _)
  simp only at hst hle1 hend1 hfound
  have hbar : load mem (s1.ptr - 1) = .ok 124 := by
    rcases hfound with h | ⟨_, h⟩
    · exact h
    · have hb := load_ok_bounds mem _ _ hq0
      exact absurd hq0 (h q0 (by omega) (by omega))
  have hs1 := not_last_of_ne_newline mem (s1.ptr - 1) 124 hl hbar (by decide)
  obtain ⟨title, s2, hadv2, hspan2, hst2, hle2, hend2, hfound2⟩ :=
    advance_block_safe mem s1 10 true (by omega) (by omega) (by omega)
  obtain ⟨o1, hh⟩ := render_header_valid mem date title cssmem css [] hspan hspan2 hlen
    hcss hcsslen
  have hline : s2.ptr = s2.end_ ∨ load mem (s2.ptr - 1) = .ok 10 := by
    rcases hfound2 with h | ⟨h, _⟩
    · exact Or.inr h
    · exact Or.inl (by omega)
  have htr : ∀ s ∈ [title, title, date], span_in mem s := by
    intro s hs
    simp only [List.mem_cons, List.mem_singleton, List.not_mem_nil, or_false] at hs
    rcases hs with h | h | h <;> rw [h] <;> assumption
  obtain ⟨ret, o2, t2, hrun, g, gret⟩ :=
    body_loop_traced_safe mem hlen hl hlink (s2.end_ - s2.ptr).toNat s2 o1
      [title, title, date] (by omega) (by omega) (by omega) (le_refl _) hline htr
  unfold compile_traced
  simp only
  rw [hadv]
  simp only [Res.ok_bind]
  rw [hadv2]
  simp only [Res.ok_bind]
  rw [hh]
  simp only [Res.ok_bind]
  rw [hrun]
  simp only [Res.ok_bind]
  cases ret with
  | some code =>
    refine ⟨code, o2, t2, rfl, g, fun hrec => ?_⟩
    have hnone := gret (lines_recognized_load mem hrec)
    cases hnone
  | none => exact ⟨0, _, t2, rfl, g, fun _ => rfl⟩

/-- C16: on a document whose last byte is a newline, whose first line contains a
'|', and in which every '!' at the start of a body line has a '|' behind it on the
same line (the stylesheet being a span of its buffer, both buffers below 2^32 bytes),
`compile` runs to its end without reading outside a buffer, and every span of the
document it hands to `render_block` (date, title, paragraph, heading, link, label,
list item, code line) has `0 ≤ ptr ≤ end ≤ length`; `render_block` then writes the
escaped bytes of exactly that span. -/
theorem compile_spans_safe (mem cssmem : List Byte) (css : string_t)
    (hlast : mem.getLast? = some 10) (hhead : bar_on_line mem 0) (hlinks : links_closed mem)
    (hlen : mem.length < 4294967296) (hcss : span_in cssmem css)
    (hcsslen : cssmem.length < 4294967296) :
    ∃ code out spans, compile_traced (some mem) cssmem css = .ok (code, out, spans)
      ∧ compile (some mem) cssmem css = .ok (code, out)
      ∧ ∀ s ∈ spans, (0 ≤ s.ptr ∧ s.ptr ≤ s.end_ ∧ s.end_ ≤ mem.length)
        ∧ ∀ o, render_block mem o s = .ok (o ++ escape (slice mem s)) := by
  obtain ⟨code, out, spans, hrun, hs, _⟩ :=
    compile_traced_safe mem cssmem css hlast hhead hlinks hlen hcss hcsslen
  refine ⟨code, out, spans, hrun, ?_, fun s h => ⟨hs s h, fun o => ?_⟩⟩
  · rw [← compile_erase, hrun]
    rfl
  · exact render_block_valid mem o s (hs s h) hlen

theorem compile_spans_safe_witness :
    ∃ code out spans,
      compile_traced (some (bytes "d|t\n p\n!u|l\n-a\n-b\n`c\n")) (bytes "x") ⟨0, 1⟩
        = .ok (code, out, spans)
      ∧ compile (some (bytes "d|t\n p\n!u|l\n-a\n-b\n`c\n")) (bytes "x") ⟨0, 1⟩ = .ok (code, out)
      ∧ ∀ s ∈ spans,
        (0 ≤ s.ptr ∧ s.ptr ≤ s.end_
          ∧ s.end_ ≤ (bytes "d|t\n p\n!u|l\n-a\n-b\n`c\n").length)
        ∧ ∀ o, render_block (bytes "d|t\n p\n!u|l\n-a\n-b\n`c\n") o s
          = .ok (o ++ escape (slice (bytes "d|t\n p\n!u|l\n-a\n-b\n`c\n") s)) :=
  compile_spans_safe (bytes "d|t\n p\n!u|l\n-a\n-b\n`c\n") (bytes "x") ⟨0, 1⟩
    (by decide) (by decide) (by decide) (by decide) (by decide) (by decide)

/-- C18 (the code departs from it): the documents "d|t\n#" and "d|t\n!a\n" have a
header line with a '|' and a newline, and their body lines begin with '#' and '!';
on both `compile` does not return 0 but reads outside the buffer, because
`advance_block` is called with the cursor at the end of the buffer (behind the lead
byte '#' of a last line without newline; behind a link line without '|') and the
span it returns has its `end` below its `ptr`. When the last byte of the document is
a newline and every '!' at the start of a line has a '|' behind it on that line,
the property holds: an iteration of the body loop entered behind a newline leaves
the cursor at the end of the buffer or behind a newline, and when every line behind
the first is empty or begins with a lead byte, `compile` returns 0. -/
theorem compile_recognized_lines :
    compile (some (bytes "d|t\n#")) (bytes "") ⟨0, 0⟩ = .oob
    ∧ compile (some (bytes "d|t\n!a\n")) (bytes "") ⟨0, 0⟩ = .oob
    ∧ lines_recognized (bytes "d|t\n#") ∧ lines_recognized (bytes "d|t\n!a\n")
    ∧ bar_on_line (bytes "d|t\n#") 0 ∧ bar_on_line (bytes "d|t\n!a\n") 0
    ∧ (∀ (mem : List Byte) (src : string_t) (out : List Byte) (src' : string_t)
        (out' : List Byte),
      mem.getLast? = some 10 → links_closed mem → mem.length < 4294967296 →
      src.end_ = mem.length → 0 ≤ src.ptr → src.ptr < src.end_ →
      load mem (src.ptr - 1) = .ok 10 →
      body_step mem src out = .ok (none, src', out') →
      src'.ptr = src'.end_ ∨ load mem (src'.ptr - 1) = .ok 10)
    ∧ (∀ (mem cssmem : List Byte) (css : string_t),
      mem.getLast? = some 10 → bar_on_line mem 0 → links_closed mem →
      lines_recognized mem → mem.length < 4294967296 → span_in cssmem css →
      cssmem.length < 4294967296 →
      ∃ out, compile (some mem) cssmem css = .ok (0, out)) := by
  refine ⟨by decide, by decide, by decide, by decide, by decide, by decide, ?_, ?_⟩
  · intro mem src out src' out' hlast hlinks hlen hend h0 hlt hline hstep
    obtain ⟨ret, s1, o1, t1, hrun, _, _, _, g4, _, _⟩ :=
      body_step_traced_safe mem hlen (last_newline_load mem hlast).2
        (links_closed_load mem hlinks) src out [] hend h0 hlt hline
        (fun s h => absurd h (List.not_mem_nil s))
    rw [← body_step_erase mem src out [], hrun] at hstep
    simp only [Res.map_ok, Res.ok.injEq, Prod.mk.injEq] at hstep
    obtain ⟨e1, e2, _⟩ := hstep
    rw [← e2]
    exact g4 e1
  · intro mem cssmem css hlast hhead hlinks hrec hlen hcss hcsslen
    obtain ⟨code, out, spans, hrun, _, hcode⟩ :=
      compile_traced_safe mem cssmem css hlast hhead hlinks hlen hcss hcsslen
    refine ⟨out, ?_⟩
    rw [← compile_erase, hrun, hcode hrec]
    rfl

/-! ## The escaper -/

theorem escape_cons (c : Byte) (s : List Byte) : escape (c :: s) = render_char c ++ escape s := by
  simp [escape]

theorem render_char_cases (c : Byte) :
    (c = 60 ∧ render_char c = [38, 108, 116, 59])
    ∨ (c = 62 ∧ render_char c = [38, 103, 116, 59])
    ∨ (c = 38 ∧ render_char c = [38, 97, 109, 112, 59])
    ∨ (c ≠ 60 ∧ c ≠ 62 ∧ c ≠ 38 ∧ render_char c = [c]) := by
  by_cases h1 : c = 60
  · subst h1; exact Or.inl ⟨rfl, by decide⟩
  by_cases h2 : c = 62
  · subst h2; exact Or.inr (Or.inl ⟨rfl, by decide⟩)
  by_cases h3 : c = 38
  · subst h3; exact Or.inr (Or.inr (Or.inl ⟨rfl, by decide⟩))
  · exact Or.inr (Or.inr (Or.inr ⟨h1, h2, h3, by simp [render_char, h1, h2, h3]⟩))

theorem escape_no_angle (s : List Byte) : 60 ∉ escape s ∧ 62 ∉ escape s := by
  induction s with
  | nil => simp [escape]
  | cons c s ih =>
    rw [escape_cons]
    rcases render_char_cases c with ⟨_, h⟩ | ⟨_, h⟩ | ⟨_, h⟩ | ⟨h1, h2, _, h⟩
    · rw [h]; simp [ih.1, ih.2]
    · rw [h]; simp [ih.1, ih.2]
    · rw [h]; simp [ih.1, ih.2]
    · rw [h]
      simp only [List.singleton_append, List.mem_cons, not_or]
      exact ⟨⟨fun e => h1 e.symm, ih.1⟩, ⟨fun e => h2 e.symm, ih.2⟩⟩

theorem escape_amp_entity (s : List Byte) :
    ∀ pre post : List Byte, escape s = pre ++ 38 :: post →
      [108, 116, 59] <+: post ∨ [103, 116, 59] <+: post ∨ [97, 109, 112, 59] <+: post := by
  induction s with
  | nil =>
    intro pre post h
    simp [escape] at h
  | cons c s ih =>
    intro pre post h
    rw [escape_cons] at h
    rcases render_char_cases c with ⟨_, hc⟩ | ⟨_, hc⟩ | ⟨_, hc⟩ | ⟨_, _, h3, hc⟩
    · rw [hc] at h
      rcases pre with _ | ⟨a, _ | ⟨b, _ | ⟨d, _ | ⟨e, pre⟩⟩⟩⟩
      · simp only [List.nil_append, List.cons_append, List.cons.injEq, true_and] at h
        exact Or.inl ⟨escape s, h⟩
      · simp at h
      · simp at h
      · simp at h
      · simp only [List.cons_append, List.cons.injEq, List.nil_append] at h
        exact ih pre post h.2.2.2.2
    · rw [hc] at h
      rcases pre with _ | ⟨a, _ | ⟨b, _ | ⟨d, _ | ⟨e, pre⟩⟩⟩⟩
      · simp only [List.nil_append, List.cons_append, List.cons.injEq, true_and] at h
        exact Or.inr (Or.inl ⟨escape s, h⟩)
      · simp at h
      · simp at h
      · simp at h
      · simp only [List.cons_append, List.cons.injEq, List.nil_append] at h
        exact ih pre post h.2.2.2.2
    · rw [hc] at h
      rcases pre with _ | ⟨a, _ | ⟨b, _ | ⟨d, _ | ⟨e, _ | ⟨f, pre⟩⟩⟩⟩⟩
      · simp only [List.nil_append, List.cons_append, List.cons.injEq, true_and] at h
        exact Or.inr (Or.inr ⟨escape s, h⟩)
      · simp at h
      · simp at h
      · simp at h
      · simp at h
      · simp only [List.cons_append, List.cons.injEq, List.nil_append] at h
        exact ih pre post h.2.2.2.2.2
    · rw [hc] at h
      rcases pre with _ | ⟨a, pre⟩
      · simp only [List.nil_append, List.cons_append, List.cons.injEq] at h
        exact absurd h.1 h3
      · simp only [List.cons_append, List.cons.injEq, List.nil_append] at h
        exact ih pre post h.2

theorem escape_injective (s : List Byte) : ∀ s' : List Byte, escape s = escape s' → s = s' := by
  induction s with
  | nil =>
    intro s' h
    cases s' with
    | nil => rfl
    | cons d s' =>
      rw [escape_cons] at h
      rcases render_char_cases d with ⟨_, hd⟩ | ⟨_, hd⟩ | ⟨_, hd⟩ | ⟨_, _, _, hd⟩ <;>
        rw [hd] at h <;> simp [escape] at h
  | cons c s ih =>
    intro s' h
    cases s' with
    | nil =>
      rw [escape_cons] at h
      rcases render_char_cases c with ⟨_, hc⟩ | ⟨_, hc⟩ | ⟨_, hc⟩ | ⟨_, _, _, hc⟩ <;>
        rw [hc] at h <;> simp [escape] at h
    | cons d s' =>
      rw [escape_cons, escape_cons] at h
      rcases render_char_cases c with ⟨c1, hc⟩ | ⟨c1, hc⟩ | ⟨c1, hc⟩ | ⟨c1, c2, c3, hc⟩ <;>
        rcases render_char_cases d with ⟨d1, hd⟩ | ⟨d1, hd⟩ | ⟨d1, hd⟩ | ⟨d1, d2, d3, hd⟩ <;>
        rw [hc, hd] at h <;>
        simp only [List.cons_append, List.nil_append, List.cons.injEq, true_and,
          Nat.reduceEqDiff, false_and, and_false] at h
      · rw [c1, d1, ih s' h]
      · exact absurd h.1.symm d3
      · rw [c1, d1, ih s' h]
      · exact absurd h.1.symm d3
      · rw [c1, d1, ih s' h]
      · exact absurd h.1.symm d3
      · exact absurd h.1 c3
      · exact absurd h.1 c3
      · exact absurd h.1 c3
      · rw [h.1, ih s' h.2]

theorem render_loop_written (mem : List Byte) (str : string_t) :
    ∀ (n i : Nat) (out out' : List Byte), render_loop mem str n i out = .ok out' →
      ∃ t : List Byte, t.length = n ∧ out' = out ++ escape t := by
  intro n
  induction n with
  | zero =>
    intro i out out' h
    rw [render_loop] at h
    cases h
    exact ⟨[], rfl, by simp [escape]⟩
  | succ n ih =>
    intro i out out' h
    rw [render_loop, Res.bind_eq_ok] at h
    obtain ⟨c, _, h⟩ := h
    obtain ⟨t, ht, e⟩ := ih _ _ _ h
    exact ⟨c :: t, by simp [ht], by rw [e, escape_cons, List.append_assoc]⟩

theorem render_block_written (mem out : List Byte) (str : string_t) (out' : List Byte)
    (h : render_block mem out str = .ok out') : ∃ t : List Byte, out' = out ++ escape t := by
  obtain ⟨t, _, e⟩ := render_loop_written mem str _ _ _ _ h
  exact ⟨t, e⟩

theorem render_block_tags (mem out : List Byte) (str : string_t) (out' : List Byte)
    (h : render_block mem out str = .ok out') (ho : TagsAndText out) : TagsAndText out' := by
  obtain ⟨t, e⟩ := render_block_written mem out str out' h
  rw [e]
  exact TagsAndText.text out t ho

theorem list_loop_tags (mem : List Byte) :
    ∀ (fuel : Nat) (c : Byte) (src : string_t) (out : List Byte) (src' : string_t)
      (out' : List Byte),
    list_loop mem fuel c src out = .ok (src', out') → TagsAndText out → TagsAndText out' := by
  intro fuel
  induction fuel with
  | zero =>
    intro c src out src' out' h ho
    rw [list_loop] at h
    split at h
    · simp at h
    · cases h; exact ho
  | succ f ih =>
    intro c src out src' out' h ho
    rw [list_loop] at h
    split at h
    · rw [Res.bind_eq_ok] at h
      obtain ⟨⟨line, s1⟩, _, h⟩ := h
      simp only at h
      rw [Res.bind_eq_ok] at h
      obtain ⟨o1, hr, h⟩ := h
      have h1 : TagsAndText (o1 ++ bytes "</li>") :=
        TagsAndText.tag _ "</li>" (by decide)
          (render_block_tags _ _ _ _ hr (TagsAndText.tag _ "<li>" (by decide) ho))
      split at h
      · rw [Res.bind_eq_ok] at h
        obtain ⟨d, _, h⟩ := h
        split at h
        · exact ih _ _ _ _ _ h h1
        · exact ih _ _ _ _ _ h h1
      · exact ih _ _ _ _ _ h h1
    · cases h; exact ho

theorem code_loop_tags (mem : List Byte) :
    ∀ (fuel : Nat) (c : Byte) (src : string_t) (out : List Byte) (src' : string_t)
      (out' : List Byte),
    code_loop mem fuel c src out = .ok (src', out') → TagsAndText out → TagsAndText out' := by
  intro fuel
  induction fuel with
  | zero =>
    intro c src out src' out' h ho
    rw [code_loop] at h
    split at h
    · simp at h
    · cases h; exact ho
  | succ f ih =>
    intro c src out src' out' h ho
    rw [code_loop] at h
    split at h
    · rw [Res.bind_eq_ok] at h
      obtain ⟨⟨line, s1⟩, _, h⟩ := h
      simp only at h
      rw [Res.bind_eq_ok] at h
      obtain ⟨o1, hr, h⟩ := h
      have h1 : TagsAndText (o1 ++ bytes "\n") :=
        TagsAndText.tag _ "\n" (by decide) (render_block_tags _ _ _ _ hr ho)
      split at h
      · rw [Res.bind_eq_ok] at h
        obtain ⟨d, _, h⟩ := h
        split at h
        · exact ih _ _ _ _ _ h h1
        · exact ih _ _ _ _ _ h h1
      · exact ih _ _ _ _ _ h h1
    · cases h; exact ho

theorem body_step_tags (mem : List Byte) (src : string_t) (out : List Byte)
    (ret : Option Int) (src' : string_t) (out' : List Byte)
    (h : body_step mem src out = .ok (ret, src', out')) (ho : TagsAndText out) :
    TagsAndText out' := by
  unfold body_step at h
  rw [Res.bind_eq_ok] at h
  obtain ⟨c, _, h⟩ := h
  simp only at h
  split at h
  · cases h; exact ho
  split at h
  · rw [Res.bind_eq_ok] at h
    obtain ⟨⟨line, s1⟩, _, h⟩ := h
    simp only at h
    rw [Res.bind_eq_ok] at h
    obtain ⟨o1, hr, h⟩ := h
    cases h
    exact TagsAndText.tag _ "</p>" (by decide)
      (render_block_tags _ _ _ _ hr (TagsAndText.tag _ "<p>" (by decide) ho))
  split at h
  · rw [Res.bind_eq_ok] at h
    obtain ⟨⟨line, s1⟩, _, h⟩ := h
    simp only at h
    rw [Res.bind_eq_ok] at h
    obtain ⟨o1, hr, h⟩ := h
    cases h
    exact TagsAndText.tag _ "</h2>" (by decide)
      (render_block_tags _ _ _ _ hr (TagsAndText.tag _ "<h2>" (by decide) ho))
  split at h
  · rw [Res.bind_eq_ok] at h
    obtain ⟨⟨link, s1⟩, _, h⟩ := h
    simp only at h
    rw [Res.bind_eq_ok] at h
    obtain ⟨⟨label, s2⟩, _, h⟩ := h
    simp only at h
    rw [Res.bind_eq_ok] at h
    obtain ⟨o1, hr1, h⟩ := h
    rw [Res.bind_eq_ok] at h
    obtain ⟨o2, hr2, h⟩ := h
    cases h
    exact TagsAndText.tag _ "</a></p>" (by decide)
      (render_block_tags _ _ _ _ hr2 (TagsAndText.tag _ "\">" (by decide)
        (render_block_tags _ _ _ _ hr1 (TagsAndText.tag _ "<p><a href=\"" (by decide) ho))))
  split at h
  · rw [Res.bind_eq_ok] at h
    obtain ⟨⟨s1, o1⟩, h1, h⟩ := h
    simp only at h
    cases h
    exact TagsAndText.tag _ "</ul>" (by decide)
      (list_loop_tags _ _ _ _ _ _ _ h1 (TagsAndText.tag _ "<ul>" (by decide) ho))
  split at h
  · rw [Res.bind_eq_ok] at h
    obtain ⟨⟨s1, o1⟩, h1, h⟩ := h
    simp only at h
    cases h
    exact TagsAndText.tag _ "</pre>" (by decide)
      (code_loop_tags _ _ _ _ _ _ _ h1 (TagsAndText.tag _ "<pre>" (by decide) ho))
  · cases h; exact ho

theorem body_loop_tags (mem : List Byte) :
    ∀ (fuel : Nat) (src : string_t) (out : List Byte) (ret : Option Int) (out' : List Byte),
    body_loop mem fuel src out = .ok (ret, out') → TagsAndText out → TagsAndText out' := by
  intro fuel
  induction fuel with
  | zero =>
    intro src out ret out' h ho
    rw [body_loop] at h
    split at h
    · simp at h
    · cases h; exact ho
  | succ f ih =>
    intro src out ret out' h ho
    rw [body_loop] at h
    split at h
    · rw [Res.bind_eq_ok] at h
      obtain ⟨⟨r, s1, o1⟩, hs, h⟩ := h
      have h1 := body_step_tags _ _ _ _ _ _ hs ho
      cases r with
      | some code => cases h; exact h1
      | none => exact ih _ _ _ _ h h1
    · cases h; exact ho

theorem render_header_tags (mem : List Byte) (date title : string_t) (cssmem : List Byte)
    (css : string_t) (out out' : List Byte)
    (h : render_header mem date title cssmem css out = .ok out') (ho : TagsAndText out) :
    TagsAndText out' := by
  unfold render_header at h
  rw [Res.bind_eq_ok] at h
  obtain ⟨o1, hr1, h⟩ := h
  rw [Res.bind_eq_ok] at h
  obtain ⟨o2, hr2, h⟩ := h
  rw [Res.bind_eq_ok] at h
  obtain ⟨o3, hr3, h⟩ := h
  rw [Res.bind_eq_ok] at h
  obtain ⟨o4, hr4, h⟩ := h
  cases h
  have t1 := render_block_tags _ _ _ _ hr1 (TagsAndText.tag _ "<title>" (by decide)
    (TagsAndText.tag _ "<meta charset=\"utf-8\">" (by decide)
      (TagsAndText.tag _ "<!DOCTYPE html><head>" (by decide) ho)))
  have t2 := render_block_tags _ _ _ _ hr2 (TagsAndText.tag _ "<style>" (by decide)
    (TagsAndText.tag _ "</title>" (by decide) t1))
  have t3 := render_block_tags _ _ _ _ hr3 (TagsAndText.tag _ "<h1>" (by decide)
    (TagsAndText.tag _ "</head><body>" (by decide)
      (TagsAndText.tag _ "</style>" (by decide) t2)))
  have t4 := render_block_tags _ _ _ _ hr4 (TagsAndText.tag _ "<p class=\"subt\">" (by decide)
    (TagsAndText.tag _ "</h1>" (by decide) t3))
  exact TagsAndText.tag _ "</p>" (by decide) t4

theorem compile_tags (file : Option (List Byte)) (cssmem : List Byte) (css : string_t)
    (code : Int) (out : List Byte) (h : compile file cssmem css = .ok (code, out)) :
    TagsAndText out := by
  unfold compile at h
  cases file with
  | none => cases h; exact TagsAndText.nil
  | some mem =>
    simp only at h
    rw [Res.bind_eq_ok] at h
    obtain ⟨⟨date, s1⟩, _, h⟩ := h
    simp only at h
    rw [Res.bind_eq_ok] at h
    obtain ⟨⟨title, s2⟩, _, h⟩ := h
    simp only at h
    rw [Res.bind_eq_ok] at h
    obtain ⟨o1, hh, h⟩ := h
    rw [Res.bind_eq_ok] at h
    obtain ⟨⟨ret, o2⟩, hb, h⟩ := h
    have t1 := render_header_tags _ _ _ _ _ _ _ hh TagsAndText.nil
    have t2 := body_loop_tags _ _ _ _ _ _ hb t1
    cases ret with
    | some c => cases h; exact t2
    | none =>
      cases h
      exact TagsAndText.tag _ "</body></html>" (by decide)
        (TagsAndText.tag _
          "<p class=\"back\"><a href=\"index.html\">&larr; Back to index</a></p>"
          (by decide) t2)

/-- C19: whatever the span, the bytes `render_block` writes are the escaped form of
the bytes it read (of the content of the span when the span lies inside the buffer);
they contain no '<' and no '>', and every '&' among them begins "&lt;", "&gt;" or
"&amp;". A page written by `compile` is a sequence of string literals of `compile`
and of such escaped texts, so that its '<' and '>' bytes all lie in the literals. -/
theorem no_markup_injection :
    (∀ (mem out : List Byte) (str : string_t) (out' : List Byte),
      render_block mem out str = .ok out' →
      ∃ t w : List Byte, out' = out ++ w ∧ w = escape t ∧ 60 ∉ w ∧ 62 ∉ w
        ∧ ∀ pre post : List Byte, w = pre ++ 38 :: post →
          bytes "lt;" <+: post ∨ bytes "gt;" <+: post ∨ bytes "amp;" <+: post)
    ∧ (∀ (mem out : List Byte) (str : string_t), span_in mem str →
      mem.length < 4294967296 →
      render_block mem out str = .ok (out ++ escape (slice mem str)))
    ∧ (∀ (file : Option (List Byte)) (cssmem : List Byte) (css : string_t) (code : Int)
        (out : List Byte),
      compile file cssmem css = .ok (code, out) → TagsAndText out)
    ∧ render_block (bytes "a<b>&c") [] ⟨0, 6⟩ = .ok (bytes "a&lt;b&gt;&amp;c")
    ∧ compile (some (bytes "<i>|&\n <p>\n")) (bytes "<") ⟨0, 1⟩
      = .ok (0, bytes "<!DOCTYPE html><head><meta charset=\"utf-8\"><title>&amp;</title><style>&lt;</style></head><body><h1>&amp;</h1><p class=\"subt\">&lt;i&gt;</p><p>&lt;p&gt;</p><p class=\"back\"><a href=\"index.html\">&larr; Back to index</a></p></body></html>") := by
  refine ⟨?_, ?_, ?_, by decide, by decide⟩
  · intro mem out str out' h
    obtain ⟨t, e⟩ := render_block_written mem out str out' h
    refine ⟨t, escape t, e, rfl, (escape_no_angle t).1, (escape_no_angle t).2, ?_⟩
    intro pre post hw
    exact escape_amp_entity t pre post hw
  · intro mem out str h hlen
    exact render_block_valid mem out str h hlen
  · intro file cssmem css code out h
    exact compile_tags file cssmem css code out h

/-- C20: the escaper is injective. Two byte strings with the same escaped form are
equal; two spans inside their buffers for which `render_block` writes the same bytes
have the same content; "&lt;" and "<" are written differently; and the escaped
bytes determine the text (the escaper has a left inverse). -/
theorem escaper_injective :
    (∀ s s' : List Byte, escape s = escape s' → s = s')
    ∧ (∀ (mem mem' out : List Byte) (str str' : string_t),
      span_in mem str → span_in mem' str' → mem.length < 4294967296 →
      mem'.length < 4294967296 →
      render_block mem out str = render_block mem' out str' →
      slice mem str = slice mem' str')
    ∧ escape (bytes "&lt;") = bytes "&amp;lt;" ∧ escape (bytes "<") = bytes "&lt;"
    ∧ Function.HasLeftInverse escape := by
  refine ⟨fun s s' h => escape_injective s s' h, ?_, by decide, by decide, ?_⟩
  · intro mem mem' out str str' h h' hlen hlen' e
    rw [render_block_valid mem out str h hlen, render_block_valid mem' out str' h' hlen'] at e
    simp only [Res.ok.injEq, List.append_cancel_left_eq] at e
    exact escape_injective _ _ e
  · exact Function.Injective.hasLeftInverse (fun s s' h => escape_injective s s' h)

/-! ## The body as a sequence of blocks -/

theorem markup_lead (b : Block) (h : b.wf) : ∃ rest, b.markup = b.lead :: rest := by
  cases b with
  | blank => exact ⟨[], rfl⟩
  | paragraph t => exact ⟨_, rfl⟩
  | heading t => exact ⟨_, rfl⟩
  | link hr l => exact ⟨_, rfl⟩
  | list items =>
    cases items with
    | nil => exact absurd rfl h.1
    | cons i items =>
      exact ⟨i ++ 10 :: list_lines items, by simp [Block.markup, Block.lead, list_lines]⟩
  | code lines =>
    cases lines with
    | nil => exact absurd rfl h.1
    | cons i lines =>
      exact ⟨i ++ 10 :: code_lines lines, by simp [Block.markup, Block.lead, code_lines]⟩

theorem blocks_markup_head (bs : List Block) (hwf : ∀ b ∈ bs, b.wf) :
    (bs.flatMap Block.markup).head? = bs.head?.map Block.lead := by
  cases bs with
  | nil => rfl
  | cons b bs =>
    obtain ⟨rest, e⟩ := markup_lead b (hwf b (List.mem_cons_self _ _))
    simp [List.flatMap_cons, e]

theorem body_step_newline (pre rest out : List Byte) :
    body_step (pre ++ 10 :: rest) ⟨pre.length, (pre ++ 10 :: rest).length⟩ out
      = .ok (none, ⟨pre.length + 1, (pre ++ 10 :: rest).length⟩, out) := by
  have hl : load (pre ++ 10 :: rest) (pre.length : Int) = .ok 10 :=
    load_at _ pre rest 10 _ rfl rfl
  unfold body_step
  simp only [hl, Res.ok_bind]
  rw [if_pos trivial]

/-- One iteration of the body loop at the markup of a well-formed block writes the
HTML of the block and leaves the cursor behind the markup. -/
theorem body_step_block (b : Block) (hb : b.wf) (pre rest out : List Byte)
    (h45 : b.lead = 45 → rest.head? ≠ some 45) (h96 : b.lead = 96 → rest.head? ≠ some 96)
    (hlen : (pre ++ (b.markup ++ rest)).length < 4294967296) :
    body_step (pre ++ (b.markup ++ rest)) ⟨pre.length, (pre ++ (b.markup ++ rest)).length⟩ out
      = .ok (none, ⟨(pre ++ b.markup).length, (pre ++ (b.markup ++ rest)).length⟩,
          out ++ b.html) := by
  cases b with
  | blank =>
    have h := body_step_newline pre rest out
    simp only [Block.markup, Block.html, List.singleton_append, List.append_nil,
      List.length_append, List.length_cons, List.length_nil] at h ⊢
    rw [h]
    push_cast
    rfl
  | paragraph t =>
    have e : pre ++ (Block.markup (.paragraph t) ++ rest) = pre ++ 32 :: (t ++ 10 :: rest) := by
      simp [Block.markup]
    rw [e] at hlen ⊢
    rw [body_step_paragraph pre t rest out hb hlen]
    simp only [Block.markup, Block.html, List.length_append, List.length_cons,
      List.length_nil, List.append_assoc]
    push_cast
    congr 4
    ring
  | heading t =>
    have e : pre ++ (Block.markup (.heading t) ++ rest) = pre ++ 35 :: (t ++ 10 :: rest) := by
      simp [Block.markup]
    rw [e] at hlen ⊢
    rw [body_step_heading pre t rest out hb hlen]
    simp only [Block.markup, Block.html, List.length_append, List.length_cons,
      List.length_nil, List.append_assoc]
    push_cast
    congr 4
    ring
  | link hr l =>
    have e : pre ++ (Block.markup (.link hr l) ++ rest)
        = pre ++ 33 :: (hr ++ 124 :: (l ++ 10 :: rest)) := by
      simp [Block.markup]
    rw [e] at hlen ⊢
    rw [body_step_link pre hr l rest out hb.1 hb.2 hlen]
    simp only [Block.markup, Block.html, List.length_append, List.length_cons,
      List.length_nil, List.append_assoc]
    push_cast
    congr 4
    ring
  | list items =>
    cases items with
    | nil => exact absurd rfl hb.1
    | cons i items =>
      have e : pre ++ (Block.markup (.list (i :: items)) ++ rest)
          = pre ++ 45 :: (i ++ 10 :: (list_lines items ++ rest)) := by
        simp [Block.markup, list_lines]
      have e2 : Block.markup (.list (i :: items)) = 45 :: (i ++ 10 :: list_lines items) := by
        simp [Block.markup, list_lines]
      rw [e] at hlen ⊢
      rw [body_step_list pre i rest out items (h45 rfl)
        (hb.2 i (List.mem_cons_self _ _))
        (fun x hx => hb.2 x (List.mem_cons_of_mem _ hx)) hlen, e2]
      simp only [Block.html, List.length_append, List.length_cons, List.append_assoc]
      push_cast
      congr 4
      ring
  | code lines =>
    cases lines with
    | nil => exact absurd rfl hb.1
    | cons i lines =>
      have e : pre ++ (Block.markup (.code (i :: lines)) ++ rest)
          = pre ++ 96 :: (i ++ 10 :: (code_lines lines ++ rest)) := by
        simp [Block.markup, code_lines]
      have e2 : Block.markup (.code (i :: lines)) = 96 :: (i ++ 10 :: code_lines lines) := by
        simp [Block.markup, code_lines]
      rw [e] at hlen ⊢
      rw [body_step_code pre i rest out lines (h96 rfl)
        (hb.2 i (List.mem_cons_self _ _))
        (fun x hx => hb.2 x (List.mem_cons_of_mem _ hx)) hlen, e2]
      simp only [Block.html, List.length_append, List.length_cons, List.append_assoc]
      push_cast
      congr 4
      ring

/-- The body loop on the markup of a sequence of well-formed blocks, none of them a
list behind a list or a code block behind a code block, runs to the end of the
buffer and writes the HTML of the blocks in their order. -/
theorem body_blocks (bs : List Block) :
    (∀ b ∈ bs, b.wf) → List.Chain' Block.apart bs → ∀ pre out : List Byte,
    (pre ++ bs.flatMap Block.markup).length < 4294967296 →
    body (pre ++ bs.flatMap Block.markup)
        ⟨pre.length, (pre ++ bs.flatMap Block.markup).length⟩ out
      = .ok (none, out ++ bs.flatMap Block.html) := by
  induction bs with
  | nil =>
    intro _ _ pre out _
    rw [body_at_end _ _ _ (by simp)]
    simp
  | cons b bs ih =>
    intro hwf hch pre out hlen
    have hb := hwf b (List.mem_cons_self _ _)
    have hwf1 : ∀ c ∈ bs, c.wf := fun c hc => hwf c (List.mem_cons_of_mem _ hc)
    have hhead := blocks_markup_head bs hwf1
    have hap : ∀ c, bs.head? = some c → Block.apart b c := by
      intro c hc
      cases bs with
      | nil => simp at hc
      | cons c1 bs1 =>
        simp only [List.head?_cons, Option.some.injEq] at hc
        subst hc
        exact (List.chain'_cons.mp hch).1
    have h45 : b.lead = 45 → (bs.flatMap Block.markup).head? ≠ some 45 := by
      intro hl
      rw [hhead]
      cases hbs : bs.head? with
      | none => simp
      | some c =>
        simp only [Option.map_some', ne_eq, Option.some.injEq]
        exact (hap c hbs).1 hl
    have h96 : b.lead = 96 → (bs.flatMap Block.markup).head? ≠ some 96 := by
      intro hl
      rw [hhead]
      cases hbs : bs.head? with
      | none => simp
      | some c =>
        simp only [Option.map_some', ne_eq, Option.some.injEq]
        exact (hap c hbs).2 hl
    rw [List.flatMap_cons] at hlen ⊢
    have hstep := body_step_block b hb pre (bs.flatMap Block.markup) out h45 h96 hlen
    obtain ⟨rest, hm⟩ := markup_lead b hb
    have hlt : (⟨pre.length, (pre ++ (b.markup ++ bs.flatMap Block.markup)).length⟩ : string_t).ptr
        < (⟨pre.length, (pre ++ (b.markup ++ bs.flatMap Block.markup)).length⟩ : string_t).end_ := by
      simp only [hm, List.length_append, List.length_cons]
      push_cast
      omega
    rw [body_of_step _ _ _ _ _ hlt hstep]
    have h := ih hwf1 (List.Chain'.tail hch) (pre ++ b.markup) (out ++ b.html)
      (by rw [List.append_assoc]; exact hlen)
    rw [List.append_assoc] at h
    rw [h, List.flatMap_cons, List.append_assoc]

/-- C5 (the code departs from it): the document "d|t\n a" has the body " a", one
paragraph with the text "a" and no unrecognized lead byte; `compile` returns 0 but
writes `<p></p>` for it, the last byte of the text being dropped, where the HTML of
the paragraph is `<p>a</p>`; on "d|t\n#" `compile` does not return 0 but reads outside
the buffer. Both come from `advance_block` ending its span one byte early when it
has met no terminator. Where every block of the body ends in its newline the claim
holds: for a document `D ++ "|" ++ T ++ "\n"` followed by the markup of well-formed
blocks (no list directly behind a list, no code block directly behind a code block),
`compile` returns 0 and the page is the fixed head with the escaped trimmed title,
stylesheet and date, then the HTML of the blocks in source order, then the back link
and the closing tags; the round-trip document of the specification is such a
document and is evaluated. -/
theorem compile_block_sequence :
    compile (some (bytes "d|t\n a")) (bytes "") ⟨0, 0⟩
      = .ok (0, bytes "<!DOCTYPE html><head><meta charset=\"utf-8\"><title>t</title><style></style></head><body><h1>t</h1><p class=\"subt\">d</p><p></p><p class=\"back\"><a href=\"index.html\">&larr; Back to index</a></p></body></html>")
    ∧ Block.html (.paragraph (bytes "a")) = bytes "<p>a</p>"
    ∧ compile (some (bytes "d|t\n#")) (bytes "") ⟨0, 0⟩ = .oob
    ∧ (∀ (css D T : List Byte) (blocks : List Block),
      124 ∉ D → 10 ∉ T → (∀ b ∈ blocks, b.wf) → List.Chain' Block.apart blocks →
      (D ++ 124 :: (T ++ 10 :: blocks.flatMap Block.markup)).length < 4294967296 →
      css.length < 4294967296 →
      compile (some (D ++ 124 :: (T ++ 10 :: blocks.flatMap Block.markup))) css
          ⟨0, css.length⟩
        = .ok (0, bytes "<!DOCTYPE html><head><meta charset=\"utf-8\"><title>"
            ++ escape (trim_two_pass T)
            ++ bytes "</title><style>" ++ escape css ++ bytes "</style></head><body><h1>"
            ++ escape (trim_two_pass T)
            ++ bytes "</h1><p class=\"subt\">" ++ escape (trim_two_pass D) ++ bytes "</p>"
            ++ blocks.flatMap Block.html
            ++ bytes "<p class=\"back\"><a href=\"index.html\">&larr; Back to index</a></p></body></html>"))
    ∧ bytes "2024-01-01 | My Title\n Hello world\n# Section\n- one\n- two\n! http://x.com | link\n"
      = bytes "2024-01-01 " ++ 124 :: (bytes " My Title" ++ 10 ::
          [Block.paragraph (bytes "Hello world"), Block.heading (bytes " Section"),
            Block.list [bytes " one", bytes " two"],
            Block.link (bytes " http://x.com ") (bytes " link")].flatMap Block.markup)
    ∧ [Block.paragraph (bytes "Hello world"), Block.heading (bytes " Section"),
        Block.list [bytes " one", bytes " two"],
        Block.link (bytes " http://x.com ") (bytes " link")].flatMap Block.html
      = bytes "<p>Hello world</p><h2>Section</h2><ul><li>one</li><li>two</li></ul><p><a href=\"http://x.com\">link</a></p>"
    ∧ compile (some (bytes "2024-01-01 | My Title\n Hello world\n# Section\n- one\n- two\n! http://x.com | link\n"))
        (bytes "h1 > a") ⟨0, 6⟩
      = .ok (0, bytes "<!DOCTYPE html><head><meta charset=\"utf-8\"><title>My Title</title><style>h1 &gt; a</style></head><body><h1>My Title</h1><p class=\"subt\">2024-01-01</p><p>Hello world</p><h2>Section</h2><ul><li>one</li><li>two</li></ul><p><a href=\"http://x.com\">link</a></p><p class=\"back\"><a href=\"index.html\">&larr; Back to index</a></p></body></html>") := by
  refine ⟨by decide, by decide, by decide, ?_, by decide, by decide, by decide⟩
  intro css D T blocks hD hT hwf hch hlen hcss
  have hb := body_blocks blocks hwf hch [] [] (by
    simp only [List.nil_append]
    simp only [List.length_append, List.length_cons] at hlen
    omega)
  simp only [List.nil_append, List.length_nil, Nat.cast_zero] at hb
  exact compile_of_body css D T (blocks.flatMap Block.markup) (blocks.flatMap Block.html)
    hD hT hlen hcss hb

end Sitegen
